import Mathlib

/-! Jungle-Engine: the layout schema and the typed buffer of `CoreLib/DynamicBuffer.h`, and
the reflection helper of `CoreLib/ShaderReflection.h`.

A shallow embedding of `UBufferElementLayout`, `UBufferElement`, `UDynamicBuffer` and of
`UShaderReflection::ReflectConstantBufferVariable`, followed by theorems about them: first all
definitions (the embedding, the predicates used in statements, the schemas of the test
program), then all theorems.

Conventions of the embedding

* `size_t` is a natural number below `SIZE_MOD = 2 ^ 64`; every `size_t` addition, subtraction
  and multiplication of the source is written with an explicit `% SIZE_MOD`.
* A failed `assert`, a dereference of a null pointer or of `end()`, an out-of-range
  `operator[]` on a `std::vector` and a `memcpy` outside the byte region are all the result
  `none`; a call that returns normally is `some`.
* Mutating member functions take the object and return the new object.
* A pointer into `Buffer` is the byte position relative to `Buffer.data()`.
* A value of a C++ type is its object representation, a list of `sizeof` bytes; the target is
  little-endian with a 32-bit `int`.
-/

namespace JungleEngine

/-! ## `namespace HLSL` -/

/-- The enumeration `HLSL::EType`. -/
inductive EType where
  | Bool
  | Int
  | Float
  | Float3
  | Float4
  | Matrix
  | Struct
  | Padding
  deriving DecidableEq, Repr

/-- The modulus of `size_t` arithmetic (64-bit target). -/
def SIZE_MOD : Nat := 2 ^ 64

/-- The constant `HLSL::TypeInfo<Type>::Size`: `sizeof` of `bool32 = uint32_t`, `int32_t`,
`float`, `FVector` (3 floats), `FVector4` (4 floats), `FMatrix` (4x4 floats). There is no
specialisation for `Struct` and `Padding` (`none`). -/
def TypeInfo.Size : EType → Option Nat
  | .Bool => some 4
  | .Int => some 4
  | .Float => some 4
  | .Float3 => some 12
  | .Float4 => some 16
  | .Matrix => some 64
  | .Struct => none
  | .Padding => none

/-! ## `class UBufferElementLayout` -/

mutual
/-- The record `UBufferElementLayout::FField`; `Layout` is the `TUniquePtr`, `none` when null.
(`Type_` stands for the member `Type`.) -/
inductive FField where
  | mk (Type_ : EType) (Name : String) (Stride : Nat) (Offset : Nat)
      (Layout : Option UBufferElementLayout)
/-- The class `UBufferElementLayout`: `Fields`, `FieldIndexMap` (an association list with
unique keys), `Stride`, `bIsFinalized`. -/
inductive UBufferElementLayout where
  | mk (Fields : List FField) (FieldIndexMap : List (String × Nat)) (Stride : Nat)
      (bIsFinalized : Bool)
end

namespace FField

/-- Member `Type`. -/
def Type_ : FField → EType
  | .mk t _ _ _ _ => t

/-- Member `Name`. -/
def Name : FField → String
  | .mk _ n _ _ _ => n

/-- Member `Stride`. -/
def Stride : FField → Nat
  | .mk _ _ s _ _ => s

/-- Member `Offset`. -/
def Offset : FField → Nat
  | .mk _ _ _ o _ => o

/-- Member `Layout`. -/
def Layout : FField → Option UBufferElementLayout
  | .mk _ _ _ _ l => l

end FField

/-- The assignment `Map[Key] = Value` of `std::unordered_map`: the entry under `Key` is
replaced, or created. -/
def TMap.set (m : List (String × Nat)) (k : String) (v : Nat) : List (String × Nat) :=
  (k, v) :: m.filter (fun p => p.1 != k)

/-- The lookup `Map.find(Key)`: `none` is `end()`. -/
def TMap.find (m : List (String × Nat)) (k : String) : Option Nat :=
  m.lookup k

namespace UBufferElementLayout

/-- Member `Fields`. -/
def Fields : UBufferElementLayout → List FField
  | .mk fs _ _ _ => fs

/-- Member `FieldIndexMap`. -/
def FieldIndexMap : UBufferElementLayout → List (String × Nat)
  | .mk _ m _ _ => m

/-- Member `Stride`. -/
def Stride : UBufferElementLayout → Nat
  | .mk _ _ s _ => s

/-- Member `bIsFinalized`. -/
def bIsFinalized : UBufferElementLayout → Bool
  | .mk _ _ _ b => b

/-- The default constructor: no fields, `Stride(0)`, `bIsFinalized(false)`. -/
def empty : UBufferElementLayout := .mk [] [] 0 false

/-- The statements `Fields.push_back(Field); FieldIndexMap[InName] = Fields.size() - 1;`. -/
def pushNamed (L : UBufferElementLayout) (Field : FField) (InName : String) :
    UBufferElementLayout :=
  .mk (L.Fields ++ [Field]) (TMap.set L.FieldIndexMap InName ((L.Fields ++ [Field]).length - 1))
    L.Stride L.bIsFinalized

/-- The template `Append<Type>(InName)`. A `Struct` gets a fresh empty nested layout and the
deferred stride 0; any other type gets `TypeInfo<Type>::Size` (an instantiation without a
`TypeInfo` specialisation does not exist: `none`). -/
def Append (t : EType) (InName : String) (L : UBufferElementLayout) :
    Option UBufferElementLayout :=
  if L.bIsFinalized then none
  else
    match t with
    | .Struct => some (L.pushNamed (.mk .Struct InName 0 0 (some empty)) InName)
    | t =>
      match TypeInfo.Size t with
      | none => none
      | some sz => some (L.pushNamed (.mk t InName sz 0 none) InName)

/-- The member `AppendStruct(InName, Layout)`. -/
def AppendStruct (InName : String) (Layout : UBufferElementLayout) (L : UBufferElementLayout) :
    Option UBufferElementLayout :=
  if L.bIsFinalized then none
  else some (L.pushNamed (.mk .Struct InName 0 0 (some Layout)) InName)

/-- The member `AppendPadding(Bytes)`; `Bytes` is a `size_t`. Nothing is entered in
`FieldIndexMap`. -/
def AppendPadding (Bytes : Nat) (L : UBufferElementLayout) : Option UBufferElementLayout :=
  if L.bIsFinalized then none
  else if Bytes = 0 then some L
  else some (.mk (L.Fields ++ [.mk .Padding "Padding" Bytes 0 none]) L.FieldIndexMap L.Stride
    L.bIsFinalized)

/-- The member `GetStride()`. -/
def GetStride (L : UBufferElementLayout) : Option Nat :=
  if L.bIsFinalized then some L.Stride else none

/-- The member `GetFields()`. -/
def GetFields (L : UBufferElementLayout) : Option (List FField) :=
  if L.bIsFinalized then some L.Fields else none

/-- The member `GetField(size_t Index)`. -/
def GetFieldAt (L : UBufferElementLayout) (Index : Nat) : Option FField :=
  if L.bIsFinalized then L.Fields.get? Index else none

/-- The member `GetField(const FString& Name)`. -/
def GetField (L : UBufferElementLayout) (Name : String) : Option FField :=
  if L.bIsFinalized then
    match TMap.find L.FieldIndexMap Name with
    | none => none
    | some Index => L.GetFieldAt Index
  else none

/-- The member `operator[](Name)` of the layout: the nested layout of a `Struct` field of an
open layout. -/
def descend (L : UBufferElementLayout) (Name : String) : Option UBufferElementLayout :=
  if L.bIsFinalized then none
  else
    match TMap.find L.FieldIndexMap Name with
    | none => none
    | some Index =>
      match L.Fields.get? Index with
      | none => none
      | some Field => if Field.Type_ = .Struct then Field.Layout else none

end UBufferElementLayout

mutual
/-- One turn of the loop of `GetCurrentStride()`: the contribution of `Field`. -/
def GetCurrentStrideField : FField → Nat
  | .mk .Struct _ _ _ none => 0
  | .mk .Struct _ _ _ (some l) => GetCurrentStride l
  | .mk _ _ s _ _ => s
/-- The loop of `GetCurrentStride()` over the remaining fields, from the running `Stride`. -/
def GetCurrentStrideLoop (Stride : Nat) : List FField → Nat
  | [] => Stride
  | f :: fs => GetCurrentStrideLoop ((Stride + GetCurrentStrideField f) % SIZE_MOD) fs
/-- The member `GetCurrentStride()`. -/
def GetCurrentStride : UBufferElementLayout → Nat
  | .mk fs _ _ _ => GetCurrentStrideLoop 0 fs
end

mutual
/-- One turn of the loop of `Finalize()` at the running `Offset`: the updated field and the
next `Offset`. A `Struct` without a nested layout takes the `continue`. -/
def FinalizeField (Offset : Nat) : FField → Option (FField × Nat)
  | .mk .Struct n s _ none => some (.mk .Struct n s Offset none, Offset)
  | .mk .Struct n _ _ (some l) =>
    match Finalize l with
    | none => none
    | some l2 => some (.mk .Struct n l2.Stride Offset (some l2), (Offset + l2.Stride) % SIZE_MOD)
  | .mk t n s _ l => some (.mk t n s Offset l, (Offset + s) % SIZE_MOD)
/-- The loop of `Finalize()` over the remaining fields: the updated fields and the final
`Offset`. -/
def FinalizeLoop (Offset : Nat) : List FField → Option (List FField × Nat)
  | [] => some ([], Offset)
  | f :: fs =>
    match FinalizeField Offset f with
    | none => none
    | some (f2, Offset2) =>
      match FinalizeLoop Offset2 fs with
      | none => none
      | some (fs2, Offset3) => some (f2 :: fs2, Offset3)
/-- The member `Finalize()`. -/
def Finalize : UBufferElementLayout → Option UBufferElementLayout
  | .mk fs m _ b =>
    if b then none
    else
      match FinalizeLoop 0 fs with
      | none => none
      | some (fs2, Offset) => some (.mk fs2 m Offset true)
end

mutual
/-- One turn of the loop of `Clone()`: the copy `NewField` of `Field`. -/
def CloneField : FField → Option FField
  | .mk .Struct n s o (some l) =>
    match Clone l with
    | none => none
    | some l2 => some (.mk .Struct n s o (some l2))
  | .mk t n s o _ => some (.mk t n s o none)
/-- The loop of `Clone()` over the remaining fields of the source, from the fields and the map
of the copy built so far. -/
def CloneLoop (Fields : List FField) (FieldIndexMap : List (String × Nat)) :
    List FField → Option (List FField × List (String × Nat))
  | [] => some (Fields, FieldIndexMap)
  | f :: fs =>
    match CloneField f with
    | none => none
    | some NewField =>
      CloneLoop (Fields ++ [NewField])
        (if f.Type_ ≠ .Padding then
          TMap.set FieldIndexMap f.Name ((Fields ++ [NewField]).length - 1)
        else FieldIndexMap) fs
/-- The member `Clone()`: the copy starts as a default-constructed layout, receives the copied
fields and the rebuilt map, and is marked finalized. -/
def Clone : UBufferElementLayout → Option UBufferElementLayout
  | .mk fs _ _ b =>
    if b then
      match CloneLoop [] [] fs with
      | none => none
      | some (fs2, m2) => some (.mk fs2 m2 0 true)
    else none
end

/-! ## `class UBufferElement` -/

/-- One `char` of the byte region. -/
abbrev Byte : Type := Fin 256

/-- The accessor `UBufferElement`: `BufferData` is the byte position relative to the start of
the region, `Layout` and `Field` are the two pointers (`none` when null). -/
structure UBufferElement where
  BufferData : Nat
  Layout : Option UBufferElementLayout
  Field : Option FField

/-- A C++ value passed to `operator=` or produced by `operator Type()`: the type `bool`, or
any other type, given by its object representation (`sizeof` is the number of bytes). -/
inductive TValue where
  | bool (b : Bool)
  | raw (bytes : List Byte)
  deriving DecidableEq

/-- The type requested from `operator Type()`: `bool`, or a type of the given `sizeof`. -/
inductive TType where
  | bool
  | sized (size : Nat)
  deriving DecidableEq

/-- The object representation of a `uint32_t` (little-endian target). -/
def bytesOfUInt32 (v : Nat) : List Byte :=
  [Fin.ofNat (v % 256), Fin.ofNat (v / 256 % 256), Fin.ofNat (v / 65536 % 256),
    Fin.ofNat (v / 16777216 % 256)]

/-- The `uint32_t` whose object representation is the given bytes (little-endian target). -/
def uint32OfBytes : List Byte → Nat
  | [] => 0
  | b :: bs => b.val + 256 * uint32OfBytes bs

/-- The call `std::memcpy(Buffer.data() + Pos, Src, Src.length)`; it is defined only inside
the region. -/
def memcpyTo (Buffer : List Byte) (Pos : Nat) (Src : List Byte) : Option (List Byte) :=
  if Pos + Src.length ≤ Buffer.length then
    some (Buffer.take Pos ++ Src ++ Buffer.drop (Pos + Src.length))
  else none

/-- The `Size` bytes read through `reinterpret_cast` at `Buffer.data() + Pos`; defined only
inside the region. -/
def loadFrom (Buffer : List Byte) (Pos : Nat) (Size : Nat) : Option (List Byte) :=
  if Pos + Size ≤ Buffer.length then some ((Buffer.drop Pos).take Size) else none

namespace UBufferElement

/-- The member `operator[](Name)` of the accessor. -/
def index (e : UBufferElement) (Name : String) : Option UBufferElement :=
  match e.Layout with
  | none => none
  | some L =>
    match L.GetField Name with
    | none => none
    | some Field =>
      if Field.Type_ = .Struct then
        some ⟨e.BufferData + Field.Offset, Field.Layout, some Field⟩
      else
        some ⟨e.BufferData + Field.Offset, e.Layout, some Field⟩

/-- The chain `e[n1][n2]...[nk]`. -/
def indexPath (e : UBufferElement) : List String → Option UBufferElement
  | [] => some e
  | n :: ns =>
    match e.index n with
    | none => none
    | some e2 => indexPath e2 ns

/-- The template `operator=(Value)` on the bytes of the region: the new bytes. -/
def assign (e : UBufferElement) (Value : TValue) (Buffer : List Byte) : Option (List Byte) :=
  match e.Field with
  | none => none
  | some Field =>
    if Field.Type_ = .Struct then none
    else
      match Value with
      | .bool b =>
        if Field.Type_ = .Bool ∧ Field.Stride = 4 then
          memcpyTo Buffer e.BufferData (bytesOfUInt32 (if b then 1 else 0))
        else none
      | .raw bytes =>
        if Field.Stride = bytes.length then memcpyTo Buffer e.BufferData bytes else none

/-- The template `operator Type()` on the bytes of the region. -/
def read (e : UBufferElement) (T : TType) (Buffer : List Byte) : Option TValue :=
  match e.Field with
  | none => none
  | some Field =>
    if Field.Type_ = .Struct then none
    else
      match T with
      | .bool =>
        if Field.Type_ = .Bool ∧ Field.Stride = 4 then
          match loadFrom Buffer e.BufferData 4 with
          | none => none
          | some bs => some (.bool (uint32OfBytes bs != 0))
        else none
      | .sized size =>
        if Field.Stride = size then
          match loadFrom Buffer e.BufferData size with
          | none => none
          | some bs => some (.raw bs)
        else none

end UBufferElement

/-! ## `class UDynamicBuffer` -/

/-- The class `UDynamicBuffer`: the byte region `Buffer` and the owned `Layout`. -/
structure UDynamicBuffer where
  Buffer : List Byte
  Layout : UBufferElementLayout

namespace UDynamicBuffer

/-- The constructor `UDynamicBuffer(InLayout)`; `resize` value-initialises the new bytes. -/
def create (InLayout : UBufferElementLayout) : Option UDynamicBuffer :=
  match Finalize InLayout with
  | none => none
  | some L =>
    match L.GetStride with
    | none => none
    | some Stride => some ⟨List.replicate Stride 0, L⟩

/-- The constructor `UDynamicBuffer(InLayout, Count)`; `Count` is a `size_t`. -/
def createCount (InLayout : UBufferElementLayout) (Count : Nat) : Option UDynamicBuffer :=
  match Finalize InLayout with
  | none => none
  | some L =>
    match L.GetStride with
    | none => none
    | some Stride => some ⟨List.replicate (Stride * Count % SIZE_MOD) 0, L⟩

/-- The member `GetCount()`. -/
def GetCount (B : UDynamicBuffer) : Option Nat :=
  match B.Layout.GetStride with
  | none => none
  | some Stride => if Stride > 0 then some (B.Buffer.length / Stride) else some 0

/-- The member `operator[](Index)` of the buffer; `Index` is a `size_t`. (The `assert` on
`BufferData` in the constructor of the accessor holds whenever `Index < GetCount()`, the
region being non-empty then.) -/
def elementAt (B : UDynamicBuffer) (Index : Nat) : Option UBufferElement :=
  match B.GetCount with
  | none => none
  | some Count =>
    if Index < Count then
      match B.Layout.GetStride with
      | none => none
      | some Stride => some ⟨Index * Stride % SIZE_MOD, some B.Layout, none⟩
    else none

/-- The statement `Buffer[Index][n1]...[nk] = Value;`. -/
def write (B : UDynamicBuffer) (Index : Nat) (Path : List String) (Value : TValue) :
    Option UDynamicBuffer :=
  match B.elementAt Index with
  | none => none
  | some e0 =>
    match e0.indexPath Path with
    | none => none
    | some e =>
      match e.assign Value B.Buffer with
      | none => none
      | some Buffer2 => some ⟨Buffer2, B.Layout⟩

/-- The initialisation `Type Out = Buffer[Index][n1]...[nk];`. -/
def readAt (B : UDynamicBuffer) (Index : Nat) (Path : List String) (T : TType) :
    Option TValue :=
  match B.elementAt Index with
  | none => none
  | some e0 =>
    match e0.indexPath Path with
    | none => none
    | some e => e.read T B.Buffer

end UDynamicBuffer

/-! ## `UShaderReflection::ReflectConstantBufferVariable` -/

/-- Modelled from the spec: the classes of declared types that the function tells apart, for
the enumeration `D3D_SHADER_VARIABLE_CLASS` of the Direct3D headers, which are not part of
the repository; `D3D_SVC_OTHER` stands for every class the function does not name. -/
inductive D3D_SHADER_VARIABLE_CLASS where
  | D3D_SVC_SCALAR
  | D3D_SVC_VECTOR
  | D3D_SVC_MATRIX_ROWS
  | D3D_SVC_MATRIX_COLUMNS
  | D3D_SVC_STRUCT
  | D3D_SVC_OTHER
  deriving DecidableEq, Repr

/-- Modelled from the spec: the scalar types that the function tells apart, for the
enumeration `D3D_SHADER_VARIABLE_TYPE` of the Direct3D headers; `D3D_SVT_OTHER` stands for
every type the function does not name. -/
inductive D3D_SHADER_VARIABLE_TYPE where
  | D3D_SVT_BOOL
  | D3D_SVT_INT
  | D3D_SVT_FLOAT
  | D3D_SVT_OTHER
  deriving DecidableEq, Repr

mutual
/-- Modelled from the spec: one declaration of the producer, for the interface
`ID3D11ShaderReflectionType` of the Direct3D headers: the members `Class`, `Type`, `Rows`,
`Columns` and `Offset` of its `D3D11_SHADER_TYPE_DESC`, and, for `GetMemberTypeName(i)` and
`GetMemberTypeByIndex(i)` with `i < Members`, the list of its members in order. -/
inductive ShaderReflectionType where
  | mk (Class : D3D_SHADER_VARIABLE_CLASS) (Type_ : D3D_SHADER_VARIABLE_TYPE) (Rows : Nat)
      (Columns : Nat) (Offset : Nat) (Members : List ShaderReflectionMember)
/-- Modelled from the spec: member `i` of a declared struct: its name and its type. -/
inductive ShaderReflectionMember where
  | mk (MemberName : String) (MemberType : ShaderReflectionType)
end

/-- Member `Offset` of the `D3D11_SHADER_TYPE_DESC` of a declared type. -/
def ShaderReflectionType.Offset : ShaderReflectionType → Nat
  | .mk _ _ _ _ o _ => o

/-- The conversion `static_cast<int>(x)` of a `size_t`: the low 32 bits, read as a signed
two's complement number. -/
def castToInt (x : Nat) : Int :=
  if x % 2 ^ 32 < 2 ^ 31 then ((x % 2 ^ 32 : Nat) : Int) else ((x % 2 ^ 32 : Nat) : Int) - 2 ^ 32

/-- The first statements of `ReflectConstantBufferVariable`: the `assert` on `StartOffset`,
`PaddingSize`, and the call of `AppendPadding` when `PaddingSize > 0`. -/
def ReflectPadding (StartOffset : Nat) (OutLayout : UBufferElementLayout) :
    Option UBufferElementLayout :=
  if StartOffset ≥ GetCurrentStride OutLayout then
    if castToInt ((StartOffset + SIZE_MOD - GetCurrentStride OutLayout) % SIZE_MOD) > 0 then
      UBufferElementLayout.AppendPadding
        (castToInt ((StartOffset + SIZE_MOD - GetCurrentStride OutLayout) % SIZE_MOD)).toNat
        OutLayout
    else some OutLayout
  else none

mutual
/-- The function `ReflectConstantBufferVariable(ShaderReflectionType, Name, StartOffset,
OutLayout)`; `StartOffset` is a `size_t`. -/
def ReflectConstantBufferVariable : ShaderReflectionType → String → Nat →
    UBufferElementLayout → Option UBufferElementLayout
  | .mk .D3D_SVC_SCALAR ty _ _ _ _, Name, StartOffset, OutLayout =>
    match ReflectPadding StartOffset OutLayout with
    | none => none
    | some Out =>
      match ty with
      | .D3D_SVT_BOOL => UBufferElementLayout.Append .Bool Name Out
      | .D3D_SVT_INT => UBufferElementLayout.Append .Int Name Out
      | .D3D_SVT_FLOAT => UBufferElementLayout.Append .Float Name Out
      | .D3D_SVT_OTHER => none
  | .mk .D3D_SVC_VECTOR _ Rows Columns _ _, Name, StartOffset, OutLayout =>
    match ReflectPadding StartOffset OutLayout with
    | none => none
    | some Out =>
      if Rows = 1 then
        if Columns = 3 then UBufferElementLayout.Append .Float3 Name Out
        else if Columns = 4 then UBufferElementLayout.Append .Float4 Name Out
        else none
      else none
  | .mk .D3D_SVC_MATRIX_ROWS _ Rows Columns _ _, Name, StartOffset, OutLayout =>
    match ReflectPadding StartOffset OutLayout with
    | none => none
    | some Out =>
      if Rows = 4 ∧ Columns = 4 then UBufferElementLayout.Append .Matrix Name Out else none
  | .mk .D3D_SVC_MATRIX_COLUMNS _ Rows Columns _ _, Name, StartOffset, OutLayout =>
    match ReflectPadding StartOffset OutLayout with
    | none => none
    | some Out =>
      if Rows = 4 ∧ Columns = 4 then UBufferElementLayout.Append .Matrix Name Out else none
  | .mk .D3D_SVC_STRUCT _ _ _ _ Members, Name, StartOffset, OutLayout =>
    match ReflectPadding StartOffset OutLayout with
    | none => none
    | some Out =>
      match ReflectMembers Members UBufferElementLayout.empty with
      | none => none
      | some Layout => UBufferElementLayout.AppendStruct Name Layout Out
  | .mk .D3D_SVC_OTHER _ _ _ _ _, _, _, _ => none
/-- The loop over the members of a declared struct: member `i` is reflected into `Layout` at
the `Offset` of its own type description. -/
def ReflectMembers : List ShaderReflectionMember → UBufferElementLayout →
    Option UBufferElementLayout
  | [], Layout => some Layout
  | .mk MemberName MemberType :: rest, Layout =>
    match ReflectConstantBufferVariable MemberType MemberName MemberType.Offset Layout with
    | none => none
    | some Layout2 => ReflectMembers rest Layout2
end

/-! ## Predicates on layouts used in the statements -/

mutual
/-- The field part of `AllOpen`: a `Struct` field owns a nested layout that is open
throughout. -/
def AllOpenField : FField → Bool
  | .mk .Struct _ _ _ none => false
  | .mk .Struct _ _ _ (some l) => AllOpen l
  | .mk _ _ _ _ _ => true
/-- The field-list part of `AllOpen`. -/
def AllOpenFields : List FField → Bool
  | [] => true
  | f :: fs => AllOpenField f && AllOpenFields fs
/-- An open schema all of whose nested schemas are open: `bIsFinalized` is false at every
depth, and every `Struct` field owns its nested layout (as every field made by
`Append<Struct>` and `AppendStruct` does). -/
def AllOpen : UBufferElementLayout → Bool
  | .mk fs _ _ b => !b && AllOpenFields fs
end

/-- The exact sum of the members `Stride` of a list of fields. -/
def sizeSum (fs : List FField) : Nat :=
  (fs.map FField.Stride).sum

mutual
/-- The field part of `Laid`. -/
def FieldLaid : FField → Prop
  | .mk .Struct _ _ _ none => False
  | .mk .Struct _ s _ (some l) => l.Stride = s ∧ Laid l
  | .mk _ _ _ _ _ => True
/-- The field-list part of `Laid`: offsets run from `Offset` and end at `Total`, each step in
`size_t` arithmetic. -/
def FieldsLaid (Offset : Nat) (Total : Nat) : List FField → Prop
  | [] => Offset = Total
  | f :: fs =>
    f.Offset = Offset ∧ FieldLaid f ∧ FieldsLaid ((Offset + f.Stride) % SIZE_MOD) Total fs
/-- A laid-out schema: finalized, offsets are the running `size_t` sums of the sizes, the
stride is the final sum, and every `Struct` field owns a laid-out nested layout whose stride
is the size of the field. -/
def Laid : UBufferElementLayout → Prop
  | .mk fs _ s b => b = true ∧ FieldsLaid 0 s fs
end

/-- What one turn of the loop of `Finalize()` may change in a field: `Name` and `Type` stay; a
field that is not a `Struct` also keeps `Stride` and `Layout`; a `Struct` field gets the
finalized nested layout and takes its stride as `Stride`. -/
def FinalizedFrom (f f2 : FField) : Prop :=
  f2.Name = f.Name ∧ f2.Type_ = f.Type_ ∧
  (f.Type_ ≠ .Struct → f2.Stride = f.Stride ∧ f2.Layout = f.Layout) ∧
  (f.Type_ = .Struct → ∃ l l2, f.Layout = some l ∧ Finalize l = some l2 ∧
    f2.Layout = some l2 ∧ f2.Stride = l2.Stride)

/-- The size a field adds to its schema: the stride of the nested schema for a `Struct` field
(nothing when it owns none), the member `Stride` for any other field. -/
def composedSize (f : FField) : Nat :=
  if f.Type_ = .Struct then
    match f.Layout with
    | none => 0
    | some l => l.Stride
  else f.Stride

/-- The calls `Append<t1>(n1); ...; Append<tk>(nk);` in this order. -/
def AppendAll : List (EType × String) → UBufferElementLayout → Option UBufferElementLayout
  | [], L => some L
  | d :: ds, L =>
    match UBufferElementLayout.Append d.1 d.2 L with
    | none => none
    | some L2 => AppendAll ds L2

/-- The fields met along a path of names `n1..nk` from a schema, as the claim words it: each
of `n1..n(k-1)` resolves, by `GetField`, to a `Struct` field of the schema reached so far and
leads to its nested schema, and `nk` resolves in the innermost one. -/
def structPath : UBufferElementLayout → List String → Option (List FField)
  | _, [] => some []
  | L, [n] =>
    match L.GetField n with
    | none => none
    | some f => some [f]
  | L, n :: n2 :: ns =>
    match L.GetField n with
    | none => none
    | some f =>
      if f.Type_ = .Struct then
        match f.Layout with
        | none => none
        | some l =>
          match structPath l (n2 :: ns) with
          | none => none
          | some fs => some (f :: fs)
      else none

mutual
/-- The field part of `declaredSize`. -/
def declaredSizeField : FField → Nat
  | .mk .Struct _ _ _ none => 0
  | .mk .Struct _ _ _ (some l) => declaredSize l
  | .mk _ _ s _ _ => s
/-- The field-list part of `declaredSize`. -/
def declaredSizeFields : List FField → Nat
  | [] => 0
  | f :: fs => declaredSizeField f + declaredSizeFields fs
/-- The number of bytes one element of a schema describes: the sum that `GetCurrentStride()`
forms (sizes of the fields, nested schemas in place of `Struct` fields), as a natural number
without the wrap of `size_t`. A schema can describe a byte region only when this is below
`2 ^ 64`. -/
def declaredSize : UBufferElementLayout → Nat
  | .mk fs _ _ _ => declaredSizeFields fs
end

mutual
/-- The field part of `Fits`. -/
def FieldFits : FField → Prop
  | .mk .Struct _ _ _ (some l) => Fits l
  | .mk _ _ _ _ _ => True
/-- The field-list part of `Fits`. -/
def FieldsFit : List FField → Prop
  | [] => True
  | f :: fs => FieldFits f ∧ FieldsFit fs
/-- The sizes of the fields add up to less than `2 ^ 64`, in the schema and in every nested
schema. -/
def Fits : UBufferElementLayout → Prop
  | .mk fs _ _ _ => sizeSum fs < SIZE_MOD ∧ FieldsFit fs
end

/-- The open schemas a program can build: from the default-constructed schema by `Append`,
`AppendStruct` of a schema built the same way, and `AppendPadding` of a `size_t`. (Appending
through the handle `layout[name]` of a nested schema gives the same schemas as building the
nested schema first.) -/
inductive Built : UBufferElementLayout → Prop
  | empty : Built UBufferElementLayout.empty
  | append (t : EType) (n : String) (L L2 : UBufferElementLayout) :
      Built L → UBufferElementLayout.Append t n L = some L2 → Built L2
  | appendStruct (n : String) (N L L2 : UBufferElementLayout) :
      Built L → Built N → UBufferElementLayout.AppendStruct n N L = some L2 → Built L2
  | appendPadding (Bytes : Nat) (L L2 : UBufferElementLayout) :
      Built L → Bytes < SIZE_MOD → UBufferElementLayout.AppendPadding Bytes L = some L2 →
      Built L2

mutual
/-- The field part of `TagSized`. -/
def TagSizedField : FField → Prop
  | .mk .Struct _ _ _ none => True
  | .mk .Struct _ _ _ (some l) => TagSized l
  | .mk .Padding _ _ _ _ => True
  | .mk t _ s _ _ => TypeInfo.Size t = some s
/-- The field-list part of `TagSized`. -/
def TagSizedFields : List FField → Prop
  | [] => True
  | f :: fs => TagSizedField f ∧ TagSizedFields fs
/-- Every field with a scalar, vector or matrix tag, at every depth, has the size
`TypeInfo<Type>::Size` of its tag. -/
def TagSized : UBufferElementLayout → Prop
  | .mk fs _ _ _ => TagSizedFields fs
end

/-- The name map that the appends build for a list of fields with first index `Start`, from
the map `m`: in order, every field that is not a `Padding` binds its name to its index. -/
def indexMapFrom (Start : Nat) (m : List (String × Nat)) : List FField → List (String × Nat)
  | [] => m
  | f :: fs =>
    indexMapFrom (Start + 1) (if f.Type_ ≠ .Padding then TMap.set m f.Name Start else m) fs

mutual
/-- The field part of `WellMapped`. -/
def WellMappedField : FField → Prop
  | .mk .Struct _ _ _ (some l) => WellMapped l
  | .mk _ _ _ _ _ => True
/-- The field-list part of `WellMapped`. -/
def WellMappedFields : List FField → Prop
  | [] => True
  | f :: fs => WellMappedField f ∧ WellMappedFields fs
/-- The name map of the schema, and of every nested schema, is the one the appends build for
its fields. -/
def WellMapped : UBufferElementLayout → Prop
  | .mk fs m _ _ => m = indexMapFrom 0 [] fs ∧ WellMappedFields fs
end

/-- The metadata of a field: type, name, size and offset. -/
def FField.metadata (f : FField) : EType × String × Nat × Nat :=
  (f.Type_, f.Name, f.Stride, f.Offset)

mutual
/-- The field part of `SameLayout`: same metadata, and for a `Struct` field that owns a nested
schema, a nested schema that is the same in turn. -/
def SameField : FField → FField → Prop
  | .mk .Struct n s o (some l), g =>
    g.metadata = (.Struct, n, s, o) ∧ ∃ l2, g.Layout = some l2 ∧ SameLayout l l2
  | .mk t n s o _, g => g.metadata = (t, n, s, o) ∧ g.Layout = none
/-- The field-list part of `SameLayout`: the same number of fields, the same in order. -/
def SameFields : List FField → List FField → Prop
  | [], gs => gs = []
  | f :: fs, gs => ∃ g gs2, gs = g :: gs2 ∧ SameField f g ∧ SameFields fs gs2
/-- The second schema has, at every nesting depth and in the same order, fields with the
names, types, sizes and offsets of the first, the same name map and the same finalized
flag. -/
def SameLayout : UBufferElementLayout → UBufferElementLayout → Prop
  | .mk fs m _ b, L2 =>
    SameFields fs L2.Fields ∧ L2.FieldIndexMap = m ∧ L2.bIsFinalized = b
end

/-- A call of a public member function of `UBufferElementLayout`, with its arguments. -/
inductive LayoutOp where
  | Append (t : EType) (InName : String)
  | AppendStruct (InName : String) (Layout : UBufferElementLayout)
  | AppendPadding (Bytes : Nat)
  | Subscript (Name : String)
  | Clone
  | GetStride
  | GetCurrentStride
  | GetFields
  | GetFieldAt (Index : Nat)
  | GetField (Name : String)
  | Finalize

/-- The schema object after a call: the new object for the member functions that change it,
the same object for the `const` member functions and for `operator[]`, which hand out a
result and change nothing themselves; `none` when the call is a contract violation. -/
def LayoutOp.call : LayoutOp → UBufferElementLayout → Option UBufferElementLayout
  | .Append t InName, L => UBufferElementLayout.Append t InName L
  | .AppendStruct InName Layout, L => UBufferElementLayout.AppendStruct InName Layout L
  | .AppendPadding Bytes, L => UBufferElementLayout.AppendPadding Bytes L
  | .Subscript Name, L => (L.descend Name).map fun _ => L
  | .Clone, L => (JungleEngine.Clone L).map fun _ => L
  | .GetStride, L => L.GetStride.map fun _ => L
  | .GetCurrentStride, L => some L
  | .GetFields, L => L.GetFields.map fun _ => L
  | .GetFieldAt Index, L => (L.GetFieldAt Index).map fun _ => L
  | .GetField Name, L => (L.GetField Name).map fun _ => L
  | .Finalize, L => JungleEngine.Finalize L

/-- A sequence of calls on one schema object; it stops at the first contract violation. -/
def LayoutOp.callAll : List LayoutOp → UBufferElementLayout → Option UBufferElementLayout
  | [], L => some L
  | op :: ops, L =>
    match op.call L with
    | none => none
    | some L2 => LayoutOp.callAll ops L2

/-- The statements `auto& Handle = Layout[Name]; g(Handle);`: the member `operator[]` of the
layout hands out a reference to the nested schema owned by the field, and what `g` does to
the schema behind the reference is done to the nested schema of that field. -/
def UBufferElementLayout.descendThen (L : UBufferElementLayout) (Name : String)
    (g : UBufferElementLayout → Option UBufferElementLayout) : Option UBufferElementLayout :=
  if L.bIsFinalized then none
  else
    match TMap.find L.FieldIndexMap Name with
    | none => none
    | some Index =>
      match L.Fields.get? Index with
      | none => none
      | some Field =>
        if Field.Type_ = .Struct then
          match Field.Layout with
          | none => none
          | some Handle =>
            match g Handle with
            | none => none
            | some Handle2 =>
              some (.mk
                (L.Fields.set Index
                  (.mk Field.Type_ Field.Name Field.Stride Field.Offset (some Handle2)))
                L.FieldIndexMap L.Stride L.bIsFinalized)
        else none

/-! ## The two lookups with `assert` and undefined behaviour told apart -/

/-- What a call does when a failed `assert` and an operation with undefined behaviour are told
apart: the call returns a value, it stops at an `assert`, or it goes past every `assert` and
performs an unchecked operation outside its domain. -/
inductive Outcome (α : Type) where
  | returns (a : α)
  | assertFails
  | undefinedBehaviour

/-- The result of a call where the two ways of failing are one, as in the rest of the
embedding. -/
def Outcome.toOption {α : Type} : Outcome α → Option α
  | .returns a => some a
  | .assertFails => none
  | .undefinedBehaviour => none

/-- The member `GetField(size_t Index)`, outcomes told apart: the only `assert` is on
`bIsFinalized`; `Fields[Index]` is the unchecked `operator[]` of `std::vector`. -/
def UBufferElementLayout.GetFieldAtOutcome (L : UBufferElementLayout) (Index : Nat) :
    Outcome FField :=
  if L.bIsFinalized then
    match L.Fields.get? Index with
    | none => .undefinedBehaviour
    | some Field => .returns Field
  else .assertFails

/-- The member `GetField(const FString& Name)`, outcomes told apart: the only `assert` is on
`bIsFinalized`; `it->second` is evaluated on the result of `find` without a comparison with
`end()`. -/
def UBufferElementLayout.GetFieldOutcome (L : UBufferElementLayout) (Name : String) :
    Outcome FField :=
  if L.bIsFinalized then
    match TMap.find L.FieldIndexMap Name with
    | none => .undefinedBehaviour
    | some Index => L.GetFieldAtOutcome Index
  else .assertFails

/-- The field `f` moved `n` bytes further in the element: `Offset` is increased by `n` in
`size_t` arithmetic, every other member is kept. -/
def FField.shiftOffset (n : Nat) (f : FField) : FField :=
  .mk f.Type_ f.Name f.Stride ((f.Offset + n) % SIZE_MOD) f.Layout

/-- The calls that append a field: `Append`, `AppendStruct`, `AppendPadding`. -/
def LayoutOp.isAppend : LayoutOp → Bool
  | .Append _ _ => true
  | .AppendStruct _ _ => true
  | .AppendPadding _ => true
  | _ => false

mutual
/-- The field part of `AllFinalized`: a `Struct` field owns a nested layout that is finalized
throughout. -/
def AllFinalizedField : FField → Bool
  | .mk .Struct _ _ _ none => false
  | .mk .Struct _ _ _ (some l) => AllFinalized l
  | .mk _ _ _ _ _ => true
/-- The field-list part of `AllFinalized`. -/
def AllFinalizedFields : List FField → Bool
  | [] => true
  | f :: fs => AllFinalizedField f && AllFinalizedFields fs
/-- The schema and every nested schema at every depth is finalized: `bIsFinalized` is true at
every depth, and every `Struct` field owns its nested layout. -/
def AllFinalized : UBufferElementLayout → Bool
  | .mk fs _ _ b => b && AllFinalizedFields fs
end

mutual
/-- The field part of `Within`. -/
def WithinField : FField → Prop
  | .mk .Struct _ s _ (some l) => l.Stride = s ∧ Within l
  | .mk _ _ _ _ _ => True
/-- The field-list part of `Within`: each field ends at or before `Stride`. -/
def WithinFields (Stride : Nat) : List FField → Prop
  | [] => True
  | f :: fs => f.Offset + f.Stride ≤ Stride ∧ WithinField f ∧ WithinFields Stride fs
/-- At every level, `Offset + Stride` of a field is at most the stride of its schema, the
size of a `Struct` field being the stride of its nested schema. -/
def Within : UBufferElementLayout → Prop
  | .mk fs _ s _ => WithinFields s fs
end

mutual
/-- The field part of `Framed`: type and name are kept; a `Struct` field that owns a nested
schema owns afterwards a nested schema that is framed in turn; any other field also keeps its
size and its `Layout` pointer. Nothing is said of `Offset`, nor of the size of a `Struct`
field that owns a nested schema. -/
def FramedField : FField → FField → Prop
  | .mk .Struct n _ _ (some l), g =>
    g.Type_ = .Struct ∧ g.Name = n ∧ ∃ l2, g.Layout = some l2 ∧ Framed l l2
  | .mk t n s _ lay, g => g.Type_ = t ∧ g.Name = n ∧ g.Stride = s ∧ g.Layout = lay
/-- The field-list part of `Framed`: the same number of fields, framed in order. -/
def FramedFields : List FField → List FField → Prop
  | [], gs => gs = []
  | f :: fs, gs => ∃ g gs2, gs = g :: gs2 ∧ FramedField f g ∧ FramedFields fs gs2
/-- The second schema differs from the first at most in the offsets of fields, the sizes of
`Struct` fields, the strides and the finalized flags, at every nesting depth: number, order,
names and types of the fields, the sizes of the fields that are not a `Struct`, and the name
map are the same. -/
def Framed : UBufferElementLayout → UBufferElementLayout → Prop
  | .mk fs m _ _, L2 => FramedFields fs L2.Fields ∧ L2.FieldIndexMap = m
end

/-- The schemas a program can reach: from the default-constructed schema by `Append`,
`AppendStruct` of a reachable schema, `AppendPadding`, `Finalize` and `Clone`, and by any such
calls made through the handle `layout[name]` on the nested schema of a `Struct` field (the
nested schema is then again a reachable schema). -/
inductive Reachable : UBufferElementLayout → Prop
  | empty : Reachable UBufferElementLayout.empty
  | append (t : EType) (n : String) (L L2 : UBufferElementLayout) :
      Reachable L → UBufferElementLayout.Append t n L = some L2 → Reachable L2
  | appendStruct (n : String) (N L L2 : UBufferElementLayout) :
      Reachable L → Reachable N → UBufferElementLayout.AppendStruct n N L = some L2 →
      Reachable L2
  | appendPadding (Bytes : Nat) (L L2 : UBufferElementLayout) :
      Reachable L → UBufferElementLayout.AppendPadding Bytes L = some L2 → Reachable L2
  | finalize (L L2 : UBufferElementLayout) : Reachable L → Finalize L = some L2 → Reachable L2
  | clone (L L2 : UBufferElementLayout) : Reachable L → Clone L = some L2 → Reachable L2
  | viaHandle (n : String) (H L L2 : UBufferElementLayout) :
      Reachable L → Reachable H → L.descendThen n (fun _ => some H) = some L2 → Reachable L2

mutual
/-- The field part of `Owning`. -/
def OwningField : FField → Bool
  | .mk .Struct _ _ _ none => false
  | .mk .Struct _ _ _ (some l) => Owning l
  | .mk _ _ _ _ _ => true
/-- The field-list part of `Owning`. -/
def OwningFields : List FField → Bool
  | [] => true
  | f :: fs => OwningField f && OwningFields fs
/-- Every field of type `Struct`, at every depth, owns a nested schema (`Layout` is not
null). -/
def Owning : UBufferElementLayout → Bool
  | .mk fs _ _ _ => OwningFields fs
end

/-- The entries of a name map `m` over the fields `fs`, in the words of the invariant: an entry
`name -> k` has `k` below the number of fields, the field at `k` has this name and is not a
`Padding`, and `k` is the largest index of a field with this name that is not a `Padding`. -/
def EntriesOK (fs : List FField) (m : List (String × Nat)) : Prop :=
  ∀ name k, TMap.find m name = some k →
    k < fs.length ∧ ∃ f, fs.get? k = some f ∧ f.Name = name ∧ f.Type_ ≠ .Padding ∧
      ∀ j g, fs.get? j = some g → g.Name = name → g.Type_ ≠ .Padding → j ≤ k

mutual
/-- The field part of `WellFormed`: a `Struct` field owns a well-formed nested schema. -/
def WellFormedField : FField → Prop
  | .mk .Struct _ _ _ none => False
  | .mk .Struct _ _ _ (some l) => WellFormed l
  | .mk _ _ _ _ _ => True
/-- The field-list part of `WellFormed`. -/
def WellFormedFields : List FField → Prop
  | [] => True
  | f :: fs => WellFormedField f ∧ WellFormedFields fs
/-- The entries of the name map are as `EntriesOK` says and every `Struct` field owns a nested
schema, in the schema and in every nested schema at every depth. -/
def WellFormed : UBufferElementLayout → Prop
  | .mk fs m _ _ => EntriesOK fs m ∧ WellFormedFields fs
end

/-! ## Schemas of the test program (`Demo/Source/main.cpp`) -/

/-- The schema of `test_simple_layout`: `Float3 Position`, `Int EntityID`, `Bool bIsVisible`. -/
def simpleLayout : UBufferElementLayout :=
  (((UBufferElementLayout.Append .Float3 "Position" UBufferElementLayout.empty).bind (UBufferElementLayout.Append .Int "EntityID")).bind
    (UBufferElementLayout.Append .Bool "bIsVisible")).getD UBufferElementLayout.empty

/-- The nested schema `Light` of `test_nested_struct`. -/
def lightLayout : UBufferElementLayout :=
  (((UBufferElementLayout.Append .Float3 "Position" UBufferElementLayout.empty).bind (UBufferElementLayout.Append .Float4 "Color")).bind
    (UBufferElementLayout.Append .Float "Intensity")).getD UBufferElementLayout.empty

/-- The schema of `test_nested_struct`: `Matrix ViewProjection`, `Struct Light`. -/
def sceneLayout : UBufferElementLayout :=
  ((UBufferElementLayout.Append .Matrix "ViewProjection" UBufferElementLayout.empty).bind (UBufferElementLayout.AppendStruct "Light" lightLayout)).getD UBufferElementLayout.empty

/-- The fourth nested schema of `test_deep_nested_struct`. -/
def level4Layout : UBufferElementLayout :=
  ((UBufferElementLayout.Append .Bool "Level4_Visibility" UBufferElementLayout.empty).bind
    (UBufferElementLayout.Append .Float4 "Level4_Color")).getD UBufferElementLayout.empty

/-- The third nested schema of `test_deep_nested_struct`. -/
def level3Layout : UBufferElementLayout :=
  ((UBufferElementLayout.Append .Float3 "Level3_Position" UBufferElementLayout.empty).bind
    (UBufferElementLayout.AppendStruct "Level4" level4Layout)).getD UBufferElementLayout.empty

/-- The second nested schema of `test_deep_nested_struct`. -/
def level2Layout : UBufferElementLayout :=
  ((UBufferElementLayout.Append .Matrix "Level2_Matrix" UBufferElementLayout.empty).bind
    (UBufferElementLayout.AppendStruct "Level3" level3Layout)).getD UBufferElementLayout.empty

/-- The first nested schema of `test_deep_nested_struct`. -/
def level1Layout : UBufferElementLayout :=
  ((UBufferElementLayout.Append .Int "Level1_ID" UBufferElementLayout.empty).bind
    (UBufferElementLayout.AppendStruct "Level2" level2Layout)).getD UBufferElementLayout.empty

/-- The schema of `test_deep_nested_struct`, four structs deep. -/
def rootLayout : UBufferElementLayout :=
  ((UBufferElementLayout.Append .Float "RootValue" UBufferElementLayout.empty).bind
    (UBufferElementLayout.AppendStruct "Level1" level1Layout)).getD UBufferElementLayout.empty

/-- The buffer of `test_deep_nested_struct`: `UDynamicBuffer buffer(std::move(rootLayout))`. -/
def rootBuffer : UDynamicBuffer :=
  (UDynamicBuffer.create rootLayout).getD ⟨[], UBufferElementLayout.empty⟩

/-- The schema of `test_array_of_elements`: `Float Value`, `Int Index`. -/
def arrayLayout : UBufferElementLayout :=
  ((UBufferElementLayout.Append .Float "Value" UBufferElementLayout.empty).bind
    (UBufferElementLayout.Append .Int "Index")).getD UBufferElementLayout.empty

/-- The buffer of `test_array_of_elements`: `UDynamicBuffer buffer(std::move(layout), 5)`. -/
def arrayBuffer : UDynamicBuffer :=
  (UDynamicBuffer.createCount arrayLayout 5).getD ⟨[], UBufferElementLayout.empty⟩

/-- The schema of `test_multiple_elements_in_struct`: `Float X`, `Float Y`. -/
def xyLayout : UBufferElementLayout :=
  ((UBufferElementLayout.Append .Float "X" UBufferElementLayout.empty).bind
    (UBufferElementLayout.Append .Float "Y")).getD UBufferElementLayout.empty

/-- The buffer of `test_multiple_elements_in_struct`:
`UDynamicBuffer buffer(std::move(layout), 3)`. -/
def xyBuffer : UDynamicBuffer :=
  (UDynamicBuffer.createCount xyLayout 3).getD ⟨[], UBufferElementLayout.empty⟩

/-- The schema of `test_nested_struct`, finalized. -/
def sceneLayoutFinalized : UBufferElementLayout :=
  (Finalize sceneLayout).getD UBufferElementLayout.empty

/-- The schema of `test_simple_layout`, finalized. -/
def simpleLayoutFinalized : UBufferElementLayout :=
  (Finalize simpleLayout).getD UBufferElementLayout.empty

/-- The schema of `test_nested_struct` as the test builds it: `Append<Matrix>`,
`Append<Struct>("Light")`, then three appends through the handle `sceneLayout["Light"]`. -/
def sceneLayoutByHandle : Option UBufferElementLayout :=
  ((UBufferElementLayout.Append .Matrix "ViewProjection" UBufferElementLayout.empty).bind
    (UBufferElementLayout.Append .Struct "Light")).bind fun L =>
      L.descendThen "Light"
        (AppendAll [(.Float3, "Position"), (.Float4, "Color"), (.Float, "Intensity")])

/-- A schema in which the name `A` is appended twice: `Int A`, `Float3 B`, `Matrix A`. -/
def duplicateLayout : UBufferElementLayout :=
  (AppendAll [(.Int, "A"), (.Float3, "B"), (.Matrix, "A")]
    UBufferElementLayout.empty).getD UBufferElementLayout.empty

/-- The schema of the second case of `test_edge_cases`: `Int ValueBefore`,
`Struct EmptyStruct` (made by `Append<Struct>`, no members added), `Int ValueAfter`. -/
def edgeLayout : UBufferElementLayout :=
  (AppendAll [(.Int, "ValueBefore"), (.Struct, "EmptyStruct"), (.Int, "ValueAfter")]
    UBufferElementLayout.empty).getD UBufferElementLayout.empty

/-- The buffer of the second case of `test_edge_cases`:
`UDynamicBuffer buffer(std::move(layout))`. -/
def edgeBuffer : UDynamicBuffer :=
  (UDynamicBuffer.create edgeLayout).getD ⟨[], UBufferElementLayout.empty⟩

/-- A schema that holds only empty structs: `Append<Struct>("A")`, `Append<Struct>("B")`. -/
def emptyStructsLayout : UBufferElementLayout :=
  (AppendAll [(.Struct, "A"), (.Struct, "B")]
    UBufferElementLayout.empty).getD UBufferElementLayout.empty

/-! # Theorems -/

open UBufferElementLayout

/-! ## Projections of the constructors -/

@[simp]
theorem FField.Type_mk (t : EType) (n : String) (s o : Nat)
    (l : Option UBufferElementLayout) : (FField.mk t n s o l).Type_ = t := rfl

@[simp]
theorem FField.Name_mk (t : EType) (n : String) (s o : Nat)
    (l : Option UBufferElementLayout) : (FField.mk t n s o l).Name = n := rfl

@[simp]
theorem FField.Stride_mk (t : EType) (n : String) (s o : Nat)
    (l : Option UBufferElementLayout) : (FField.mk t n s o l).Stride = s := rfl

@[simp]
theorem FField.Offset_mk (t : EType) (n : String) (s o : Nat)
    (l : Option UBufferElementLayout) : (FField.mk t n s o l).Offset = o := rfl

@[simp]
theorem FField.Layout_mk (t : EType) (n : String) (s o : Nat)
    (l : Option UBufferElementLayout) : (FField.mk t n s o l).Layout = l := rfl

@[simp]
theorem UBufferElementLayout.Fields_mk (fs : List FField) (m : List (String × Nat))
    (s : Nat) (b : Bool) : (UBufferElementLayout.mk fs m s b).Fields = fs := rfl

@[simp]
theorem UBufferElementLayout.FieldIndexMap_mk (fs : List FField)
    (m : List (String × Nat)) (s : Nat) (b : Bool) :
    (UBufferElementLayout.mk fs m s b).FieldIndexMap = m := rfl

@[simp]
theorem UBufferElementLayout.layoutStride_mk (fs : List FField) (m : List (String × Nat))
    (s : Nat) (b : Bool) : (UBufferElementLayout.mk fs m s b).Stride = s := rfl

@[simp]
theorem UBufferElementLayout.bIsFinalized_mk (fs : List FField)
    (m : List (String × Nat)) (s : Nat) (b : Bool) :
    (UBufferElementLayout.mk fs m s b).bIsFinalized = b := rfl

/-! ## `Finalize()` on an open schema -/

theorem FinalizeField_leaf (off : Nat) (t : EType) (n : String) (s o : Nat)
    (l : Option UBufferElementLayout) (ht : t ≠ .Struct) :
    FinalizeField off (.mk t n s o l) = some (.mk t n s off l, (off + s) % SIZE_MOD) := by
  cases t <;> simp_all [FinalizeField]

theorem FinalizeField_leaf_laid (off : Nat) (t : EType) (n : String) (s o : Nat)
    (l : Option UBufferElementLayout) (ht : t ≠ .Struct) :
    ∃ f2 off2, FinalizeField off (.mk t n s o l) = some (f2, off2) ∧ f2.Offset = off ∧
      off2 = (off + f2.Stride) % SIZE_MOD ∧ FieldLaid f2 ∧
      FinalizedFrom (.mk t n s o l) f2 := by
  refine ⟨.mk t n s off l, (off + s) % SIZE_MOD, FinalizeField_leaf off t n s o l ht, ?_⟩
  cases t <;> simp_all [FieldLaid, FinalizedFrom]

mutual
theorem FinalizeField_laid (off : Nat) : ∀ (f : FField), AllOpenField f = true →
    ∃ f2 off2, FinalizeField off f = some (f2, off2) ∧ f2.Offset = off ∧
      off2 = (off + f2.Stride) % SIZE_MOD ∧ FieldLaid f2 ∧ FinalizedFrom f f2
  | .mk .Struct n s o none, h => by simp [AllOpenField] at h
  | .mk .Struct n s o (some l), h => by
    simp only [AllOpenField] at h
    obtain ⟨l2, hl2, hlaid⟩ := Finalize_laid l h
    refine ⟨.mk .Struct n l2.Stride off (some l2), (off + l2.Stride) % SIZE_MOD, ?_⟩
    simp [FinalizeField, hl2, FieldLaid, hlaid, FinalizedFrom]
  | .mk .Bool n s o l, _ => FinalizeField_leaf_laid off .Bool n s o l (by decide)
  | .mk .Int n s o l, _ => FinalizeField_leaf_laid off .Int n s o l (by decide)
  | .mk .Float n s o l, _ => FinalizeField_leaf_laid off .Float n s o l (by decide)
  | .mk .Float3 n s o l, _ => FinalizeField_leaf_laid off .Float3 n s o l (by decide)
  | .mk .Float4 n s o l, _ => FinalizeField_leaf_laid off .Float4 n s o l (by decide)
  | .mk .Matrix n s o l, _ => FinalizeField_leaf_laid off .Matrix n s o l (by decide)
  | .mk .Padding n s o l, _ => FinalizeField_leaf_laid off .Padding n s o l (by decide)
theorem FinalizeLoop_laid (off : Nat) : ∀ (fs : List FField), AllOpenFields fs = true →
    ∃ fs2 total, FinalizeLoop off fs = some (fs2, total) ∧ FieldsLaid off total fs2 ∧
      List.Forall₂ FinalizedFrom fs fs2
  | [], _ => ⟨[], off, by simp [FinalizeLoop, FieldsLaid]⟩
  | f :: fs, h => by
    simp only [AllOpenFields, Bool.and_eq_true] at h
    obtain ⟨f2, off2, hf, hoff, hnext, hlaid, hfrom⟩ := FinalizeField_laid off f h.1
    obtain ⟨fs2, total, hfs, hl, hall⟩ := FinalizeLoop_laid off2 fs h.2
    refine ⟨f2 :: fs2, total, ?_⟩
    subst hnext
    simp [FinalizeLoop, hf, hfs, FieldsLaid, hoff, hlaid, hl, hfrom, hall]
theorem Finalize_laid : ∀ (L : UBufferElementLayout), AllOpen L = true →
    ∃ L2, Finalize L = some L2 ∧ Laid L2
  | .mk fs m s b, h => by
    simp only [AllOpen, Bool.and_eq_true, Bool.not_eq_true'] at h
    obtain ⟨fs2, total, hfs, hl, _⟩ := FinalizeLoop_laid 0 fs h.2
    refine ⟨.mk fs2 m total true, ?_⟩
    simp [Finalize, h.1, hfs, Laid, hl]
end

/-- The shape of the result of `Finalize()` on an open schema. -/
theorem Finalize_open (L : UBufferElementLayout) (h : AllOpen L = true) :
    ∃ fs2 total, Finalize L = some (.mk fs2 L.FieldIndexMap total true) ∧
      FieldsLaid 0 total fs2 ∧ List.Forall₂ FinalizedFrom L.Fields fs2 := by
  obtain ⟨fs, m, s, b⟩ := L
  simp only [AllOpen, Bool.and_eq_true, Bool.not_eq_true'] at h
  obtain ⟨fs2, total, hfs, hl, hall⟩ := FinalizeLoop_laid 0 fs h.2
  exact ⟨fs2, total, by simp [Finalize, h.1, hfs], hl, by simpa using hall⟩

theorem Forall₂_FinalizedFrom_names : ∀ (fs fs2 : List FField),
    List.Forall₂ FinalizedFrom fs fs2 → fs2.map FField.Name = fs.map FField.Name
  | _, _, .nil => rfl
  | _, _, .cons h t => by
    simp [h.1, Forall₂_FinalizedFrom_names _ _ t]

/-! ## Consequences of `FieldsLaid` -/

theorem SIZE_MOD_pos : 0 < SIZE_MOD := by decide

@[simp] theorem sizeSum_nil : sizeSum [] = 0 := rfl

@[simp] theorem sizeSum_cons (f : FField) (fs : List FField) :
    sizeSum (f :: fs) = f.Stride + sizeSum fs := by
  simp [sizeSum]

theorem sizeSum_append (fs gs : List FField) : sizeSum (fs ++ gs) = sizeSum fs + sizeSum gs := by
  simp [sizeSum]

theorem sizeSum_take_le (fs : List FField) (i : Nat) : sizeSum (fs.take i) ≤ sizeSum fs := by
  conv_rhs => rw [← List.take_append_drop i fs]
  rw [sizeSum_append]
  exact Nat.le_add_right _ _

theorem FieldsLaid_total (Total : Nat) : ∀ (fs : List FField) (off : Nat), off < SIZE_MOD →
    FieldsLaid off Total fs → Total = (off + sizeSum fs) % SIZE_MOD
  | [], off, hoff, h => by
    simp only [FieldsLaid] at h
    simp [← h, Nat.mod_eq_of_lt hoff]
  | f :: fs, off, _, h => by
    simp only [FieldsLaid] at h
    have ih := FieldsLaid_total Total fs _ (Nat.mod_lt _ SIZE_MOD_pos) h.2.2
    rw [ih, sizeSum_cons, Nat.mod_add_mod, Nat.add_assoc]

theorem FieldsLaid_get (Total : Nat) : ∀ (fs : List FField) (off : Nat) (i : Nat) (f : FField),
    off < SIZE_MOD → FieldsLaid off Total fs → fs.get? i = some f →
    f.Offset = (off + sizeSum (fs.take i)) % SIZE_MOD ∧ FieldLaid f
  | [], _, _, _, _, _, hget => by simp at hget
  | g :: fs, off, 0, f, hoff, h, hget => by
    simp only [FieldsLaid] at h
    simp only [List.get?_cons_zero, Option.some.injEq] at hget
    subst hget
    simp [h.1, h.2.1, Nat.mod_eq_of_lt hoff]
  | g :: fs, off, i + 1, f, _, h, hget => by
    simp only [FieldsLaid] at h
    simp only [List.get?_cons_succ] at hget
    have ih := FieldsLaid_get Total fs _ i f (Nat.mod_lt _ SIZE_MOD_pos) h.2.2 hget
    refine ⟨?_, ih.2⟩
    rw [ih.1, List.take_succ_cons, sizeSum_cons, Nat.mod_add_mod, Nat.add_assoc]

theorem sizeSum_take_succ (fs : List FField) (i : Nat) (f : FField) (h : fs.get? i = some f) :
    sizeSum (fs.take (i + 1)) = sizeSum (fs.take i) + f.Stride := by
  rw [List.take_succ, sizeSum_append]
  simp only [List.get?_eq_getElem?] at h
  simp [h, sizeSum]

/-! ## Offsets and strides after `Finalize()` -/

/-- Claim C1. For every open schema whose nested schemas are all open, `Finalize()` returns,
and in the finalized schema the `Offset` of field `i` is the sum of the `Stride` of the fields
before it, the sum being the `size_t` sum (it is the exact sum whenever the sizes of the
schema add up to less than `2 ^ 64`); field 0 has `Offset` 0 and
`Offset (i+1) = Offset i + Stride i`. No alignment is added. -/
theorem Finalize_offset_eq_sum_of_preceding_strides (L : UBufferElementLayout)
    (hopen : AllOpen L = true) :
    ∃ L2, Finalize L = some L2 ∧
      L2.Fields.map FField.Name = L.Fields.map FField.Name ∧
      (∀ i f, L2.Fields.get? i = some f →
        f.Offset = sizeSum (L2.Fields.take i) % SIZE_MOD) ∧
      (∀ f, L2.Fields.get? 0 = some f → f.Offset = 0) ∧
      (∀ i f g, L2.Fields.get? i = some f → L2.Fields.get? (i + 1) = some g →
        g.Offset = (f.Offset + f.Stride) % SIZE_MOD) ∧
      (sizeSum L2.Fields < SIZE_MOD →
        (∀ i f, L2.Fields.get? i = some f → f.Offset = sizeSum (L2.Fields.take i)) ∧
        (∀ i f g, L2.Fields.get? i = some f → L2.Fields.get? (i + 1) = some g →
          g.Offset = f.Offset + f.Stride)) := by
  obtain ⟨fs2, total, hfin, hl, hall⟩ := Finalize_open L hopen
  have hmod : ∀ i f, fs2.get? i = some f → f.Offset = sizeSum (fs2.take i) % SIZE_MOD := by
    intro i f hget
    have := (FieldsLaid_get total fs2 0 i f SIZE_MOD_pos hl hget).1
    simpa using this
  have hstep : ∀ i f g, fs2.get? i = some f → fs2.get? (i + 1) = some g →
      g.Offset = (f.Offset + f.Stride) % SIZE_MOD := by
    intro i f g hf hg
    rw [hmod _ _ hg, hmod _ _ hf, sizeSum_take_succ fs2 i f hf, Nat.mod_add_mod]
  have hexact : sizeSum fs2 < SIZE_MOD →
      ∀ i f, fs2.get? i = some f → f.Offset = sizeSum (fs2.take i) := by
    intro hlt i f hget
    rw [hmod i f hget]
    exact Nat.mod_eq_of_lt (Nat.lt_of_le_of_lt (sizeSum_take_le fs2 i) hlt)
  refine ⟨_, hfin, ?_, hmod, ?_, hstep, ?_⟩
  · simpa using Forall₂_FinalizedFrom_names _ _ hall
  · intro f hget
    simpa using hmod 0 f hget
  · intro hlt
    refine ⟨hexact hlt, ?_⟩
    intro i f g hf hg
    rw [hexact hlt _ _ hg, hexact hlt _ _ hf, sizeSum_take_succ fs2 i f hf]

/-- Witness of C1 on the nested schema of `test_nested_struct`. -/
theorem Finalize_offset_eq_sum_of_preceding_strides_witness :
    AllOpen sceneLayout = true ∧
    ∃ L2, Finalize sceneLayout = some L2 ∧
      ∀ i f, L2.Fields.get? i = some f → f.Offset = sizeSum (L2.Fields.take i) % SIZE_MOD :=
  ⟨by decide,
    (Finalize_offset_eq_sum_of_preceding_strides sceneLayout (by decide)).imp
      fun _ h => ⟨h.1, h.2.2.1⟩⟩


/-! ## Stride additivity -/

theorem AllOpenFields_append (fs gs : List FField) :
    AllOpenFields (fs ++ gs) = (AllOpenFields fs && AllOpenFields gs) := by
  induction fs with
  | nil => simp [AllOpenFields]
  | cons f fs ih => simp [AllOpenFields, ih, Bool.and_assoc]

theorem AllOpenField_leaf (f : FField) (h : f.Type_ ≠ .Struct) : AllOpenField f = true := by
  obtain ⟨t, n, s, o, l⟩ := f
  cases t <;> simp_all [AllOpenField]

theorem TypeInfo.Size_ne_Struct (t : EType) (sz : Nat) (h : TypeInfo.Size t = some sz) :
    t ≠ .Struct := by
  cases t <;> simp_all [TypeInfo.Size]

theorem Append_leaf (t : EType) (n : String) (sz : Nat) (L : UBufferElementLayout)
    (hsz : TypeInfo.Size t = some sz) (hopen : L.bIsFinalized = false) :
    UBufferElementLayout.Append t n L = some (L.pushNamed (.mk t n sz 0 none) n) := by
  cases t <;> simp_all [UBufferElementLayout.Append, TypeInfo.Size]

theorem AllOpen_iff (L : UBufferElementLayout) :
    AllOpen L = true ↔ L.bIsFinalized = false ∧ AllOpenFields L.Fields = true := by
  obtain ⟨fs, m, s, b⟩ := L
  simp [AllOpen]

theorem AppendAll_leaves : ∀ (ds : List (EType × String)) (sizes : List Nat)
    (L : UBufferElementLayout), ds.map (fun d => TypeInfo.Size d.1) = sizes.map some →
    AllOpen L = true →
    ∃ L2 new, AppendAll ds L = some L2 ∧ AllOpen L2 = true ∧ L2.Fields = L.Fields ++ new ∧
      new.map FField.Stride = sizes ∧ (∀ f ∈ new, f.Type_ ≠ .Struct) ∧
      new.map FField.Type_ = ds.map Prod.fst ∧ new.map FField.Name = ds.map Prod.snd
  | [], sizes, L, hs, hopen => by
    cases sizes with
    | nil => exact ⟨L, [], by simp [AppendAll, hopen]⟩
    | cons _ _ => simp at hs
  | d :: ds, sizes, L, hs, hopen => by
    cases sizes with
    | nil => simp at hs
    | cons sz sizes =>
      simp only [List.map_cons, List.cons.injEq] at hs
      have hne := TypeInfo.Size_ne_Struct d.1 sz hs.1
      have hL := (AllOpen_iff L).1 hopen
      have happ := Append_leaf d.1 d.2 sz L hs.1 hL.1
      have hopen2 : AllOpen (L.pushNamed (.mk d.1 d.2 sz 0 none) d.2) = true := by
        rw [AllOpen_iff]
        simp [pushNamed, hL.1, AllOpenFields_append, hL.2, AllOpenFields,
          AllOpenField_leaf (.mk d.1 d.2 sz 0 none) hne]
      obtain ⟨L2, new, hall, ho, hf, hst, hty, htys, hnm⟩ :=
        AppendAll_leaves ds sizes _ hs.2 hopen2
      refine ⟨L2, .mk d.1 d.2 sz 0 none :: new, ?_, ho, ?_, ?_, ?_, ?_, ?_⟩
      · simp [AppendAll, happ, hall]
      · simp [hf, pushNamed]
      · simp [hst]
      · intro f hmem
        rcases List.mem_cons.1 hmem with rfl | hmem
        · simpa using hne
        · exact hty f hmem
      · simp [htys]
      · simp [hnm]

theorem Forall₂_FinalizedFrom_strides : ∀ (fs fs2 : List FField),
    List.Forall₂ FinalizedFrom fs fs2 → (∀ f ∈ fs, f.Type_ ≠ .Struct) →
    fs2.map FField.Stride = fs.map FField.Stride
  | _, _, .nil, _ => rfl
  | _, _, .cons h t, hne => by
    simp [(h.2.2.1 (hne _ (List.mem_cons_self _ _))).1,
      Forall₂_FinalizedFrom_strides _ _ t (fun f hf => hne f (List.mem_cons_of_mem _ hf))]

theorem Finalize_stride (L : UBufferElementLayout) (hopen : AllOpen L = true) :
    ∃ L2, Finalize L = some L2 ∧ L2.bIsFinalized = true ∧
      L2.Stride = sizeSum L2.Fields % SIZE_MOD ∧ List.Forall₂ FinalizedFrom L.Fields L2.Fields := by
  obtain ⟨fs2, total, hfin, hl, hall⟩ := Finalize_open L hopen
  refine ⟨_, hfin, rfl, ?_, hall⟩
  simpa using FieldsLaid_total total fs2 0 SIZE_MOD_pos hl

/-- Claim C2. Stride additivity. A schema built from the empty schema only by `Append` of
fixed-size fields of sizes `s1..sn` finalizes, and `GetStride()` then returns the `size_t` sum
of `s1..sn`, which is `s1 + ... + sn` whenever that is below `2 ^ 64`. More generally, for
every open schema whose nested schemas are open, `GetStride()` after `Finalize()` is the
`size_t` sum of the `Stride` of all its fields. -/
theorem GetStride_eq_sum_of_field_sizes :
    (∀ (ds : List (EType × String)) (sizes : List Nat),
      ds.map (fun d => TypeInfo.Size d.1) = sizes.map some →
      ∃ L L2, AppendAll ds empty = some L ∧ Finalize L = some L2 ∧
        L2.Fields.map FField.Stride = sizes ∧
        L2.GetStride = some (sizes.sum % SIZE_MOD) ∧
        (sizes.sum < SIZE_MOD → L2.GetStride = some sizes.sum)) ∧
    (∀ L : UBufferElementLayout, AllOpen L = true →
      ∃ L2, Finalize L = some L2 ∧
        L2.GetStride = some (sizeSum L2.Fields % SIZE_MOD) ∧
        (sizeSum L2.Fields < SIZE_MOD → L2.GetStride = some (sizeSum L2.Fields))) := by
  have gen : ∀ L : UBufferElementLayout, AllOpen L = true →
      ∃ L2, Finalize L = some L2 ∧ List.Forall₂ FinalizedFrom L.Fields L2.Fields ∧
        L2.GetStride = some (sizeSum L2.Fields % SIZE_MOD) ∧
        (sizeSum L2.Fields < SIZE_MOD → L2.GetStride = some (sizeSum L2.Fields)) := by
    intro L hopen
    obtain ⟨L2, hfin, hb, hs, hall⟩ := Finalize_stride L hopen
    refine ⟨L2, hfin, hall, by simp [GetStride, hb, hs], ?_⟩
    intro hlt
    simp [GetStride, hb, hs, Nat.mod_eq_of_lt hlt]
  refine ⟨?_, fun L hopen => ?_⟩
  · intro ds sizes hs
    obtain ⟨L, new, happ, hopen, hf, hst, hty, _, _⟩ :=
      AppendAll_leaves ds sizes empty hs (by decide)
    obtain ⟨L2, hfin, hall, hg, hge⟩ := gen L hopen
    have hfields : L.Fields = new := by simpa [empty] using hf
    have hstr : L2.Fields.map FField.Stride = sizes := by
      rw [Forall₂_FinalizedFrom_strides _ _ hall (by simpa [hfields] using hty), hfields, hst]
    have hsum : sizeSum L2.Fields = sizes.sum := by simp [sizeSum, hstr]
    rw [hsum] at hg hge
    exact ⟨L, L2, happ, hfin, hstr, hg, hge⟩
  · obtain ⟨L2, hfin, _, hg, hge⟩ := gen L hopen
    exact ⟨L2, hfin, hg, hge⟩

/-- Witness of C2 on the schema of `test_mixed_types_and_alignment` (stride 16 + 4 + 4 + 4)
and on the nested schema of `test_nested_struct`. -/
theorem GetStride_eq_sum_of_field_sizes_witness :
    (∃ L L2,
      AppendAll [(.Float4, "Color"), (.Bool, "bIsEnabled"), (.Float, "Alpha"), (.Int, "Index")]
        empty = some L ∧ Finalize L = some L2 ∧ L2.GetStride = some 28) ∧
    (AllOpen sceneLayout = true ∧
      ∃ L2, Finalize sceneLayout = some L2 ∧
        L2.GetStride = some (sizeSum L2.Fields % SIZE_MOD)) := by
  refine ⟨?_, by decide, ?_⟩
  · obtain ⟨L, L2, h1, h2, _, _, h5⟩ := GetStride_eq_sum_of_field_sizes.1
      [(.Float4, "Color"), (.Bool, "bIsEnabled"), (.Float, "Alpha"), (.Int, "Index")]
      [16, 4, 4, 4] (by decide)
    exact ⟨L, L2, h1, h2, h5 (by decide)⟩
  · obtain ⟨L2, h1, h2, _⟩ := GetStride_eq_sum_of_field_sizes.2 sceneLayout (by decide)
    exact ⟨L2, h1, h2⟩

/-! ## Nested stride composition -/

theorem Forall₂_get? {α β : Type} (R : α → β → Prop) : ∀ (xs : List α) (ys : List β) (i : Nat)
    (x : α), List.Forall₂ R xs ys → xs.get? i = some x → ∃ y, ys.get? i = some y ∧ R x y
  | _, _, _, _, .nil, h => by simp at h
  | _, _, 0, x, .cons hr _, h => by
    simp only [List.get?_cons_zero, Option.some.injEq] at h
    subst h
    exact ⟨_, rfl, hr⟩
  | _, _, i + 1, x, .cons _ ht, h => by
    simp only [List.get?_cons_succ] at h
    simpa using Forall₂_get? R _ _ i x ht h

theorem FieldLaid_composedSize (f : FField) (h : FieldLaid f) : composedSize f = f.Stride := by
  obtain ⟨t, n, s, o, l⟩ := f
  cases t <;> try simp [composedSize]
  cases l with
  | none => simp [FieldLaid] at h
  | some l => simpa [FieldLaid] using h.1

theorem FieldsLaid_composedSize (Total : Nat) : ∀ (fs : List FField) (off : Nat),
    FieldsLaid off Total fs → fs.map composedSize = fs.map FField.Stride
  | [], _, _ => rfl
  | f :: fs, off, h => by
    simp only [FieldsLaid] at h
    simp [FieldLaid_composedSize f h.2.1, FieldsLaid_composedSize Total fs _ h.2.2]

/-- Claim C3. Nested stride composition. For every open schema whose nested schemas are open,
`Finalize()` returns; each `Struct` field of the result owns the finalized nested schema and
has as `Stride` the `GetStride()` of that nested schema; the parent's `GetStride()` is the
`size_t` sum, over its fields, of the nested stride for a `Struct` field and of the size for
any other field; and the same holds in every nested schema (`Laid`). -/
theorem Finalize_struct_stride_is_nested_stride (L : UBufferElementLayout)
    (hopen : AllOpen L = true) :
    ∃ L2, Finalize L = some L2 ∧ Laid L2 ∧
      (∀ i f, L.Fields.get? i = some f → f.Type_ = .Struct →
        ∃ l l2 f2, f.Layout = some l ∧ Finalize l = some l2 ∧ L2.Fields.get? i = some f2 ∧
          f2.Type_ = .Struct ∧ f2.Layout = some l2 ∧ l2.GetStride = some f2.Stride ∧
          Laid l2) ∧
      L2.GetStride = some ((L2.Fields.map composedSize).sum % SIZE_MOD) ∧
      ((L2.Fields.map composedSize).sum < SIZE_MOD →
        L2.GetStride = some (L2.Fields.map composedSize).sum) := by
  obtain ⟨fs2, total, hfin, hl, hall⟩ := Finalize_open L hopen
  have hsum : (fs2.map composedSize).sum = sizeSum fs2 := by
    rw [FieldsLaid_composedSize total fs2 0 hl, sizeSum]
  have htot := FieldsLaid_total total fs2 0 SIZE_MOD_pos hl
  refine ⟨_, hfin, by simp [Laid, hl], ?_, ?_, ?_⟩
  · intro i f hget hty
    obtain ⟨f2, hget2, hfrom⟩ := Forall₂_get? FinalizedFrom _ _ i f hall hget
    obtain ⟨l, l2, hfl, hfinl, hf2l, hf2s⟩ := hfrom.2.2.2 hty
    have hlaid2 := (FieldsLaid_get total fs2 0 i f2 SIZE_MOD_pos hl hget2).2
    obtain ⟨t2, n2, s2, o2, lay2⟩ := f2
    have ht2 : t2 = .Struct := by simpa [hty] using hfrom.2.1
    simp only [FField.Layout_mk, FField.Stride_mk] at hf2l hf2s
    subst hf2l
    subst ht2
    simp only [FieldLaid] at hlaid2
    have hb : l2.bIsFinalized = true := by
      obtain ⟨a, b, c, d⟩ := l2
      simpa [Laid] using hlaid2.2.1
    exact ⟨l, l2, .mk .Struct n2 s2 o2 (some l2), hfl, hfinl, by simpa using hget2, rfl, rfl,
      by simp [GetStride, hb, hf2s], hlaid2.2⟩
  · simp [GetStride, hsum, htot]
  · intro hlt
    simp only [Fields_mk, hsum] at hlt
    simp [GetStride, hsum, htot, Nat.mod_eq_of_lt hlt]

/-- Witness of C3 on the schema of `test_nested_struct`. -/
theorem Finalize_struct_stride_is_nested_stride_witness :
    AllOpen sceneLayout = true ∧
    ∃ L2, Finalize sceneLayout = some L2 ∧ Laid L2 ∧
      L2.GetStride = some ((L2.Fields.map composedSize).sum % SIZE_MOD) :=
  ⟨by decide,
    (Finalize_struct_stride_is_nested_stride sceneLayout (by decide)).imp
      fun _ h => ⟨h.1, h.2.1, h.2.2.2.1⟩⟩

/-! ## `Append<Type>` -/

/-- Claim C4. On an open schema `Append<Type>(name)` returns and adds exactly one field, at
the end, with the given name and type and the size fixed by the type tag (Bool 4, Int 4,
Float 4, Float3 12, Float4 16, Matrix 64), a null nested layout, and the name bound to the new
last index; the schema stays open. The schema `Float3 Position, Int EntityID, Bool Flag` in a
single-element buffer has stride 12 + 4 + 4 = 20. -/
theorem Append_adds_one_field_of_tag_size :
    (∀ (t : EType) (sz : Nat) (name : String) (L : UBufferElementLayout),
      (t, sz) ∈ [(EType.Bool, 4), (EType.Int, 4), (EType.Float, 4), (EType.Float3, 12),
        (EType.Float4, 16), (EType.Matrix, 64)] →
      L.bIsFinalized = false →
      ∃ L2, UBufferElementLayout.Append t name L = some L2 ∧
        L2.Fields = L.Fields ++ [FField.mk t name sz 0 none] ∧
        L2.Fields.length = L.Fields.length + 1 ∧
        TMap.find L2.FieldIndexMap name = some L.Fields.length ∧
        L2.bIsFinalized = false) ∧
    (∃ L1 L2 L3 B, UBufferElementLayout.Append .Float3 "Position" empty = some L1 ∧
      UBufferElementLayout.Append .Int "EntityID" L1 = some L2 ∧
      UBufferElementLayout.Append .Bool "Flag" L2 = some L3 ∧
      UDynamicBuffer.create L3 = some B ∧
      B.Layout.Fields.map FField.Stride = [12, 4, 4] ∧
      B.Layout.GetStride = some 20 ∧ B.Buffer.length = 20 ∧ B.GetCount = some 1) := by
  refine ⟨?_, ?_⟩
  · intro t sz name L hmem hopen
    have hsz : TypeInfo.Size t = some sz := by
      simp only [List.mem_cons, Prod.mk.injEq, List.mem_singleton, List.not_mem_nil,
        or_false] at hmem
      rcases hmem with h | h | h | h | h | h <;> obtain ⟨rfl, rfl⟩ := h <;> rfl
    refine ⟨_, Append_leaf t name sz L hsz hopen, ?_⟩
    simp [pushNamed, hopen, TMap.find, TMap.set]
  · refine ⟨_, _, _, _, rfl, rfl, rfl, rfl, ?_⟩
    decide

/-- Witness of C4: `Append<Float3>("Position")` on the empty schema. -/
theorem Append_adds_one_field_of_tag_size_witness :
    ∃ L2, UBufferElementLayout.Append .Float3 "Position" empty = some L2 ∧
      L2.Fields = [FField.mk .Float3 "Position" 12 0 none] :=
  (Append_adds_one_field_of_tag_size.1 .Float3 12 "Position" empty (by decide) rfl).imp
    fun _ h => ⟨h.1, h.2.1⟩

/-! ## Chained accessors -/

theorem structPath_ne_nil (L : UBufferElementLayout) (n : String) (ns : List String)
    (fs : List FField) (h : structPath L (n :: ns) = some fs) : fs ≠ [] := by
  cases ns with
  | nil =>
    simp only [structPath] at h
    cases hg : L.GetField n <;> simp [hg] at h
    subst h
    simp
  | cons n2 ns =>
    simp only [structPath] at h
    cases hg : L.GetField n <;> simp only [hg] at h
    · simp at h
    · split at h
      · split at h
        · simp at h
        · split at h
          · simp at h
          · simp only [Option.some.injEq] at h
            subst h
            simp
      · simp at h

theorem indexPath_structPath : ∀ (names : List String) (L : UBufferElementLayout)
    (fs : List FField) (pos : Nat) (fld : Option FField), structPath L names = some fs →
    ∃ e, UBufferElement.indexPath ⟨pos, some L, fld⟩ names = some e ∧
      e.BufferData = pos + (fs.map FField.Offset).sum ∧
      (names ≠ [] → e.Field = fs.getLast?)
  | [], L, fs, pos, fld, h => by
    simp only [structPath, Option.some.injEq] at h
    subst h
    exact ⟨_, rfl, by simp, by simp⟩
  | [n], L, fs, pos, fld, h => by
    simp only [structPath] at h
    cases hg : L.GetField n with
    | none => simp [hg] at h
    | some f =>
      simp only [hg, Option.some.injEq] at h
      subst h
      by_cases hs : f.Type_ = .Struct
      · exact ⟨⟨pos + f.Offset, f.Layout, some f⟩,
          by simp [UBufferElement.indexPath, UBufferElement.index, hg, hs], by simp, by simp⟩
      · exact ⟨⟨pos + f.Offset, some L, some f⟩,
          by simp [UBufferElement.indexPath, UBufferElement.index, hg, hs], by simp, by simp⟩
  | n :: n2 :: ns, L, fs, pos, fld, h => by
    simp only [structPath] at h
    cases hg : L.GetField n with
    | none => simp [hg] at h
    | some f =>
      simp only [hg] at h
      by_cases hs : f.Type_ = .Struct
      · simp only [hs, if_true] at h
        cases hl : f.Layout with
        | none => simp [hl] at h
        | some l =>
          simp only [hl] at h
          cases hp : structPath l (n2 :: ns) with
          | none => simp [hp] at h
          | some gs =>
            simp only [hp, Option.some.injEq] at h
            subst h
            obtain ⟨e, he, hpos, hfld⟩ :=
              indexPath_structPath (n2 :: ns) l gs (pos + f.Offset) (some f) hp
            refine ⟨e, ?_, ?_, ?_⟩
            · rw [UBufferElement.indexPath]
              simp only [UBufferElement.index, hg, hs, if_true, hl]
              exact he
            · simp [hpos, Nat.add_assoc]
            · intro _
              rw [hfld (by simp)]
              cases gs with
              | nil => exact absurd rfl (structPath_ne_nil l n2 ns [] hp)
              | cons g gs => simp [List.getLast?_cons_cons]
      · simp [hs] at h

theorem GetCount_pos (B : UDynamicBuffer) (c i : Nat) (hc : B.GetCount = some c) (hi : i < c) :
    B.Layout.bIsFinalized = true ∧ B.Layout.GetStride = some B.Layout.Stride ∧
      0 < B.Layout.Stride ∧ c = B.Buffer.length / B.Layout.Stride := by
  unfold UDynamicBuffer.GetCount at hc
  by_cases hb : B.Layout.bIsFinalized = true
  · simp only [GetStride, hb, if_true] at hc
    by_cases hs : B.Layout.Stride > 0
    · simp only [hs, if_true, Option.some.injEq] at hc
      exact ⟨hb, by simp [GetStride, hb], hs, hc.symm⟩
    · simp only [hs, if_false, Option.some.injEq] at hc
      omega
  · simp [GetStride, hb] at hc

theorem elementAt_eq (B : UDynamicBuffer) (c i : Nat) (hlen : B.Buffer.length < SIZE_MOD)
    (hc : B.GetCount = some c) (hi : i < c) :
    B.elementAt i = some ⟨i * B.Layout.Stride, some B.Layout, none⟩ ∧
      (i + 1) * B.Layout.Stride ≤ B.Buffer.length := by
  obtain ⟨_, hs, hpos, hdiv⟩ := GetCount_pos B c i hc hi
  have hle : (i + 1) * B.Layout.Stride ≤ B.Buffer.length := by
    have h1 : i + 1 ≤ B.Buffer.length / B.Layout.Stride := by omega
    calc (i + 1) * B.Layout.Stride
        ≤ (B.Buffer.length / B.Layout.Stride) * B.Layout.Stride := Nat.mul_le_mul_right _ h1
      _ ≤ B.Buffer.length := Nat.div_mul_le_self _ _
  have hlt : i * B.Layout.Stride < SIZE_MOD := by
    have : i * B.Layout.Stride ≤ (i + 1) * B.Layout.Stride :=
      Nat.mul_le_mul_right _ (Nat.le_succ i)
    omega
  refine ⟨?_, hle⟩
  simp [UDynamicBuffer.elementAt, hc, hi, hs, Nat.mod_eq_of_lt hlt]

/-- Claim C5. Deep chaining. For every buffer (its byte count being a `size_t`), every
`i < GetCount()` and every path of names `n1..nk` of which `n1..n(k-1)` resolve to `Struct`
fields of successively nested schemas and `nk` resolves in the innermost one, `buffer[i]` is
an accessor at byte `i * stride`, the chain `buffer[i][n1]...[nk]` returns, and its accessor
is at byte `i * stride + Offset(n1) + ... + Offset(nk)` and carries the field resolved last. -/
theorem chained_accessor_position_is_sum_of_offsets (B : UDynamicBuffer) (i c : Nat)
    (names : List String) (fs : List FField) (hlen : B.Buffer.length < SIZE_MOD)
    (hc : B.GetCount = some c) (hi : i < c) (hpath : structPath B.Layout names = some fs) :
    ∃ stride e0 e, B.Layout.GetStride = some stride ∧ B.elementAt i = some e0 ∧
      e0.BufferData = i * stride ∧ e0.indexPath names = some e ∧
      e.BufferData = i * stride + (fs.map FField.Offset).sum ∧
      (names ≠ [] → e.Field = fs.getLast?) := by
  obtain ⟨_, hs, _, _⟩ := GetCount_pos B c i hc hi
  obtain ⟨h0, _⟩ := elementAt_eq B c i hlen hc hi
  obtain ⟨e, he, hpos, hfld⟩ :=
    indexPath_structPath names B.Layout fs (i * B.Layout.Stride) none hpath
  exact ⟨_, _, e, hs, h0, rfl, he, hpos, hfld⟩

/-- Witness of C5: the path of `test_deep_nested_struct` through four nested structs to
`Level4_Color`, at byte 4 + 4 + 64 + 12 + 4 = 88 of element 0. -/
theorem chained_accessor_position_is_sum_of_offsets_witness :
    ∃ e0 e, rootBuffer.elementAt 0 = some e0 ∧
      e0.indexPath ["Level1", "Level2", "Level3", "Level4", "Level4_Color"] = some e ∧
      e.BufferData = 88 := by
  obtain ⟨stride, e0, e, _, h0, _, he, hpos, _⟩ :=
    chained_accessor_position_is_sum_of_offsets rootBuffer 0 1
      ["Level1", "Level2", "Level3", "Level4", "Level4_Color"]
      ((structPath rootBuffer.Layout
        ["Level1", "Level2", "Level3", "Level4", "Level4_Color"]).getD [])
      (by decide) (by decide) (by decide) rfl
  refine ⟨e0, e, h0, he, hpos.trans ?_⟩
  rw [Nat.zero_mul, Nat.zero_add]
  decide

/-! ## Schemas whose size fits `size_t` -/

theorem declaredSizeField_leaf (t : EType) (n : String) (s o : Nat)
    (l : Option UBufferElementLayout) (ht : t ≠ .Struct) :
    declaredSizeField (.mk t n s o l) = s := by
  cases t <;> simp_all [declaredSizeField]

theorem FinalizeField_leaf_fits (off : Nat) (t : EType) (n : String) (s o : Nat)
    (l : Option UBufferElementLayout) (ht : t ≠ .Struct) (f2 : FField) (off2 : Nat)
    (h : FinalizeField off (.mk t n s o l) = some (f2, off2)) :
    FieldFits f2 ∧ f2.Stride = declaredSizeField (.mk t n s o l) := by
  rw [FinalizeField_leaf off t n s o l ht] at h
  simp only [Option.some.injEq, Prod.mk.injEq] at h
  obtain ⟨rfl, _⟩ := h
  rw [declaredSizeField_leaf t n s o l ht]
  cases t <;> simp_all [FieldFits]

theorem Finalize_fits_of_loop (fs fs2 : List FField) (m : List (String × Nat)) (s total : Nat)
    (b : Bool) (L2 : UBufferElementLayout)
    (hopen : AllOpenFields fs = true)
    (hloop : FinalizeLoop 0 fs = some (fs2, total))
    (hfit : FieldsFit fs2) (hsum : sizeSum fs2 < SIZE_MOD)
    (h : Finalize (.mk fs m s b) = some L2) :
    Fits L2 ∧ L2.Stride = sizeSum fs2 := by
  obtain ⟨fs3, total3, hloop3, hl, _⟩ := FinalizeLoop_laid 0 fs hopen
  rw [hloop] at hloop3
  simp only [Option.some.injEq, Prod.mk.injEq] at hloop3
  obtain ⟨rfl, rfl⟩ := hloop3
  have htot := FieldsLaid_total total fs2 0 SIZE_MOD_pos hl
  rw [Nat.zero_add, Nat.mod_eq_of_lt hsum] at htot
  cases b with
  | true => simp [Finalize] at h
  | false =>
    simp only [Finalize, hloop, Bool.false_eq_true, if_false, Option.some.injEq] at h
    subst h
    simp [Fits, hfit, hsum, htot]

mutual
theorem FinalizeField_fits (off : Nat) : ∀ (f f2 : FField) (off2 : Nat),
    AllOpenField f = true → declaredSizeField f < SIZE_MOD →
    FinalizeField off f = some (f2, off2) →
    FieldFits f2 ∧ f2.Stride = declaredSizeField f
  | .mk .Struct n s o none, _, _, ho, _, _ => by simp [AllOpenField] at ho
  | .mk .Struct n s o (some l), f2, off2, ho, hd, h => by
    simp only [AllOpenField] at ho
    simp only [declaredSizeField] at hd
    simp only [FinalizeField] at h
    cases hl : Finalize l with
    | none => simp [hl] at h
    | some l2 =>
      have ih := Finalize_fits l l2 ho hd hl
      simp only [hl, Option.some.injEq, Prod.mk.injEq] at h
      obtain ⟨rfl, _⟩ := h
      simp [FieldFits, ih.1, ih.2, declaredSizeField]
  | .mk .Bool n s o l, f2, off2, _, _, h =>
    FinalizeField_leaf_fits off .Bool n s o l (by decide) f2 off2 h
  | .mk .Int n s o l, f2, off2, _, _, h =>
    FinalizeField_leaf_fits off .Int n s o l (by decide) f2 off2 h
  | .mk .Float n s o l, f2, off2, _, _, h =>
    FinalizeField_leaf_fits off .Float n s o l (by decide) f2 off2 h
  | .mk .Float3 n s o l, f2, off2, _, _, h =>
    FinalizeField_leaf_fits off .Float3 n s o l (by decide) f2 off2 h
  | .mk .Float4 n s o l, f2, off2, _, _, h =>
    FinalizeField_leaf_fits off .Float4 n s o l (by decide) f2 off2 h
  | .mk .Matrix n s o l, f2, off2, _, _, h =>
    FinalizeField_leaf_fits off .Matrix n s o l (by decide) f2 off2 h
  | .mk .Padding n s o l, f2, off2, _, _, h =>
    FinalizeField_leaf_fits off .Padding n s o l (by decide) f2 off2 h
theorem FinalizeLoop_fits (off : Nat) : ∀ (fs fs2 : List FField) (total : Nat),
    AllOpenFields fs = true → declaredSizeFields fs < SIZE_MOD →
    FinalizeLoop off fs = some (fs2, total) →
    FieldsFit fs2 ∧ sizeSum fs2 = declaredSizeFields fs
  | [], fs2, total, _, _, h => by
    simp only [FinalizeLoop, Option.some.injEq, Prod.mk.injEq] at h
    obtain ⟨rfl, _⟩ := h
    simp [FieldsFit, declaredSizeFields]
  | f :: fs, fs2, total, ho, hd, h => by
    simp only [AllOpenFields, Bool.and_eq_true] at ho
    simp only [declaredSizeFields] at hd
    simp only [FinalizeLoop] at h
    cases hf : FinalizeField off f with
    | none => simp [hf] at h
    | some p =>
      obtain ⟨f2, off2⟩ := p
      simp only [hf] at h
      cases hfs : FinalizeLoop off2 fs with
      | none => simp [hfs] at h
      | some q =>
        obtain ⟨gs, t⟩ := q
        simp only [hfs, Option.some.injEq, Prod.mk.injEq] at h
        obtain ⟨rfl, _⟩ := h
        have ih1 := FinalizeField_fits off f f2 off2 ho.1 (by omega) hf
        have ih2 := FinalizeLoop_fits off2 fs gs t ho.2 (by omega) hfs
        simp [FieldsFit, ih1.1, ih1.2, ih2.1, ih2.2, declaredSizeFields]
theorem Finalize_fits : ∀ (L L2 : UBufferElementLayout),
    AllOpen L = true → declaredSize L < SIZE_MOD → Finalize L = some L2 →
    Fits L2 ∧ L2.Stride = declaredSize L
  | .mk fs m s b, L2, ho, hd, h => by
    simp only [AllOpen, Bool.and_eq_true, Bool.not_eq_true'] at ho
    simp only [declaredSize] at hd
    obtain ⟨fs2, total, hloop, _, _⟩ := FinalizeLoop_laid 0 fs ho.2
    have ih := FinalizeLoop_fits 0 fs fs2 total ho.2 hd hloop
    have := Finalize_fits_of_loop fs fs2 m s total b L2 ho.2 hloop ih.1 (by omega) h
    simpa [declaredSize, ih.2] using this
end

/-! ## Fields lie inside their schema -/

theorem GetField_some (L : UBufferElementLayout) (n : String) (f : FField)
    (h : L.GetField n = some f) :
    L.bIsFinalized = true ∧ ∃ i, TMap.find L.FieldIndexMap n = some i ∧
      L.Fields.get? i = some f := by
  unfold GetField at h
  by_cases hb : L.bIsFinalized = true
  · simp only [hb, if_true] at h
    cases hm : TMap.find L.FieldIndexMap n with
    | none => simp [hm] at h
    | some i =>
      simp only [hm, GetFieldAt, hb, if_true] at h
      exact ⟨hb, i, rfl, h⟩
  · simp [hb] at h

theorem memcpyTo_some (buf : List Byte) (pos : Nat) (src : List Byte)
    (h : pos + src.length ≤ buf.length) :
    memcpyTo buf pos src = some (buf.take pos ++ src ++ buf.drop (pos + src.length)) := by
  simp [memcpyTo, h]

theorem bytesOfUInt32_length (v : Nat) : (bytesOfUInt32 v).length = 4 := rfl

theorem TagSizedFields_append : ∀ (fs gs : List FField),
    TagSizedFields (fs ++ gs) ↔ TagSizedFields fs ∧ TagSizedFields gs
  | [], gs => by simp [TagSizedFields]
  | f :: fs, gs => by simp [TagSizedFields, TagSizedFields_append fs gs, and_assoc]

theorem TagSized_iff (L : UBufferElementLayout) : TagSized L ↔ TagSizedFields L.Fields := by
  obtain ⟨fs, m, s, b⟩ := L
  simp [TagSized]

theorem TagSizedField_leaf (t : EType) (n : String) (sz : Nat)
    (h : TypeInfo.Size t = some sz) : TagSizedField (.mk t n sz 0 none) := by
  cases t <;> simp_all [TagSizedField, TypeInfo.Size]

theorem AllOpen_pushNamed (L : UBufferElementLayout) (f : FField) (n : String)
    (hL : AllOpen L = true) (hf : AllOpenField f = true) : AllOpen (L.pushNamed f n) = true := by
  have h := (AllOpen_iff L).1 hL
  rw [AllOpen_iff]
  simp [pushNamed, h.1, h.2, AllOpenFields_append, AllOpenFields, hf]

theorem TagSized_pushNamed (L : UBufferElementLayout) (f : FField) (n : String)
    (hL : TagSized L) (hf : TagSizedField f) : TagSized (L.pushNamed f n) := by
  rw [TagSized_iff] at hL ⊢
  simp [pushNamed, TagSizedFields_append, TagSizedFields, hL, hf]

/-- A schema built through the interface is open at every depth and its fields have the
sizes of their tags. -/
theorem Built_open_tagSized (L : UBufferElementLayout) (h : Built L) :
    AllOpen L = true ∧ TagSized L := by
  induction h with
  | empty => exact ⟨by decide, by simp [empty, TagSized, TagSizedFields]⟩
  | append t n L L2 _ happ ih =>
    have hb := ((AllOpen_iff L).1 ih.1).1
    cases ht : t with
    | Struct =>
      subst ht
      simp only [UBufferElementLayout.Append, hb, Bool.false_eq_true, if_false,
        Option.some.injEq] at happ
      subst happ
      exact ⟨AllOpen_pushNamed _ _ _ ih.1 (by simp [AllOpenField, empty, AllOpen, AllOpenFields]),
        TagSized_pushNamed _ _ _ ih.2 (by simp [TagSizedField, empty, TagSized, TagSizedFields])⟩
    | Padding =>
      subst ht
      simp [UBufferElementLayout.Append, hb, TypeInfo.Size] at happ
    | _ =>
      subst ht
      simp only [UBufferElementLayout.Append, hb, Bool.false_eq_true, if_false,
        TypeInfo.Size, Option.some.injEq] at happ
      subst happ
      exact ⟨AllOpen_pushNamed _ _ _ ih.1 (by simp [AllOpenField]),
        TagSized_pushNamed _ _ _ ih.2 (by simp [TagSizedField, TypeInfo.Size])⟩
  | appendStruct n N L L2 _ _ happ ihL ihN =>
    have hb := ((AllOpen_iff L).1 ihL.1).1
    simp only [AppendStruct, hb, Bool.false_eq_true, if_false, Option.some.injEq] at happ
    subst happ
    exact ⟨AllOpen_pushNamed _ _ _ ihL.1 (by simpa [AllOpenField] using ihN.1),
      TagSized_pushNamed _ _ _ ihL.2 (by simpa [TagSizedField] using ihN.2)⟩
  | appendPadding k L L2 _ _ happ ih =>
    have hL := (AllOpen_iff L).1 ih.1
    by_cases hk : k = 0
    · simp only [AppendPadding, hL.1, Bool.false_eq_true, if_false, hk, if_true,
        Option.some.injEq] at happ
      subst happ
      exact ih
    · simp only [AppendPadding, hL.1, Bool.false_eq_true, if_false, hk,
        Option.some.injEq] at happ
      subst happ
      refine ⟨?_, ?_⟩
      · rw [AllOpen_iff]
        simp [hL.1, hL.2, AllOpenFields_append, AllOpenFields, AllOpenField]
      · have := (TagSized_iff L).1 ih.2
        rw [TagSized_iff]
        simp [TagSizedFields_append, TagSizedFields, TagSizedField, this]

theorem AllOpenFields_get : ∀ (fs : List FField) (i : Nat) (f : FField),
    AllOpenFields fs = true → fs.get? i = some f → AllOpenField f = true
  | [], _, _, _, h => by simp at h
  | g :: fs, 0, f, hf, h => by
    simp only [List.get?_cons_zero, Option.some.injEq] at h
    subst h
    simp only [AllOpenFields, Bool.and_eq_true] at hf
    exact hf.1
  | g :: fs, i + 1, f, hf, h => by
    simp only [List.get?_cons_succ] at h
    simp only [AllOpenFields, Bool.and_eq_true] at hf
    exact AllOpenFields_get fs i f hf.2 h

theorem Built_AppendAll : ∀ (ds : List (EType × String)) (L L2 : UBufferElementLayout),
    Built L → AppendAll ds L = some L2 → Built L2
  | [], L, L2, hb, h => by
    simp only [AppendAll, Option.some.injEq] at h
    subst h
    exact hb
  | d :: ds, L, L2, hb, h => by
    simp only [AppendAll] at h
    cases ha : UBufferElementLayout.Append d.1 d.2 L with
    | none => simp [ha] at h
    | some L1 =>
      simp only [ha] at h
      exact Built_AppendAll ds L1 L2 (Built.append d.1 d.2 L L1 hb ha) h

/-! ## Boolean width -/

/-- Claim C9, the code at the failing input: a `float` declared at `StartOffset = 2 ^ 31` is
reflected into the empty schema. `GetCurrentStride()` is 0, so the `assert` on `StartOffset`
passes and the gap is `2 ^ 31`; `static_cast<int>` of the gap is negative, so no Padding field
is inserted and the call does what `Append<Float>` alone does. After `Finalize()` the schema
has the one field, of 4 bytes, at `Offset` 0 and not at the declared offset; the stride is 4.
With a gap of 16 the Padding field of 16 bytes is inserted and the field is at `Offset` 16. -/
theorem ReflectConstantBufferVariable_gap_2pow31_inserts_no_padding :
    GetCurrentStride empty = 0 ∧ castToInt 2147483648 = -2147483648 ∧
    ReflectConstantBufferVariable (.mk .D3D_SVC_SCALAR .D3D_SVT_FLOAT 1 1 0 []) "Value"
        2147483648 empty = UBufferElementLayout.Append .Float "Value" empty ∧
    ((ReflectConstantBufferVariable (.mk .D3D_SVC_SCALAR .D3D_SVT_FLOAT 1 1 0 []) "Value"
        2147483648 empty).bind Finalize).map
      (fun L => (L.Fields.map (fun f => (f.Type_, f.Stride, f.Offset)), L.Stride)) =
      some ([(.Float, 4, 0)], 4) ∧
    ((ReflectConstantBufferVariable (.mk .D3D_SVC_SCALAR .D3D_SVT_FLOAT 1 1 0 []) "Value"
        16 empty).bind Finalize).map
      (fun L => (L.Fields.map (fun f => (f.Type_, f.Stride, f.Offset)), L.Stride)) =
      some ([(.Padding, 16, 0), (.Float, 4, 16)], 20) := by
  refine ⟨by decide, by decide, rfl, by decide, by decide⟩

/-! ## Element count -/

theorem Finalize_finalized (L L2 : UBufferElementLayout) (h : Finalize L = some L2) :
    L2.bIsFinalized = true := by
  obtain ⟨fs, m, s, b⟩ := L
  cases b with
  | true => simp [Finalize] at h
  | false =>
    simp only [Finalize, Bool.false_eq_true, if_false] at h
    cases hl : FinalizeLoop 0 fs with
    | none => simp [hl] at h
    | some p =>
      simp only [hl, Option.some.injEq] at h
      subst h
      rfl

/-- Claim C10. Element count. For every schema that `Finalize()` accepts with a positive
stride, and every element count `n` with `stride * n` representable in `size_t`, the
constructor `UDynamicBuffer(schema, n)` returns a buffer that owns the finalized schema, has
`stride * n` bytes and `GetCount() == n`; for such a schema the one-argument constructor
returns a buffer of `stride` bytes with `GetCount() == 1`. -/
theorem GetCount_of_constructed_buffer (L L2 : UBufferElementLayout) (n : Nat)
    (hfin : Finalize L = some L2) (hpos : 0 < L2.Stride) (hrep : L2.Stride * n < SIZE_MOD) :
    (∃ B, UDynamicBuffer.createCount L n = some B ∧ B.Layout = L2 ∧
      B.Buffer.length = L2.Stride * n ∧ B.GetCount = some n) ∧
    (∃ B, UDynamicBuffer.create L = some B ∧ B.Layout = L2 ∧
      B.Buffer.length = L2.Stride ∧ B.GetCount = some 1) := by
  have hb := Finalize_finalized L L2 hfin
  have hs : L2.GetStride = some L2.Stride := by simp [GetStride, hb]
  refine ⟨⟨⟨List.replicate (L2.Stride * n % SIZE_MOD) 0, L2⟩, ?_, rfl, ?_, ?_⟩,
    ⟨⟨List.replicate L2.Stride 0, L2⟩, ?_, rfl, ?_, ?_⟩⟩
  · simp [UDynamicBuffer.createCount, hfin, hs]
  · simp [Nat.mod_eq_of_lt hrep]
  · simp [UDynamicBuffer.GetCount, hs, hpos, Nat.mod_eq_of_lt hrep,
      Nat.mul_div_cancel_left n hpos]
  · simp [UDynamicBuffer.create, hfin, hs]
  · simp
  · simp [UDynamicBuffer.GetCount, hs, hpos, Nat.div_self hpos]

/-- Witness of C10 on `test_array_of_elements`: stride 8, five elements, 40 bytes. -/
theorem GetCount_of_constructed_buffer_witness :
    ∃ B, UDynamicBuffer.createCount arrayLayout 5 = some B ∧ B.Buffer.length = 40 ∧
      B.GetCount = some 5 :=
  (GetCount_of_constructed_buffer arrayLayout
    ((Finalize arrayLayout).getD UBufferElementLayout.empty) 5 rfl (by decide)
    (by decide)).1.imp fun _ h => ⟨h.1, h.2.2.1, h.2.2.2⟩

/-! ## Construction -/

theorem indexMapFrom_append : ∀ (fs gs : List FField) (start : Nat) (m : List (String × Nat)),
    indexMapFrom start m (fs ++ gs) = indexMapFrom (start + fs.length) (indexMapFrom start m fs) gs
  | [], gs, start, m => by simp [indexMapFrom]
  | f :: fs, gs, start, m => by
    have ih := indexMapFrom_append fs gs (start + 1)
      (if f.Type_ ≠ .Padding then TMap.set m f.Name start else m)
    rw [List.cons_append, indexMapFrom, indexMapFrom, ih, List.length_cons]
    congr 1
    omega

theorem WellMappedFields_append : ∀ (fs gs : List FField),
    WellMappedFields (fs ++ gs) ↔ WellMappedFields fs ∧ WellMappedFields gs
  | [], gs => by simp [WellMappedFields]
  | f :: fs, gs => by simp [WellMappedFields, WellMappedFields_append fs gs, and_assoc]

theorem WellMapped_iff (L : UBufferElementLayout) :
    WellMapped L ↔ L.FieldIndexMap = indexMapFrom 0 [] L.Fields ∧ WellMappedFields L.Fields := by
  obtain ⟨fs, m, s, b⟩ := L
  simp [WellMapped]

theorem WellMapped_pushNamed (L : UBufferElementLayout) (f : FField) (n : String)
    (hL : WellMapped L) (hf : WellMappedField f) (hn : f.Name = n) (hp : f.Type_ ≠ .Padding) :
    WellMapped (L.pushNamed f n) := by
  rw [WellMapped_iff] at hL ⊢
  refine ⟨?_, ?_⟩
  · simp [pushNamed, indexMapFrom_append, indexMapFrom, hp, hn, ← hL.1]
  · simp [pushNamed, WellMappedFields_append, WellMappedFields, hL.2, hf]

/-- A schema built through the interface has, at every depth, the name map of its fields. -/
theorem Built_wellMapped (L : UBufferElementLayout) (h : Built L) : WellMapped L := by
  induction h with
  | empty => simp [empty, WellMapped, indexMapFrom, WellMappedFields]
  | append t n L L2 hb happ ih =>
    have hopen := ((AllOpen_iff L).1 (Built_open_tagSized L hb).1).1
    cases ht : t with
    | Struct =>
      subst ht
      simp only [UBufferElementLayout.Append, hopen, Bool.false_eq_true, if_false,
        Option.some.injEq] at happ
      subst happ
      exact WellMapped_pushNamed _ _ _ ih
        (by simp [WellMappedField, empty, WellMapped, indexMapFrom, WellMappedFields])
        rfl (by simp)
    | Padding =>
      subst ht
      simp [UBufferElementLayout.Append, hopen, TypeInfo.Size] at happ
    | _ =>
      subst ht
      simp only [UBufferElementLayout.Append, hopen, Bool.false_eq_true, if_false,
        TypeInfo.Size, Option.some.injEq] at happ
      subst happ
      exact WellMapped_pushNamed _ _ _ ih (by simp [WellMappedField]) rfl (by simp)
  | appendStruct n N L L2 hb _ happ ihL ihN =>
    have hopen := ((AllOpen_iff L).1 (Built_open_tagSized L hb).1).1
    simp only [AppendStruct, hopen, Bool.false_eq_true, if_false, Option.some.injEq] at happ
    subst happ
    exact WellMapped_pushNamed _ _ _ ihL (by simpa [WellMappedField] using ihN) rfl (by simp)
  | appendPadding k L L2 hb _ happ ih =>
    have hopen := ((AllOpen_iff L).1 (Built_open_tagSized L hb).1).1
    by_cases hk : k = 0
    · simp only [AppendPadding, hopen, Bool.false_eq_true, if_false, hk, if_true,
        Option.some.injEq] at happ
      subst happ
      exact ih
    · simp only [AppendPadding, hopen, Bool.false_eq_true, if_false, hk,
        Option.some.injEq] at happ
      subst happ
      rw [WellMapped_iff] at ih ⊢
      refine ⟨?_, ?_⟩
      · simp [indexMapFrom_append, indexMapFrom, ← ih.1]
      · simp [WellMappedFields_append, WellMappedFields, WellMappedField, ih.2]

theorem WellMappedField_leaf (t : EType) (n : String) (s o : Nat)
    (l : Option UBufferElementLayout) (ht : t ≠ .Struct) : WellMappedField (.mk t n s o l) := by
  cases t <;> simp_all [WellMappedField]

theorem FinalizeField_leaf_wellMapped (off : Nat) (t : EType) (n : String) (s o : Nat)
    (l : Option UBufferElementLayout) (ht : t ≠ .Struct) (f2 : FField) (off2 : Nat)
    (h : FinalizeField off (.mk t n s o l) = some (f2, off2)) :
    WellMappedField f2 ∧ f2.Name = n ∧ f2.Type_ = t := by
  rw [FinalizeField_leaf off t n s o l ht] at h
  simp only [Option.some.injEq, Prod.mk.injEq] at h
  obtain ⟨rfl, _⟩ := h
  exact ⟨WellMappedField_leaf t n s off l ht, rfl, rfl⟩

mutual
theorem FinalizeField_wellMapped (off : Nat) : ∀ (f f2 : FField) (off2 : Nat),
    WellMappedField f → FinalizeField off f = some (f2, off2) →
    WellMappedField f2 ∧ f2.Name = f.Name ∧ f2.Type_ = f.Type_
  | .mk .Struct n s o none, f2, off2, _, h => by
    simp only [FinalizeField, Option.some.injEq, Prod.mk.injEq] at h
    obtain ⟨rfl, _⟩ := h
    simp [WellMappedField]
  | .mk .Struct n s o (some l), f2, off2, hw, h => by
    simp only [WellMappedField] at hw
    simp only [FinalizeField] at h
    cases hl : Finalize l with
    | none => simp [hl] at h
    | some l2 =>
      simp only [hl, Option.some.injEq, Prod.mk.injEq] at h
      obtain ⟨rfl, _⟩ := h
      simpa [WellMappedField] using Finalize_wellMapped l l2 hw hl
  | .mk .Bool n s o l, f2, off2, _, h =>
    FinalizeField_leaf_wellMapped off .Bool n s o l (by decide) f2 off2 h
  | .mk .Int n s o l, f2, off2, _, h =>
    FinalizeField_leaf_wellMapped off .Int n s o l (by decide) f2 off2 h
  | .mk .Float n s o l, f2, off2, _, h =>
    FinalizeField_leaf_wellMapped off .Float n s o l (by decide) f2 off2 h
  | .mk .Float3 n s o l, f2, off2, _, h =>
    FinalizeField_leaf_wellMapped off .Float3 n s o l (by decide) f2 off2 h
  | .mk .Float4 n s o l, f2, off2, _, h =>
    FinalizeField_leaf_wellMapped off .Float4 n s o l (by decide) f2 off2 h
  | .mk .Matrix n s o l, f2, off2, _, h =>
    FinalizeField_leaf_wellMapped off .Matrix n s o l (by decide) f2 off2 h
  | .mk .Padding n s o l, f2, off2, _, h =>
    FinalizeField_leaf_wellMapped off .Padding n s o l (by decide) f2 off2 h
theorem FinalizeLoop_wellMapped (off : Nat) : ∀ (fs fs2 : List FField) (total : Nat),
    WellMappedFields fs → FinalizeLoop off fs = some (fs2, total) →
    WellMappedFields fs2 ∧
      ∀ start m, indexMapFrom start m fs2 = indexMapFrom start m fs
  | [], fs2, total, _, h => by
    simp only [FinalizeLoop, Option.some.injEq, Prod.mk.injEq] at h
    obtain ⟨rfl, _⟩ := h
    simp [WellMappedFields]
  | f :: fs, fs2, total, hw, h => by
    simp only [WellMappedFields] at hw
    simp only [FinalizeLoop] at h
    cases hf : FinalizeField off f with
    | none => simp [hf] at h
    | some p =>
      obtain ⟨f2, off2⟩ := p
      simp only [hf] at h
      cases hfs : FinalizeLoop off2 fs with
      | none => simp [hfs] at h
      | some q =>
        obtain ⟨gs, t⟩ := q
        simp only [hfs, Option.some.injEq, Prod.mk.injEq] at h
        obtain ⟨rfl, _⟩ := h
        have ih1 := FinalizeField_wellMapped off f f2 off2 hw.1 hf
        have ih2 := FinalizeLoop_wellMapped off2 fs gs t hw.2 hfs
        refine ⟨⟨ih1.1, ih2.1⟩, ?_⟩
        intro start m
        simp only [indexMapFrom, ih1.2.1, ih1.2.2, ih2.2]
theorem Finalize_wellMapped : ∀ (L L2 : UBufferElementLayout),
    WellMapped L → Finalize L = some L2 → WellMapped L2
  | .mk fs m s b, L2, hw, h => by
    simp only [WellMapped] at hw
    cases b with
    | true => simp [Finalize] at h
    | false =>
      simp only [Finalize, Bool.false_eq_true, if_false] at h
      cases hl : FinalizeLoop 0 fs with
      | none => simp [hl] at h
      | some p =>
        obtain ⟨fs2, total⟩ := p
        simp only [hl, Option.some.injEq] at h
        subst h
        have ih := FinalizeLoop_wellMapped 0 fs fs2 total hw.2 hl
        simp [WellMapped, ih.1, ih.2, hw.1]
end

/-! ## `Clone()` of a finalized schema -/

theorem CloneField_leaf (t : EType) (n : String) (s o : Nat)
    (l : Option UBufferElementLayout) (ht : t ≠ .Struct) :
    ∃ g, CloneField (.mk t n s o l) = some g ∧ SameField (.mk t n s o l) g := by
  refine ⟨.mk t n s o none, ?_, ?_⟩
  · cases t <;> simp_all [CloneField]
  · cases t <;> simp_all [SameField, FField.metadata]

mutual
theorem CloneField_same : ∀ (f : FField), FieldLaid f → WellMappedField f →
    ∃ g, CloneField f = some g ∧ SameField f g
  | .mk .Struct n s o none, hl, _ => by simp [FieldLaid] at hl
  | .mk .Struct n s o (some l), hl, hw => by
    simp only [FieldLaid] at hl
    simp only [WellMappedField] at hw
    obtain ⟨gs, hc, hs⟩ := Clone_same l hl.2 hw
    refine ⟨.mk .Struct n s o (some (.mk gs l.FieldIndexMap 0 true)), ?_, ?_⟩
    · simp [CloneField, hc]
    · obtain ⟨fs, m, st, b⟩ := l
      have hb : b = true := by simpa [Laid] using hl.2.1
      simp only [SameField, FField.metadata, FField.Type_mk, FField.Name_mk, FField.Stride_mk,
        FField.Offset_mk, FField.Layout_mk, true_and]
      exact ⟨_, rfl, by simpa [SameLayout, hb] using hs⟩
  | .mk .Bool n s o l, _, _ => CloneField_leaf .Bool n s o l (by decide)
  | .mk .Int n s o l, _, _ => CloneField_leaf .Int n s o l (by decide)
  | .mk .Float n s o l, _, _ => CloneField_leaf .Float n s o l (by decide)
  | .mk .Float3 n s o l, _, _ => CloneField_leaf .Float3 n s o l (by decide)
  | .mk .Float4 n s o l, _, _ => CloneField_leaf .Float4 n s o l (by decide)
  | .mk .Matrix n s o l, _, _ => CloneField_leaf .Matrix n s o l (by decide)
  | .mk .Padding n s o l, _, _ => CloneField_leaf .Padding n s o l (by decide)
theorem CloneLoop_same : ∀ (fs : List FField) (off total : Nat),
    FieldsLaid off total fs → WellMappedFields fs →
    ∀ (acc : List FField) (m : List (String × Nat)), ∃ gs,
      CloneLoop acc m fs = some (acc ++ gs, indexMapFrom acc.length m fs) ∧ SameFields fs gs
  | [], _, _, _, _ => fun acc m => ⟨[], by simp [CloneLoop, indexMapFrom], by simp [SameFields]⟩
  | f :: fs, off, total, hl, hw => fun acc m => by
    simp only [FieldsLaid] at hl
    simp only [WellMappedFields] at hw
    obtain ⟨g, hg, hsame⟩ := CloneField_same f hl.2.1 hw.1
    obtain ⟨gs, hgs, hsames⟩ := CloneLoop_same fs _ total hl.2.2 hw.2 (acc ++ [g])
      (if f.Type_ ≠ .Padding then TMap.set m f.Name ((acc ++ [g]).length - 1) else m)
    refine ⟨g :: gs, ?_, ?_⟩
    · simp only [CloneLoop, hg, hgs, indexMapFrom]
      simp
    · simp only [SameFields]
      exact ⟨g, gs, rfl, hsame, hsames⟩
theorem Clone_same : ∀ (L : UBufferElementLayout), Laid L → WellMapped L →
    ∃ gs, Clone L = some (.mk gs L.FieldIndexMap 0 true) ∧ SameFields L.Fields gs
  | .mk fs m s b, hl, hw => by
    simp only [Laid] at hl
    simp only [WellMapped] at hw
    obtain ⟨gs, hgs, hsame⟩ := CloneLoop_same fs 0 s hl.2 hw.2 [] []
    refine ⟨gs, ?_, by simpa using hsame⟩
    simp [Clone, hl.1, hgs, hw.1]
end

theorem SameField_metadata (f g : FField) (h : SameField f g) : g.metadata = f.metadata := by
  obtain ⟨t, n, s, o, l⟩ := f
  cases t <;> cases l <;> simp_all [SameField, FField.metadata]

theorem SameFields_metadata : ∀ (fs gs : List FField), SameFields fs gs →
    gs.map FField.metadata = fs.map FField.metadata
  | [], gs, h => by
    simp only [SameFields] at h
    simp [h]
  | f :: fs, gs, h => by
    simp only [SameFields] at h
    obtain ⟨g, gs2, rfl, hf, hfs⟩ := h
    simp [SameField_metadata f g hf, SameFields_metadata fs gs2 hfs]

theorem GetField_metadata_congr (L L3 : UBufferElementLayout)
    (hm : L3.FieldIndexMap = L.FieldIndexMap) (hb : L3.bIsFinalized = L.bIsFinalized)
    (hf : L3.Fields.map FField.metadata = L.Fields.map FField.metadata) (name : String) :
    (L3.GetField name).map FField.metadata = (L.GetField name).map FField.metadata := by
  have hget : ∀ i, (L3.Fields.get? i).map FField.metadata =
      (L.Fields.get? i).map FField.metadata := by
    intro i
    have := congrArg (fun l => l.get? i) hf
    simpa [List.get?_eq_getElem?, List.getElem?_map] using this
  unfold GetField GetFieldAt
  rw [hm, hb]
  cases L.bIsFinalized with
  | false => simp
  | true =>
    cases TMap.find L.FieldIndexMap name with
    | none => simp
    | some i => simpa using hget i

/-- Claim C12. Clone fidelity. For every schema built through the interface and finalized by
`Finalize()`, `Clone()` returns a finalized schema that has, at every nesting depth and in the
same order, fields with the names, types, sizes and offsets of the original and the same name
map (`SameLayout`); so the metadata of its fields are those of the original, index by index,
and `GetField(name)` returns, for every name, a field with the metadata that the original
returns, and fails where the original fails. -/
theorem Clone_keeps_names_types_sizes_offsets (L L2 : UBufferElementLayout)
    (hbuilt : Built L) (hfin : Finalize L = some L2) :
    ∃ L3, Clone L2 = some L3 ∧ L3.bIsFinalized = true ∧ SameLayout L2 L3 ∧
      L3.Fields.map FField.metadata = L2.Fields.map FField.metadata ∧
      L3.FieldIndexMap = L2.FieldIndexMap ∧
      ∀ name, (L3.GetField name).map FField.metadata =
        (L2.GetField name).map FField.metadata := by
  obtain ⟨hopen, _⟩ := Built_open_tagSized L hbuilt
  obtain ⟨L2b, hfin2, hlaid⟩ := Finalize_laid L hopen
  rw [hfin, Option.some.injEq] at hfin2
  subst hfin2
  have hwm := Finalize_wellMapped L L2 (Built_wellMapped L hbuilt) hfin
  obtain ⟨gs, hclone, hsame⟩ := Clone_same L2 hlaid hwm
  have hb := Finalize_finalized L L2 hfin
  have hmeta := SameFields_metadata _ _ hsame
  refine ⟨_, hclone, rfl, ?_, by simpa using hmeta, rfl, ?_⟩
  · obtain ⟨fs, m, s, b⟩ := L2
    simp only [bIsFinalized_mk] at hb
    subst hb
    simpa [SameLayout] using hsame
  · intro name
    exact GetField_metadata_congr L2 (.mk gs L2.FieldIndexMap 0 true) rfl hb.symm hmeta name

/-- Witness of C12 on the finalized schema of `test_nested_struct`. -/
theorem Clone_keeps_names_types_sizes_offsets_witness :
    ∃ L3, Clone sceneLayoutFinalized = some L3 ∧ L3.bIsFinalized = true ∧
      SameLayout sceneLayoutFinalized L3 :=
  (Clone_keeps_names_types_sizes_offsets sceneLayout sceneLayoutFinalized
    (Built.appendStruct "Light" lightLayout
      ((UBufferElementLayout.Append .Matrix "ViewProjection" empty).getD empty) sceneLayout
      (Built.append .Matrix "ViewProjection" empty _ Built.empty rfl)
      (Built_AppendAll [(.Float3, "Position"), (.Float4, "Color"), (.Float, "Intensity")]
        empty lightLayout Built.empty rfl) rfl) rfl).imp
    fun _ h => ⟨h.1, h.2.1, h.2.2.1⟩

/-! ## The stride of a clone -/

/-- The copy that `Clone()` returns keeps the `Stride(0)` of its default construction. -/
theorem Clone_Stride_zero (L L3 : UBufferElementLayout) (h : Clone L = some L3) :
    L3.bIsFinalized = true ∧ L3.Stride = 0 := by
  obtain ⟨fs, m, s, b⟩ := L
  cases b with
  | false => simp [Clone] at h
  | true =>
    simp only [Clone, if_true] at h
    cases hl : CloneLoop [] [] fs with
    | none => simp [hl] at h
    | some p =>
      simp only [hl, Option.some.injEq] at h
      subst h
      exact ⟨rfl, rfl⟩

/-- Claim C13, the code at the failing input: the finalized schema of `test_simple_layout` has
`GetStride()` 20; its `Clone()` is finalized and its fields have the sizes 12, 4, 4, yet its
`GetStride()` is 0. For the finalized schema of `test_nested_struct` (stride 96, nested stride
32) the clone and the nested clone both have stride 0. -/
theorem Clone_of_finalized_schema_has_stride_zero :
    simpleLayoutFinalized.GetStride = some 20 ∧
    (Clone simpleLayoutFinalized).map (fun L => L.bIsFinalized) = some true ∧
    (Clone simpleLayoutFinalized).map (fun L => L.Fields.map FField.Stride) =
      some [12, 4, 4] ∧
    (Clone simpleLayoutFinalized).bind GetStride = some 0 ∧
    sceneLayoutFinalized.GetStride = some 96 ∧
    (Clone sceneLayoutFinalized).bind GetStride = some 0 ∧
    (Clone sceneLayoutFinalized).map
      (fun L => L.Fields.map fun f => (f.Stride, f.Layout.bind GetStride)) =
      some [(64, none), (32, some 0)] := by
  refine ⟨by decide, by decide, by decide, by decide, by decide, by decide, by decide⟩

/-! ## `AppendStruct` of a schema that is already finalized -/

theorem FinalizeLoop_append : ∀ (fs gs : List FField) (off : Nat),
    FinalizeLoop off (fs ++ gs) =
      match FinalizeLoop off fs with
      | none => none
      | some (fs2, off2) =>
        match FinalizeLoop off2 gs with
        | none => none
        | some (gs2, off3) => some (fs2 ++ gs2, off3)
  | [], gs, off => by
    simp only [List.nil_append, FinalizeLoop]
    cases FinalizeLoop off gs with
    | none => rfl
    | some p => simp
  | f :: fs, gs, off => by
    have ih := FinalizeLoop_append fs gs
    cases hf : FinalizeField off f with
    | none => simp [FinalizeLoop, hf]
    | some p =>
      obtain ⟨f2, off2⟩ := p
      cases hfs : FinalizeLoop off2 fs with
      | none => simp [FinalizeLoop, hf, ih, hfs]
      | some q =>
        obtain ⟨fs2, off3⟩ := q
        cases hgs : FinalizeLoop off3 gs <;> simp [FinalizeLoop, hf, ih, hfs, hgs]

theorem Finalize_of_finalized (N : UBufferElementLayout) (h : N.bIsFinalized = true) :
    Finalize N = none := by
  obtain ⟨fs, m, s, b⟩ := N
  simp only [bIsFinalized_mk] at h
  simp [Finalize, h]

/-- The parent's `Finalize()` fails when its last field is a `Struct` whose nested schema is
already finalized. -/
theorem Finalize_fails_on_finalized_nested (L N : UBufferElementLayout) (n : String)
    (hN : N.bIsFinalized = true) (P : UBufferElementLayout)
    (hP : AppendStruct n N L = some P) : Finalize P = none := by
  unfold AppendStruct at hP
  split at hP
  · simp at hP
  · rename_i hb
    simp only [Option.some.injEq] at hP
    subst hP
    obtain ⟨fs, m, s, b⟩ := L
    simp only [bIsFinalized_mk, Bool.not_eq_true] at hb
    subst hb
    simp only [pushNamed, Fields_mk, bIsFinalized_mk, Finalize, Bool.false_eq_true, if_false,
      FinalizeLoop_append]
    cases FinalizeLoop 0 fs with
    | none => rfl
    | some p =>
      obtain ⟨fs2, off2⟩ := p
      simp [FinalizeLoop, FinalizeField, Finalize_of_finalized N hN]

/-- Claim C14, counterexample: the finalized schema of `test_simple_layout` is appended as the
struct `Inner` to the empty open schema. `AppendStruct` returns, and the parent's `Finalize()`
then fails on the `assert` of the nested `Finalize()`. -/
theorem AppendStruct_finalized_nested_counterexample :
    simpleLayoutFinalized.bIsFinalized = true ∧
    (AppendStruct "Inner" simpleLayoutFinalized empty).isSome = true ∧
    ¬ ∃ P P2, AppendStruct "Inner" simpleLayoutFinalized empty = some P ∧
      Finalize P = some P2 := by
  refine ⟨by decide, by decide, ?_⟩
  rintro ⟨P, P2, hP, hfin⟩
  rw [Finalize_fails_on_finalized_nested empty simpleLayoutFinalized "Inner" (by decide) P hP]
    at hfin
  exact Option.noConfusion hfin

/-- Claim C14 as amended. On an open parent `AppendStruct(name, N)` returns for every nested
schema `N`, open or finalized, and adds the `Struct` field that owns `N`. When the parent and
`N` are open at every depth, the parent's `Finalize()` returns, the field owns the finalized
form of `N` and has its stride as size. When `N` is already finalized, the parent's
`Finalize()` is a contract violation. -/
theorem AppendStruct_then_Finalize (L N : UBufferElementLayout) (n : String)
    (hL : AllOpen L = true) :
    ∃ P, AppendStruct n N L = some P ∧
      P.Fields = L.Fields ++ [.mk .Struct n 0 0 (some N)] ∧
      (AllOpen N = true → ∃ P2 N2 f2, Finalize P = some P2 ∧ Finalize N = some N2 ∧
        P2.Fields.get? L.Fields.length = some f2 ∧ f2.Type_ = .Struct ∧ f2.Name = n ∧
        f2.Layout = some N2 ∧ N2.GetStride = some f2.Stride) ∧
      (N.bIsFinalized = true → Finalize P = none) := by
  have hb := ((AllOpen_iff L).1 hL).1
  have hP : AppendStruct n N L = some (L.pushNamed (.mk .Struct n 0 0 (some N)) n) := by
    simp [AppendStruct, hb]
  refine ⟨_, hP, by simp [pushNamed], ?_, ?_⟩
  · intro hN
    have hopen : AllOpen (L.pushNamed (.mk .Struct n 0 0 (some N)) n) = true :=
      AllOpen_pushNamed L _ n hL (by simpa [AllOpenField] using hN)
    obtain ⟨fs2, total, hfin, _, hall⟩ := Finalize_open _ hopen
    have hget : (L.pushNamed (.mk .Struct n 0 0 (some N)) n).Fields.get? L.Fields.length =
        some (.mk .Struct n 0 0 (some N)) := by
      simp [pushNamed, List.get?_eq_getElem?]
    obtain ⟨f2, hget2, hfrom⟩ := Forall₂_get? FinalizedFrom _ _ _ _ hall hget
    obtain ⟨l, l2, hl, hfinl, hl2, hs⟩ := hfrom.2.2.2 rfl
    simp only [FField.Layout_mk, Option.some.injEq] at hl
    subst hl
    have hb2 := Finalize_finalized _ l2 hfinl
    exact ⟨_, l2, f2, hfin, hfinl, by simpa using hget2, by simpa using hfrom.2.1,
      by simpa using hfrom.1, hl2, by simp [GetStride, hb2, hs]⟩
  · intro hN
    exact Finalize_fails_on_finalized_nested L N n hN _ hP

/-- Witness of the amended C14: the open schema `Light` of `test_nested_struct` appended to
the open schema that holds `ViewProjection`. -/
theorem AppendStruct_then_Finalize_witness :
    ∃ P, AppendStruct "Light" lightLayout
        ((UBufferElementLayout.Append .Matrix "ViewProjection" empty).getD empty) = some P ∧
      P.Fields = ((UBufferElementLayout.Append .Matrix "ViewProjection" empty).getD
        empty).Fields ++ [.mk .Struct "Light" 0 0 (some lightLayout)] :=
  (AppendStruct_then_Finalize
    ((UBufferElementLayout.Append .Matrix "ViewProjection" empty).getD empty) lightLayout
    "Light" (by decide)).imp fun _ h => ⟨h.1, h.2.1⟩

/-! ## A lookup after a leaf field -/

/-- Claim C15, counterexample: in the buffer of `test_multiple_elements_in_struct` (`X` at
offset 0, `Y` at offset 4) the accessor `buffer[0]["Y"]["X"]` resolves `X` and is at byte 4,
while `buffer[0]["X"]` is at byte 0. -/
theorem sibling_lookup_counterexample :
    ¬ ∀ e eB, (xyBuffer.elementAt 0).bind (fun e0 => e0.indexPath ["Y", "X"]) = some e →
      (xyBuffer.elementAt 0).bind (fun e0 => e0.indexPath ["X"]) = some eB →
      e.BufferData = eB.BufferData := by
  intro h
  have := h ⟨4, some xyBuffer.Layout, some (.mk .Float "X" 4 0 none)⟩
    ⟨0, some xyBuffer.Layout, some (.mk .Float "X" 4 0 none)⟩ rfl rfl
  exact absurd this (by decide)

theorem index_leaf (pos : Nat) (fld : Option FField) (L : UBufferElementLayout) (n : String)
    (f : FField) (hf : L.GetField n = some f) (hleaf : f.Type_ ≠ .Struct) :
    UBufferElement.index ⟨pos, some L, fld⟩ n = some ⟨pos + f.Offset, some L, some f⟩ := by
  simp [UBufferElement.index, hf, hleaf]

/-- Claim C15 as amended. For every buffer (its byte count being a `size_t`), every
`i < GetCount()` and every two fields `A` and `B` of the top-level schema that are not
`Struct` fields, the chained accessor `buffer[i][A][B]` returns, resolves `B` in the same
schema, and is at byte `i * stride + Offset(A) + Offset(B)`: the offset of `A` stays added.
It is at the position of `buffer[i][B]` exactly when `Offset(A)` is 0. -/
theorem sibling_lookup_adds_both_offsets (B : UDynamicBuffer) (i c : Nat) (nA nB : String)
    (fA fB : FField) (hlen : B.Buffer.length < SIZE_MOD) (hc : B.GetCount = some c)
    (hi : i < c) (hA : B.Layout.GetField nA = some fA) (hAleaf : fA.Type_ ≠ .Struct)
    (hB : B.Layout.GetField nB = some fB) (hBleaf : fB.Type_ ≠ .Struct) :
    ∃ e0 eB e, B.elementAt i = some e0 ∧ e0.indexPath [nB] = some eB ∧
      e0.indexPath [nA, nB] = some e ∧ e.Field = some fB ∧ e.Layout = some B.Layout ∧
      e.BufferData = i * B.Layout.Stride + fA.Offset + fB.Offset ∧
      eB.BufferData = i * B.Layout.Stride + fB.Offset ∧
      (e.BufferData = eB.BufferData ↔ fA.Offset = 0) := by
  obtain ⟨h0, _⟩ := elementAt_eq B c i hlen hc hi
  refine ⟨_, ⟨i * B.Layout.Stride + fB.Offset, some B.Layout, some fB⟩,
    ⟨i * B.Layout.Stride + fA.Offset + fB.Offset, some B.Layout, some fB⟩, h0, ?_, ?_, rfl, rfl,
    rfl, rfl, ?_⟩
  · simp [UBufferElement.indexPath, index_leaf _ _ B.Layout nB fB hB hBleaf]
  · simp [UBufferElement.indexPath, index_leaf _ _ B.Layout nA fA hA hAleaf,
      index_leaf _ _ B.Layout nB fB hB hBleaf]
  · show i * B.Layout.Stride + fA.Offset + fB.Offset = i * B.Layout.Stride + fB.Offset ↔ _
    omega

/-- Witness of the amended C15: `buffer[0]["Y"]["X"]` in the buffer of
`test_multiple_elements_in_struct` is at byte 0 * 8 + 4 + 0. -/
theorem sibling_lookup_adds_both_offsets_witness :
    ∃ e0 e, xyBuffer.elementAt 0 = some e0 ∧ e0.indexPath ["Y", "X"] = some e ∧
      e.BufferData = 0 * xyBuffer.Layout.Stride + 4 + 0 := by
  obtain ⟨e0, _, e, h0, _, he, _, _, hpos, _⟩ :=
    sibling_lookup_adds_both_offsets xyBuffer 0 3 "Y" "X" (.mk .Float "Y" 4 4 none)
      (.mk .Float "X" 4 0 none) (by decide) (by decide) (by decide) rfl (by decide) rfl
      (by decide)
  exact ⟨e0, e, h0, he, hpos⟩

/-! ## The contract of assignment and read -/

/-- Claim C16. Assignment and read contract of an accessor over a byte region. Assigning a
value that is not a `bool`, of `s` bytes, does the `memcpy` of its bytes at the accessor when
the accessor has a resolved field that is not a `Struct` and whose size is `s`, whatever the
tag of the field otherwise, and is a contract violation in every other case (`none`: the
`memcpy` is not reached, no byte is stored); reading as a type of `s` bytes is the load of `s`
bytes under the same condition and a violation otherwise. Assigning or reading a `bool` needs
a resolved field tagged `Bool` of size 4 and is a violation otherwise. So, with the bytes of
the access inside the region, each of the four succeeds if and only if its condition holds. -/
theorem assign_and_read_succeed_iff_contract (e : UBufferElement) (buf : List Byte) :
    (∀ bytes : List Byte,
      ((∃ f, e.Field = some f ∧ f.Type_ ≠ .Struct ∧ f.Stride = bytes.length) →
        e.assign (.raw bytes) buf = memcpyTo buf e.BufferData bytes) ∧
      ((¬ ∃ f, e.Field = some f ∧ f.Type_ ≠ .Struct ∧ f.Stride = bytes.length) →
        e.assign (.raw bytes) buf = none) ∧
      (e.BufferData + bytes.length ≤ buf.length →
        ((e.assign (.raw bytes) buf).isSome = true ↔
          ∃ f, e.Field = some f ∧ f.Type_ ≠ .Struct ∧ f.Stride = bytes.length))) ∧
    (∀ size : Nat,
      ((∃ f, e.Field = some f ∧ f.Type_ ≠ .Struct ∧ f.Stride = size) →
        e.read (.sized size) buf = (loadFrom buf e.BufferData size).map TValue.raw) ∧
      ((¬ ∃ f, e.Field = some f ∧ f.Type_ ≠ .Struct ∧ f.Stride = size) →
        e.read (.sized size) buf = none) ∧
      (e.BufferData + size ≤ buf.length →
        ((e.read (.sized size) buf).isSome = true ↔
          ∃ f, e.Field = some f ∧ f.Type_ ≠ .Struct ∧ f.Stride = size))) ∧
    (∀ b : Bool,
      ((∃ f, e.Field = some f ∧ f.Type_ = .Bool ∧ f.Stride = 4) →
        e.assign (.bool b) buf =
          memcpyTo buf e.BufferData (bytesOfUInt32 (if b then 1 else 0))) ∧
      ((¬ ∃ f, e.Field = some f ∧ f.Type_ = .Bool ∧ f.Stride = 4) →
        e.assign (.bool b) buf = none) ∧
      (e.BufferData + 4 ≤ buf.length →
        ((e.assign (.bool b) buf).isSome = true ↔
          ∃ f, e.Field = some f ∧ f.Type_ = .Bool ∧ f.Stride = 4))) ∧
    (((∃ f, e.Field = some f ∧ f.Type_ = .Bool ∧ f.Stride = 4) →
        e.read .bool buf =
          (loadFrom buf e.BufferData 4).map fun bs => TValue.bool (uint32OfBytes bs != 0)) ∧
      ((¬ ∃ f, e.Field = some f ∧ f.Type_ = .Bool ∧ f.Stride = 4) →
        e.read .bool buf = none) ∧
      (e.BufferData + 4 ≤ buf.length →
        ((e.read .bool buf).isSome = true ↔
          ∃ f, e.Field = some f ∧ f.Type_ = .Bool ∧ f.Stride = 4))) := by
  have hload : ∀ size (g : List Byte → TValue),
      (match loadFrom buf e.BufferData size with
        | none => none
        | some bs => some (g bs)) = (loadFrom buf e.BufferData size).map g := by
    intro size g
    cases loadFrom buf e.BufferData size <;> rfl
  have a1 : ∀ bytes : List Byte,
      (∃ f, e.Field = some f ∧ f.Type_ ≠ .Struct ∧ f.Stride = bytes.length) →
      e.assign (.raw bytes) buf = memcpyTo buf e.BufferData bytes := by
    rintro bytes ⟨f, hf, hs, hsz⟩
    simp [UBufferElement.assign, hf, hs, hsz]
  have a2 : ∀ bytes : List Byte,
      (¬ ∃ f, e.Field = some f ∧ f.Type_ ≠ .Struct ∧ f.Stride = bytes.length) →
      e.assign (.raw bytes) buf = none := by
    intro bytes hn
    unfold UBufferElement.assign
    cases hf : e.Field with
    | none => rfl
    | some f =>
      simp only
      by_cases hs : f.Type_ = .Struct
      · simp [hs]
      · by_cases hsz : f.Stride = bytes.length
        · exact absurd ⟨f, hf, hs, hsz⟩ hn
        · simp [hs, hsz]
  have r1 : ∀ size : Nat, (∃ f, e.Field = some f ∧ f.Type_ ≠ .Struct ∧ f.Stride = size) →
      e.read (.sized size) buf = (loadFrom buf e.BufferData size).map TValue.raw := by
    rintro size ⟨f, hf, hs, hsz⟩
    simp [UBufferElement.read, hf, hs, hsz, hload]
  have r2 : ∀ size : Nat, (¬ ∃ f, e.Field = some f ∧ f.Type_ ≠ .Struct ∧ f.Stride = size) →
      e.read (.sized size) buf = none := by
    intro size hn
    unfold UBufferElement.read
    cases hf : e.Field with
    | none => rfl
    | some f =>
      simp only
      by_cases hs : f.Type_ = .Struct
      · simp [hs]
      · by_cases hsz : f.Stride = size
        · exact absurd ⟨f, hf, hs, hsz⟩ hn
        · simp [hs, hsz]
  have b1 : ∀ b : Bool, (∃ f, e.Field = some f ∧ f.Type_ = .Bool ∧ f.Stride = 4) →
      e.assign (.bool b) buf =
        memcpyTo buf e.BufferData (bytesOfUInt32 (if b then 1 else 0)) := by
    rintro b ⟨f, hf, hs, hsz⟩
    simp [UBufferElement.assign, hf, hs, hsz]
  have b2 : ∀ b : Bool, (¬ ∃ f, e.Field = some f ∧ f.Type_ = .Bool ∧ f.Stride = 4) →
      e.assign (.bool b) buf = none := by
    intro b hn
    unfold UBufferElement.assign
    cases hf : e.Field with
    | none => rfl
    | some f =>
      simp only
      by_cases hs : f.Type_ = .Struct
      · simp [hs]
      · by_cases hc : f.Type_ = .Bool ∧ f.Stride = 4
        · exact absurd ⟨f, hf, hc.1, hc.2⟩ hn
        · simp [hs, hc]
  have c1 : (∃ f, e.Field = some f ∧ f.Type_ = .Bool ∧ f.Stride = 4) →
      e.read .bool buf =
        (loadFrom buf e.BufferData 4).map fun bs => TValue.bool (uint32OfBytes bs != 0) := by
    rintro ⟨f, hf, hs, hsz⟩
    simp [UBufferElement.read, hf, hs, hsz, hload]
  have c2 : (¬ ∃ f, e.Field = some f ∧ f.Type_ = .Bool ∧ f.Stride = 4) →
      e.read .bool buf = none := by
    intro hn
    unfold UBufferElement.read
    cases hf : e.Field with
    | none => rfl
    | some f =>
      simp only
      by_cases hs : f.Type_ = .Struct
      · simp [hs]
      · by_cases hc : f.Type_ = .Bool ∧ f.Stride = 4
        · exact absurd ⟨f, hf, hc.1, hc.2⟩ hn
        · simp [hs, hc]
  refine ⟨fun bytes => ⟨a1 bytes, a2 bytes, fun hin => ?_⟩,
    fun size => ⟨r1 size, r2 size, fun hin => ?_⟩,
    fun b => ⟨b1 b, b2 b, fun hin => ?_⟩, c1, c2, fun hin => ?_⟩
  · constructor
    · intro hs
      by_contra hn
      rw [a2 bytes hn] at hs
      simp at hs
    · intro hc
      rw [a1 bytes hc, memcpyTo_some buf _ bytes hin]
      rfl
  · constructor
    · intro hs
      by_contra hn
      rw [r2 size hn] at hs
      simp at hs
    · intro hc
      rw [r1 size hc]
      simp [loadFrom, hin]
  · constructor
    · intro hs
      by_contra hn
      rw [b2 b hn] at hs
      simp at hs
    · intro hc
      rw [b1 b hc, memcpyTo_some buf _ _ (by rw [bytesOfUInt32_length]; exact hin)]
      rfl
  · constructor
    · intro hs
      by_contra hn
      rw [c2 hn] at hs
      simp at hs
    · intro hc
      rw [c1 hc]
      simp [loadFrom, hin]

/-- Witness of C16: an accessor on an `Int` field of 4 bytes at byte 4 of an 8-byte region
takes a value of 4 bytes, and refuses a value of 12 bytes. -/
theorem assign_and_read_succeed_iff_contract_witness :
    UBufferElement.assign ⟨4, none, some (.mk .Int "Index" 4 4 none)⟩ (.raw [7, 0, 0, 0])
        [0, 0, 0, 0, 0, 0, 0, 0] =
      memcpyTo [0, 0, 0, 0, 0, 0, 0, 0] 4 [7, 0, 0, 0] ∧
    UBufferElement.assign ⟨4, none, some (.mk .Int "Index" 4 4 none)⟩
        (.raw [0, 0, 0, 0, 0, 0, 0, 0, 0, 0, 0, 0]) [0, 0, 0, 0, 0, 0, 0, 0] = none :=
  ⟨((assign_and_read_succeed_iff_contract ⟨4, none, some (.mk .Int "Index" 4 4 none)⟩
      [0, 0, 0, 0, 0, 0, 0, 0]).1 [7, 0, 0, 0]).1 ⟨_, rfl, by decide, rfl⟩,
    ((assign_and_read_succeed_iff_contract ⟨4, none, some (.mk .Int "Index" 4 4 none)⟩
      [0, 0, 0, 0, 0, 0, 0, 0]).1 [0, 0, 0, 0, 0, 0, 0, 0, 0, 0, 0, 0]).2.1
      (by rintro ⟨f, hf, _, hs⟩
          simp only [Option.some.injEq] at hf
          subst hf
          simp at hs)⟩

/-! ## Element indexing -/

/-- Claim C17. Element indexing. For every buffer (its schema finalized, as the constructors
leave it, its byte count a `size_t`) and every index `i`: `buffer[i]` returns if and only if
`i < GetCount()`; it then returns the accessor at byte `i * stride`, bound to the top-level
schema, with no resolved field; every `i >= GetCount()` is a contract violation, and so is
every index when the stride is 0, `GetCount()` being 0 then. -/
theorem elementAt_succeeds_iff_below_count (B : UDynamicBuffer) (i : Nat)
    (hfin : B.Layout.bIsFinalized = true) (hlen : B.Buffer.length < SIZE_MOD) :
    ∃ c, B.GetCount = some c ∧
      ((B.elementAt i).isSome = true ↔ i < c) ∧
      (i < c → B.elementAt i = some ⟨i * B.Layout.Stride, some B.Layout, none⟩) ∧
      (c ≤ i → B.elementAt i = none) ∧
      (B.Layout.Stride = 0 → c = 0 ∧ B.elementAt i = none) := by
  have hs : B.Layout.GetStride = some B.Layout.Stride := by simp [GetStride, hfin]
  obtain ⟨c, hc⟩ : ∃ c, B.GetCount = some c := by
    unfold UDynamicBuffer.GetCount
    rw [hs]
    simp only
    split
    · exact ⟨_, rfl⟩
    · exact ⟨_, rfl⟩
  have hlt : i < c → B.elementAt i = some ⟨i * B.Layout.Stride, some B.Layout, none⟩ :=
    fun hi => (elementAt_eq B c i hlen hc hi).1
  have hge : c ≤ i → B.elementAt i = none := by
    intro hi
    simp [UDynamicBuffer.elementAt, hc, Nat.not_lt.2 hi]
  refine ⟨c, hc, ?_, hlt, hge, ?_⟩
  · constructor
    · intro h
      by_contra hn
      rw [hge (Nat.not_lt.1 hn)] at h
      simp at h
    · intro hi
      rw [hlt hi]
      rfl
  · intro h0
    have hc0 : c = 0 := by
      simp only [UDynamicBuffer.GetCount, hs, h0, gt_iff_lt, Nat.lt_irrefl, if_false,
        Option.some.injEq] at hc
      exact hc.symm
    exact ⟨hc0, hge (by omega)⟩

/-- Witness of C17 on the buffer of `test_array_of_elements`: `buffer[4]` is at byte 32. -/
theorem elementAt_succeeds_iff_below_count_witness :
    ∃ c, arrayBuffer.GetCount = some c ∧
      (4 < c → arrayBuffer.elementAt 4 =
        some ⟨4 * arrayBuffer.Layout.Stride, some arrayBuffer.Layout, none⟩) :=
  (elementAt_succeeds_iff_below_count arrayBuffer 4 (by decide) (by decide)).imp
    fun _ h => ⟨h.1, h.2.2.1⟩

/-! ## Mutation only while the schema is open -/

/-- Claim C18. `Append<Type>` (for every tag that has a size, and for `Struct`),
`AppendStruct` and `AppendPadding` return if and only if the schema is not finalized. On a
finalized schema each is a contract violation (`none`): the call yields no schema, so the
fields, offsets, name map and stride are those the schema had. -/
theorem appends_succeed_iff_open (L : UBufferElementLayout) :
    (∀ (t : EType) (name : String), t ≠ .Padding →
      ((UBufferElementLayout.Append t name L).isSome = true ↔ L.bIsFinalized = false)) ∧
    (∀ (name : String) (N : UBufferElementLayout),
      ((AppendStruct name N L).isSome = true ↔ L.bIsFinalized = false)) ∧
    (∀ Bytes : Nat, ((AppendPadding Bytes L).isSome = true ↔ L.bIsFinalized = false)) ∧
    (L.bIsFinalized = true →
      (∀ (t : EType) (name : String), UBufferElementLayout.Append t name L = none) ∧
      (∀ (name : String) (N : UBufferElementLayout), AppendStruct name N L = none) ∧
      (∀ Bytes : Nat, AppendPadding Bytes L = none)) := by
  refine ⟨?_, ?_, ?_, ?_⟩
  · intro t name ht
    cases hb : L.bIsFinalized <;> cases t <;>
      simp_all [UBufferElementLayout.Append, TypeInfo.Size]
  · intro name N
    cases hb : L.bIsFinalized <;> simp [AppendStruct, hb]
  · intro k
    cases hb : L.bIsFinalized
    · by_cases hk : k = 0 <;> simp [AppendPadding, hb, hk]
    · simp [AppendPadding, hb]
  · intro hb
    exact ⟨fun t name => by simp [UBufferElementLayout.Append, hb],
      fun name N => by simp [AppendStruct, hb], fun k => by simp [AppendPadding, hb]⟩

/-- Witness of C18: `Append<Int>` on the finalized schema of `test_simple_layout` is a
contract violation, on the open one it returns. -/
theorem appends_succeed_iff_open_witness :
    UBufferElementLayout.Append .Int "More" simpleLayoutFinalized = none ∧
    (UBufferElementLayout.Append .Int "More" simpleLayout).isSome = true :=
  ⟨((appends_succeed_iff_open simpleLayoutFinalized).2.2.2 (by decide)).1 .Int "More",
    ((appends_succeed_iff_open simpleLayout).1 .Int "More" (by decide)).2 (by decide)⟩

/-! ## The state machine of a schema -/

theorem call_finalized (op : LayoutOp) (L L2 : UBufferElementLayout)
    (hb : L.bIsFinalized = true) (h : op.call L = some L2) : L2 = L := by
  cases op with
  | Append t n => simp [LayoutOp.call, UBufferElementLayout.Append, hb] at h
  | AppendStruct n N => simp [LayoutOp.call, AppendStruct, hb] at h
  | AppendPadding k => simp [LayoutOp.call, AppendPadding, hb] at h
  | Subscript n => simp [LayoutOp.call, descend, hb] at h
  | Clone =>
    simp only [LayoutOp.call, Option.map_eq_some'] at h
    obtain ⟨_, _, rfl⟩ := h
    rfl
  | GetStride =>
    simp only [LayoutOp.call, Option.map_eq_some'] at h
    obtain ⟨_, _, rfl⟩ := h
    rfl
  | GetCurrentStride =>
    simp only [LayoutOp.call, Option.some.injEq] at h
    exact h.symm
  | GetFields =>
    simp only [LayoutOp.call, Option.map_eq_some'] at h
    obtain ⟨_, _, rfl⟩ := h
    rfl
  | GetFieldAt i =>
    simp only [LayoutOp.call, Option.map_eq_some'] at h
    obtain ⟨_, _, rfl⟩ := h
    rfl
  | GetField n =>
    simp only [LayoutOp.call, Option.map_eq_some'] at h
    obtain ⟨_, _, rfl⟩ := h
    rfl
  | Finalize => simp [LayoutOp.call, Finalize_of_finalized L hb] at h

/-- Claim C19. One-way state machine. `Finalize()` on a schema that is open at every depth
returns a schema with `bIsFinalized` true, and whenever `Finalize()` returns, the flag is
true. On a finalized schema `Finalize()` is a contract violation, and so are `Append`,
`AppendStruct`, `AppendPadding` and `operator[]`. Every call of a public member function on a
finalized schema either is a violation or leaves the schema exactly as it was, and so does
every sequence of calls: the flag stays true and fields, offsets, name map and stride stay. -/
theorem finalized_schema_never_changes :
    (∀ L : UBufferElementLayout, AllOpen L = true →
      ∃ L2, LayoutOp.Finalize.call L = some L2 ∧ L2.bIsFinalized = true) ∧
    (∀ L L2 : UBufferElementLayout, LayoutOp.Finalize.call L = some L2 →
      L.bIsFinalized = false ∧ L2.bIsFinalized = true) ∧
    (∀ L : UBufferElementLayout, L.bIsFinalized = true →
      LayoutOp.Finalize.call L = none ∧
      (∀ t n, (LayoutOp.Append t n).call L = none) ∧
      (∀ n N, (LayoutOp.AppendStruct n N).call L = none) ∧
      (∀ k, (LayoutOp.AppendPadding k).call L = none) ∧
      (∀ n, (LayoutOp.Subscript n).call L = none)) ∧
    (∀ (op : LayoutOp) (L L2 : UBufferElementLayout), L.bIsFinalized = true →
      op.call L = some L2 → L2 = L) ∧
    (∀ (ops : List LayoutOp) (L L2 : UBufferElementLayout), L.bIsFinalized = true →
      LayoutOp.callAll ops L = some L2 → L2 = L) := by
  refine ⟨?_, ?_, ?_, call_finalized, ?_⟩
  · intro L hopen
    obtain ⟨L2, hfin, _⟩ := Finalize_laid L hopen
    exact ⟨L2, by simpa [LayoutOp.call] using hfin, Finalize_finalized L L2 hfin⟩
  · intro L L2 h
    simp only [LayoutOp.call] at h
    refine ⟨?_, Finalize_finalized L L2 h⟩
    cases hb : L.bIsFinalized with
    | false => rfl
    | true => simp [Finalize_of_finalized L hb] at h
  · intro L hb
    exact ⟨by simpa [LayoutOp.call] using Finalize_of_finalized L hb,
      fun t n => by simp [LayoutOp.call, UBufferElementLayout.Append, hb],
      fun n N => by simp [LayoutOp.call, AppendStruct, hb],
      fun k => by simp [LayoutOp.call, AppendPadding, hb],
      fun n => by simp [LayoutOp.call, descend, hb]⟩
  · intro ops
    induction ops with
    | nil =>
      intro L L2 _ h
      simp only [LayoutOp.callAll, Option.some.injEq] at h
      exact h.symm
    | cons op ops ih =>
      intro L L2 hb h
      simp only [LayoutOp.callAll] at h
      cases hop : op.call L with
      | none => simp [hop] at h
      | some L1 =>
        simp only [hop] at h
        have h1 := call_finalized op L L1 hb hop
        subst h1
        exact ih _ L2 hb h

/-- Witness of C19: `Finalize()` on the open schema of `test_simple_layout` ends finalized,
and the calls `GetStride(); Clone(); GetField("EntityID");` on the finalized schema leave it
as it was. -/
theorem finalized_schema_never_changes_witness :
    (∃ L2, LayoutOp.Finalize.call simpleLayout = some L2 ∧ L2.bIsFinalized = true) ∧
    (∀ L2, LayoutOp.callAll [.GetStride, .Clone, .GetField "EntityID"]
      simpleLayoutFinalized = some L2 → L2 = simpleLayoutFinalized) :=
  ⟨finalized_schema_never_changes.1 simpleLayout (by decide),
    fun L2 => finalized_schema_never_changes.2.2.2.2
      [.GetStride, .Clone, .GetField "EntityID"] simpleLayoutFinalized L2 (by decide)⟩

/-! ## Lookups in the name map -/

theorem lookup_filter_ne (m : List (String × Nat)) (k name : String) (h : name ≠ k) :
    List.lookup name (m.filter fun p => p.1 != k) = List.lookup name m := by
  induction m with
  | nil => rfl
  | cons p m ih =>
    obtain ⟨a, v⟩ := p
    by_cases ha : a = k
    · subst ha
      have hna : (name == a) = false := by simpa using h
      simp [List.filter, List.lookup, hna, ih]
    · have hak : (a != k) = true := by simpa using ha
      simp only [List.filter, hak, List.lookup]
      cases name == a <;> simp [ih]

theorem TMap.find_set (m : List (String × Nat)) (k name : String) (v : Nat) :
    TMap.find (TMap.set m k v) name = if name = k then some v else TMap.find m name := by
  unfold TMap.find TMap.set
  by_cases h : name = k
  · subst h
    simp [List.lookup]
  · have hb : (name == k) = false := by simpa using h
    simp [List.lookup, hb, h, lookup_filter_ne m k name h]

/-- An entry of the map built by the appends is an entry of the starting map or the index of
a field, not a `Padding`, that has the name. -/
theorem find_indexMapFrom : ∀ (fs : List FField) (start : Nat) (m : List (String × Nat))
    (name : String) (i : Nat), TMap.find (indexMapFrom start m fs) name = some i →
    TMap.find m name = some i ∨
      (start ≤ i ∧ ∃ f, fs.get? (i - start) = some f ∧ f.Name = name ∧ f.Type_ ≠ .Padding)
  | [], _, _, _, _, h => Or.inl (by simpa [indexMapFrom] using h)
  | f :: fs, start, m, name, i, h => by
    simp only [indexMapFrom] at h
    rcases find_indexMapFrom fs (start + 1) _ name i h with h1 | ⟨hle, g, hg, hn, hp⟩
    · by_cases hpad : f.Type_ = .Padding
      · left
        simpa [hpad] using h1
      · simp only [ne_eq, hpad, not_false_eq_true, if_true, TMap.find_set] at h1
        by_cases hname : name = f.Name
        · right
          simp only [hname, if_true, Option.some.injEq] at h1
          subst h1
          exact ⟨Nat.le_refl _, f, by simp, hname.symm, hpad⟩
        · left
          simpa [hname] using h1
    · right
      refine ⟨by omega, g, ?_, hn, hp⟩
      have : i - start = (i - (start + 1)) + 1 := by omega
      rw [this, List.get?_cons_succ]
      exact hg

/-- In a schema with the name map of its fields, a name in the map is bound to the index of a
field, not a `Padding`, that has the name. -/
theorem WellMapped_find (L : UBufferElementLayout) (hw : WellMapped L) (name : String)
    (i : Nat) (h : TMap.find L.FieldIndexMap name = some i) :
    ∃ f, L.Fields.get? i = some f ∧ f.Name = name ∧ f.Type_ ≠ .Padding := by
  rw [((WellMapped_iff L).1 hw).1] at h
  rcases find_indexMapFrom L.Fields 0 [] name i h with h1 | ⟨_, f, hf, hn, hp⟩
  · simp [TMap.find] at h1
  · exact ⟨f, by simpa using hf, hn, hp⟩

/-! ## Appending through the handle of a nested schema -/

theorem AllOpenFields_set : ∀ (fs : List FField) (i : Nat) (g : FField),
    AllOpenFields fs = true → AllOpenField g = true → AllOpenFields (fs.set i g) = true
  | [], _, _, _, _ => by simp [AllOpenFields]
  | f :: fs, 0, g, h, hg => by
    simp only [AllOpenFields, Bool.and_eq_true] at h
    simp [List.set, AllOpenFields, hg, h.2]
  | f :: fs, i + 1, g, h, hg => by
    simp only [AllOpenFields, Bool.and_eq_true] at h
    simp [List.set, AllOpenFields, h.1, AllOpenFields_set fs i g h.2 hg]

theorem declaredSizeFields_set : ∀ (fs : List FField) (i : Nat) (f g : FField),
    fs.get? i = some f →
    declaredSizeFields (fs.set i g) + declaredSizeField f =
      declaredSizeFields fs + declaredSizeField g
  | [], _, _, _, h => by simp at h
  | a :: fs, 0, f, g, h => by
    simp only [List.get?_cons_zero, Option.some.injEq] at h
    subst h
    simp only [List.set, declaredSizeFields]
    omega
  | a :: fs, i + 1, f, g, h => by
    simp only [List.get?_cons_succ] at h
    have ih := declaredSizeFields_set fs i f g h
    simp only [List.set, declaredSizeFields]
    omega

theorem declaredSizeFields_append : ∀ (fs gs : List FField),
    declaredSizeFields (fs ++ gs) = declaredSizeFields fs + declaredSizeFields gs
  | [], gs => by simp [declaredSizeFields]
  | f :: fs, gs => by
    have ih := declaredSizeFields_append fs gs
    rw [List.cons_append, declaredSizeFields, declaredSizeFields, ih]
    omega

theorem declaredSize_eq (L : UBufferElementLayout) :
    declaredSize L = declaredSizeFields L.Fields := by
  obtain ⟨fs, m, s, b⟩ := L
  simp [declaredSize]

theorem declaredSizeField_struct (n : String) (s o : Nat) (l : UBufferElementLayout) :
    declaredSizeField (.mk .Struct n s o (some l)) = declaredSize l := by
  simp [declaredSizeField]

theorem descend_eq_some (L l : UBufferElementLayout) (name : String) :
    L.descend name = some l ↔ L.bIsFinalized = false ∧ ∃ i f,
      TMap.find L.FieldIndexMap name = some i ∧ L.Fields.get? i = some f ∧
      f.Type_ = .Struct ∧ f.Layout = some l := by
  unfold descend
  cases hb : L.bIsFinalized with
  | true => simp
  | false =>
    simp only [Bool.false_eq_true, if_false, true_and]
    cases hm : TMap.find L.FieldIndexMap name with
    | none => simp
    | some i =>
      cases hg : L.Fields.get? i with
      | none =>
        constructor
        · intro h
          simp only [hg] at h
          simp at h
        · rintro ⟨j, f, hj, hf, _⟩
          simp only [Option.some.injEq] at hj
          subst hj
          rw [hg] at hf
          simp at hf
      | some f =>
        constructor
        · intro h
          simp only [hg] at h
          by_cases hs : f.Type_ = .Struct
          · simp only [hs, if_true] at h
            exact ⟨i, f, rfl, hg, hs, h⟩
          · simp [hs] at h
        · rintro ⟨j, g, hj, hf, hs, hl⟩
          simp only [Option.some.injEq] at hj
          subst hj
          rw [hg, Option.some.injEq] at hf
          subst hf
          simp only [hg]
          simp [hs, hl]

theorem struct_owns_layout (f : FField) (ho : AllOpenField f = true) (hs : f.Type_ = .Struct) :
    ∃ l, f.Layout = some l ∧ AllOpen l = true := by
  obtain ⟨t, n, s, o, lay⟩ := f
  simp only [FField.Type_mk] at hs
  subst hs
  cases lay with
  | none => simp [AllOpenField] at ho
  | some l => exact ⟨l, rfl, by simpa [AllOpenField] using ho⟩

theorem declaredSize_pushNamed (l : UBufferElementLayout) (f : FField) (n : String) :
    declaredSize (l.pushNamed f n) = declaredSize l + declaredSizeField f := by
  simp [declaredSize_eq, pushNamed, declaredSizeFields_append, declaredSizeFields]

/-- Claim C20. Descend. On a schema built through the interface (so open), `layout[name]`
returns if and only if `name` is in the name map and the field registered under it, which has
that name, is a `Struct`; it returns the nested schema that this field owns. It is a contract
violation when the name is not in the map, when the field is not a `Struct`, and on every
finalized schema. Appending a fixed-size field through the returned handle appends it to the
nested schema of that `Struct` field, which `layout[name]` then returns, and leaves the number
of fields of the parent as it was; after `Finalize()` the stride of the parent is larger by
the size of the field (sizes below `2 ^ 64`). -/
theorem descend_returns_nested_schema_of_struct (L : UBufferElementLayout) (name : String)
    (hbuilt : Built L) :
    ((L.descend name).isSome = true ↔ ∃ i f, TMap.find L.FieldIndexMap name = some i ∧
      L.Fields.get? i = some f ∧ f.Type_ = .Struct) ∧
    (∀ i, TMap.find L.FieldIndexMap name = some i →
      ∃ f, L.Fields.get? i = some f ∧ f.Name = name) ∧
    (∀ l, L.descend name = some l ↔ ∃ i f, TMap.find L.FieldIndexMap name = some i ∧
      L.Fields.get? i = some f ∧ f.Type_ = .Struct ∧ f.Layout = some l) ∧
    (TMap.find L.FieldIndexMap name = none → L.descend name = none) ∧
    (∀ i f, TMap.find L.FieldIndexMap name = some i → L.Fields.get? i = some f →
      f.Type_ ≠ .Struct → L.descend name = none) ∧
    (∀ F : UBufferElementLayout, F.bIsFinalized = true → F.descend name = none) ∧
    (∀ (l : UBufferElementLayout) (t : EType) (n : String) (sz : Nat),
      L.descend name = some l → TypeInfo.Size t = some sz →
      ∃ l2 L2, UBufferElementLayout.Append t n l = some l2 ∧
        l2.Fields = l.Fields ++ [.mk t n sz 0 none] ∧
        L.descendThen name (UBufferElementLayout.Append t n) = some L2 ∧
        L2.descend name = some l2 ∧ L2.Fields.length = L.Fields.length ∧
        (declaredSize L + sz < SIZE_MOD → ∃ F F2, Finalize L = some F ∧
          Finalize L2 = some F2 ∧ F.GetStride = some F.Stride ∧
          F2.GetStride = some (F.Stride + sz))) := by
  obtain ⟨hopen, _⟩ := Built_open_tagSized L hbuilt
  have hwm := Built_wellMapped L hbuilt
  obtain ⟨hb, hfields⟩ := (AllOpen_iff L).1 hopen
  have hsome : ∀ l, L.descend name = some l ↔ ∃ i f, TMap.find L.FieldIndexMap name = some i ∧
      L.Fields.get? i = some f ∧ f.Type_ = .Struct ∧ f.Layout = some l := by
    intro l
    rw [descend_eq_some]
    simp [hb]
  refine ⟨?_, ?_, hsome, ?_, ?_, ?_, ?_⟩
  · constructor
    · intro h
      obtain ⟨l, hl⟩ := Option.isSome_iff_exists.1 h
      obtain ⟨i, f, hi, hf, hs, _⟩ := (hsome l).1 hl
      exact ⟨i, f, hi, hf, hs⟩
    · rintro ⟨i, f, hi, hf, hs⟩
      obtain ⟨l, hl, _⟩ := struct_owns_layout f (AllOpenFields_get _ i f hfields hf) hs
      rw [(hsome l).2 ⟨i, f, hi, hf, hs, hl⟩]
      rfl
  · intro i hi
    obtain ⟨f, hf, hn, _⟩ := WellMapped_find L hwm name i hi
    exact ⟨f, hf, hn⟩
  · intro hnone
    simp [descend, hb, hnone]
  · intro i f hi hf hs
    simp only [descend, hb, Bool.false_eq_true, if_false, hi, hf]
    simp [hs]
  · intro F hF
    simp [descend, hF]
  · intro l t n sz hl hsz
    obtain ⟨i, f, hi, hf, hs, hlay⟩ := (hsome l).1 hl
    obtain ⟨l0, hl0, hlopen⟩ := struct_owns_layout f (AllOpenFields_get _ i f hfields hf) hs
    rw [hlay, Option.some.injEq] at hl0
    subst hl0
    have hlb := ((AllOpen_iff l).1 hlopen).1
    have happ := Append_leaf t n sz l hsz hlb
    have hne := TypeInfo.Size_ne_Struct t sz hsz
    have hl2open : AllOpen (l.pushNamed (.mk t n sz 0 none) n) = true :=
      AllOpen_pushNamed l _ n hlopen (AllOpenField_leaf _ hne)
    have hilt : i < L.Fields.length := by
      rcases Nat.lt_or_ge i L.Fields.length with h | h
      · exact h
      · have := List.get?_eq_none.2 h
        rw [this] at hf
        simp at hf
    obtain ⟨ft, fn, fs, fo, flay⟩ := f
    simp only [FField.Type_mk, FField.Layout_mk] at hs hlay
    subst hs
    subst hlay
    refine ⟨_, .mk (L.Fields.set i (.mk .Struct fn fs fo
      (some (l.pushNamed (.mk t n sz 0 none) n)))) L.FieldIndexMap L.Stride L.bIsFinalized,
      happ, by simp [pushNamed], ?_, ?_, by simp, ?_⟩
    · simp only [descendThen, hb, Bool.false_eq_true, if_false, hi, hf]
      simp [happ, hb]
    · rw [descend_eq_some]
      refine ⟨by simpa using hb, i,
        .mk .Struct fn fs fo (some (l.pushNamed (.mk t n sz 0 none) n)),
        by simpa using hi, ?_, rfl, rfl⟩
      simp [List.get?_eq_getElem?, List.getElem?_set, hilt]
    · intro hlt
      have hL2open : AllOpen (UBufferElementLayout.mk (L.Fields.set i (.mk .Struct fn fs fo
          (some (l.pushNamed (.mk t n sz 0 none) n)))) L.FieldIndexMap L.Stride
          L.bIsFinalized) = true := by
        rw [AllOpen_iff]
        refine ⟨by simpa using hb, ?_⟩
        exact AllOpenFields_set _ i _ hfields (by simpa [AllOpenField] using hl2open)
      have hsize : declaredSize (UBufferElementLayout.mk (L.Fields.set i (.mk .Struct fn fs fo
          (some (l.pushNamed (.mk t n sz 0 none) n)))) L.FieldIndexMap L.Stride
          L.bIsFinalized) = declaredSize L + sz := by
        have h1 := declaredSizeFields_set L.Fields i _ (.mk .Struct fn fs fo
          (some (l.pushNamed (.mk t n sz 0 none) n))) hf
        rw [declaredSizeField_struct, declaredSizeField_struct, declaredSize_pushNamed,
          declaredSizeField_leaf t n sz 0 none hne] at h1
        rw [declaredSize_eq, declaredSize_eq L]
        simp only [Fields_mk]
        omega
      obtain ⟨F, hF, _⟩ := Finalize_laid L hopen
      obtain ⟨F2, hF2, _⟩ := Finalize_laid _ hL2open
      have hs1 := (Finalize_fits L F hopen (by omega) hF).2
      have hs2 := (Finalize_fits _ F2 hL2open (by rw [hsize]; exact hlt) hF2).2
      refine ⟨F, F2, hF, hF2, by simp [GetStride, Finalize_finalized L F hF], ?_⟩
      simp [GetStride, Finalize_finalized _ F2 hF2, hs2, hsize, hs1]

/-- Witness of C20: the schema of `test_nested_struct` holds `ViewProjection` and the empty
struct `Light`; `layout["Light"]` returns, and `Append<Float3>("Position")` through the handle
makes the stride after `Finalize()` larger by 12. -/
theorem descend_returns_nested_schema_of_struct_witness :
    ∃ l2 L2, UBufferElementLayout.Append .Float3 "Position" empty = some l2 ∧
      (AppendAll [(.Matrix, "ViewProjection"), (.Struct, "Light")] empty).bind
        (fun L => L.descendThen "Light" (UBufferElementLayout.Append .Float3 "Position")) =
        some L2 ∧
      L2.descend "Light" = some l2 := by
  obtain ⟨l2, L2, h1, _, h3, h4, _⟩ :=
    (descend_returns_nested_schema_of_struct
      ((AppendAll [(.Matrix, "ViewProjection"), (.Struct, "Light")] empty).getD empty) "Light"
      (Built_AppendAll [(.Matrix, "ViewProjection"), (.Struct, "Light")] empty _ Built.empty
        rfl)).2.2.2.2.2.2 empty .Float3 "Position" 12 rfl rfl
  exact ⟨l2, L2, h1, h3, h4⟩

/-- The schema that `test_nested_struct` builds through the handle `sceneLayout["Light"]` is
the schema `sceneLayout` built with `AppendStruct`. -/
theorem sceneLayoutByHandle_eq : sceneLayoutByHandle = some sceneLayout := rfl

/-! ## C21: lookups of an unknown name and of an index out of range -/

theorem GetFieldAtOutcome_toOption (L : UBufferElementLayout) (i : Nat) :
    (L.GetFieldAtOutcome i).toOption = L.GetFieldAt i := by
  unfold GetFieldAtOutcome GetFieldAt
  cases L.bIsFinalized with
  | false => simp [Outcome.toOption]
  | true =>
    cases hg : L.Fields.get? i with
    | none => simp only [hg]; simp [Outcome.toOption]
    | some f => simp only [hg]; simp [Outcome.toOption]

theorem GetFieldOutcome_toOption (L : UBufferElementLayout) (n : String) :
    (L.GetFieldOutcome n).toOption = L.GetField n := by
  unfold GetFieldOutcome GetField
  cases L.bIsFinalized with
  | false => simp [Outcome.toOption]
  | true =>
    cases hg : TMap.find L.FieldIndexMap n with
    | none => simp [Outcome.toOption]
    | some i => simpa using GetFieldAtOutcome_toOption L i

/-- Claim C21. Metadata lookup. On a schema that is not finalized both lookups stop at their
`assert`. On a finalized schema the `assert` passes, and nothing else is checked:
`GetField(name)` with a name that is not in the name map evaluates `it->second` on `end()`,
and `GetField(index)` with an index that is not below the field count evaluates
`Fields[Index]` outside the vector. Neither is rejected by a check of the function; what is
returned, if anything, is not determined by the program. -/
theorem GetField_unknown_name_or_index_is_not_checked (L : UBufferElementLayout) :
    (L.bIsFinalized = false →
      (∀ name, L.GetFieldOutcome name = .assertFails) ∧
      (∀ i, L.GetFieldAtOutcome i = .assertFails)) ∧
    (L.bIsFinalized = true →
      (∀ name, TMap.find L.FieldIndexMap name = none →
        L.GetFieldOutcome name = .undefinedBehaviour) ∧
      (∀ i, L.Fields.length ≤ i → L.GetFieldAtOutcome i = .undefinedBehaviour)) := by
  constructor
  · intro h
    simp [GetFieldOutcome, GetFieldAtOutcome, h]
  · intro h
    refine ⟨fun name hn => by simp [GetFieldOutcome, h, hn], fun i hi => ?_⟩
    have : L.Fields.get? i = none := List.get?_eq_none.mpr hi
    simp only [GetFieldAtOutcome, h, if_true, this]

/-- Witness of C21 on the finalized schema of `test_simple_layout` (three fields): the name
`Velocity` is not in it, and 3 is not below its field count. -/
theorem GetField_unknown_name_or_index_is_not_checked_witness :
    simpleLayoutFinalized.bIsFinalized = true ∧
    TMap.find simpleLayoutFinalized.FieldIndexMap "Velocity" = none ∧
    simpleLayoutFinalized.GetFieldOutcome "Velocity" = .undefinedBehaviour ∧
    simpleLayoutFinalized.Fields.length ≤ 3 ∧
    simpleLayoutFinalized.GetFieldAtOutcome 3 = .undefinedBehaviour :=
  ⟨rfl, rfl,
    ((GetField_unknown_name_or_index_is_not_checked simpleLayoutFinalized).2 rfl).1
      "Velocity" rfl,
    by decide,
    ((GetField_unknown_name_or_index_is_not_checked simpleLayoutFinalized).2 rfl).2 3
      (by decide)⟩

/-! ## C22: a name appended more than once -/

theorem find_indexMapFrom_absent : ∀ (fs : List FField) (start : Nat) (m : List (String × Nat))
    (name : String), (∀ j g, fs.get? j = some g → g.Type_ ≠ .Padding → g.Name ≠ name) →
    TMap.find (indexMapFrom start m fs) name = TMap.find m name
  | [], _, _, _, _ => by simp [indexMapFrom]
  | f :: fs, start, m, name, h => by
    have ih := find_indexMapFrom_absent fs (start + 1)
      (if f.Type_ ≠ .Padding then TMap.set m f.Name start else m) name
      (fun j g hg => h (j + 1) g (by simpa using hg))
    rw [indexMapFrom, ih]
    by_cases hp : f.Type_ = .Padding
    · simp [hp]
    · have hn : name ≠ f.Name := fun e => h 0 f (by simp) hp e.symm
      simp [hp, TMap.find_set, hn]

theorem find_indexMapFrom_last : ∀ (fs : List FField) (start : Nat) (m : List (String × Nat))
    (name : String) (i : Nat) (f : FField), fs.get? i = some f → f.Name = name →
    f.Type_ ≠ .Padding →
    (∀ j g, i < j → fs.get? j = some g → g.Type_ ≠ .Padding → g.Name ≠ name) →
    TMap.find (indexMapFrom start m fs) name = some (start + i)
  | [], _, _, _, _, _, hget, _, _, _ => by simp at hget
  | g :: fs, start, m, name, 0, f, hget, hn, hp, hlater => by
    simp only [List.get?_cons_zero, Option.some.injEq] at hget
    subst hget
    rw [indexMapFrom, find_indexMapFrom_absent fs (start + 1) _ name
      (fun j h hh => hlater (j + 1) h (by omega) (by simpa using hh))]
    simp [hp, TMap.find_set, hn]
  | g :: fs, start, m, name, i + 1, f, hget, hn, hp, hlater => by
    simp only [List.get?_cons_succ] at hget
    rw [indexMapFrom, find_indexMapFrom_last fs (start + 1) _ name i f hget hn hp
      (fun j h hj hh => hlater (j + 1) h (by omega) (by simpa using hh))]
    congr 1
    omega

theorem Forall₂_FinalizedFrom_types : ∀ (fs fs2 : List FField),
    List.Forall₂ FinalizedFrom fs fs2 → fs2.map FField.Type_ = fs.map FField.Type_
  | _, _, .nil => rfl
  | _, _, .cons h t => by
    simp [h.2.1, Forall₂_FinalizedFrom_types _ _ t]

/-- Claim C22. Duplicate names are last-write-wins. On every schema built through the
interface, whatever names it already holds, `Append<t>(name)` and `AppendStruct(name, N)`
succeed and add their field at the end of the field sequence. `Finalize()` then succeeds and
keeps every field, in order and under its name; the stride is the `size_t` sum of the sizes of
all of them; and `GetField(name)` returns the last field of the sequence that was appended
under `name` (the last one with this name that is not a `Padding`). -/
theorem duplicate_names_last_write_wins (L : UBufferElementLayout) (hb : Built L)
    (name : String) :
    (∀ t, t ≠ .Padding → ∃ L1 f, UBufferElementLayout.Append t name L = some L1 ∧
      L1.Fields = L.Fields ++ [f] ∧ f.Name = name ∧ f.Type_ = t) ∧
    (∀ N, ∃ L1 f, UBufferElementLayout.AppendStruct name N L = some L1 ∧
      L1.Fields = L.Fields ++ [f] ∧ f.Name = name ∧ f.Type_ = .Struct) ∧
    ∃ F, Finalize L = some F ∧
      F.Fields.map FField.Name = L.Fields.map FField.Name ∧
      F.Fields.map FField.Type_ = L.Fields.map FField.Type_ ∧
      F.GetStride = some (sizeSum F.Fields % SIZE_MOD) ∧
      ∀ i f, F.Fields.get? i = some f → f.Name = name → f.Type_ ≠ .Padding →
        (∀ j g, i < j → F.Fields.get? j = some g → g.Type_ ≠ .Padding → g.Name ≠ name) →
        F.GetField name = some f := by
  obtain ⟨hopen, _⟩ := Built_open_tagSized L hb
  have hfalse : L.bIsFinalized = false := ((AllOpen_iff L).mp hopen).1
  refine ⟨?_, ?_, ?_⟩
  · intro t ht
    cases t <;>
      simp [UBufferElementLayout.Append, hfalse, TypeInfo.Size, pushNamed] at ht ⊢
  · intro N
    simp [UBufferElementLayout.AppendStruct, hfalse, pushNamed]
  · obtain ⟨F, hfin, hF, hstride, hall⟩ := Finalize_stride L hopen
    have hw := (WellMapped_iff F).mp (Finalize_wellMapped L F (Built_wellMapped L hb) hfin)
    refine ⟨F, hfin, Forall₂_FinalizedFrom_names _ _ hall, Forall₂_FinalizedFrom_types _ _ hall,
      by simp [GetStride, hF, hstride], ?_⟩
    intro i f hget hn hp hlater
    have hfind := find_indexMapFrom_last F.Fields 0 [] name i f hget hn hp hlater
    rw [← hw.1, Nat.zero_add] at hfind
    simp only [GetField, GetFieldAt, hF, if_true, hfind, hget]

/-- Witness of C22 on the schema `Int A`, `Float3 B`, `Matrix A`: after `Finalize()` the
lookup of `A` returns the `Matrix` field at offset 16, and the stride is 4 + 12 + 64. -/
theorem duplicate_names_last_write_wins_witness :
    ∃ F, Finalize duplicateLayout = some F ∧ F.GetStride = some 80 ∧
      (F.GetField "A").map FField.metadata = some (.Matrix, "A", 64, 16) := by
  obtain ⟨_, _, F, hfin, _, _, _, hlast⟩ := duplicate_names_last_write_wins duplicateLayout
    (Built_AppendAll [(.Int, "A"), (.Float3, "B"), (.Matrix, "A")] empty duplicateLayout
      Built.empty rfl) "A"
  have hF : F = (Finalize duplicateLayout).getD empty := by rw [hfin]; rfl
  have hlen : F.Fields.length = 3 := by rw [hF]; decide
  have hmeta : (F.Fields.get? 2).map FField.metadata = some (.Matrix, "A", 64, 16) := by
    rw [hF]; decide
  refine ⟨F, hfin, by rw [hF]; decide, ?_⟩
  cases hg2 : F.Fields.get? 2 with
  | none =>
    rw [hg2] at hmeta
    simp at hmeta
  | some f =>
    simp only [hg2, Option.map_some', Option.some.injEq] at hmeta
    have hty : f.Type_ = .Matrix := congrArg (fun p => p.1) hmeta
    have hnm : f.Name = "A" := congrArg (fun p => p.2.1) hmeta
    rw [hlast 2 f hg2 hnm (by simp [hty]) (fun j g hj hg => by
      have hlt := (List.get?_eq_some.mp hg).1
      omega)]
    simp [hmeta]

/-! ## C23: `AppendPadding(0)` -/

/-- Claim C23. Padding no-op. On every open schema `AppendPadding(0)` returns normally and
leaves the schema object as it was: the field count, the field sequence, the name map,
`GetCurrentStride()`, and the result of `Finalize()` with the stride read from it, are those of
the schema before the call. -/
theorem AppendPadding_zero_changes_nothing (L : UBufferElementLayout)
    (hopen : L.bIsFinalized = false) :
    ∃ L2, AppendPadding 0 L = some L2 ∧ L2.Fields.length = L.Fields.length ∧
      L2.Fields = L.Fields ∧ L2.FieldIndexMap = L.FieldIndexMap ∧
      GetCurrentStride L2 = GetCurrentStride L ∧ Finalize L2 = Finalize L ∧
      (Finalize L2).bind GetStride = (Finalize L).bind GetStride :=
  ⟨L, by simp [AppendPadding, hopen], rfl, rfl, rfl, rfl, rfl, rfl⟩

/-- Witness of C23 on the schema of `test_simple_layout`: 3 fields and 20 bytes before and
after. -/
theorem AppendPadding_zero_changes_nothing_witness :
    ∃ L2, AppendPadding 0 simpleLayout = some L2 ∧ L2.Fields.length = 3 ∧
      GetCurrentStride L2 = 20 ∧ (Finalize L2).bind GetStride = some 20 := by
  obtain ⟨L2, h, hlen, _, _, hcur, _, hfin⟩ :=
    AppendPadding_zero_changes_nothing simpleLayout rfl
  exact ⟨L2, h, hlen.trans (by decide), hcur.trans (by decide), hfin.trans (by decide)⟩

/-! ## C24: `AppendPadding(n)` with `n > 0` -/

theorem Finalize_eq_some (L F : UBufferElementLayout) (h : Finalize L = some F) :
    L.bIsFinalized = false ∧ FinalizeLoop 0 L.Fields = some (F.Fields, F.Stride) ∧
      F.FieldIndexMap = L.FieldIndexMap ∧ F.bIsFinalized = true := by
  obtain ⟨fs, m, s, b⟩ := L
  cases b with
  | true => simp [Finalize] at h
  | false =>
    simp only [Finalize, Bool.false_eq_true, if_false] at h
    cases hl : FinalizeLoop 0 fs with
    | none => simp [hl] at h
    | some p =>
      obtain ⟨fs2, total⟩ := p
      simp only [hl, Option.some.injEq] at h
      subst h
      simp [hl]

theorem Finalize_of_loop (L : UBufferElementLayout) (fs2 : List FField) (total : Nat)
    (hopen : L.bIsFinalized = false) (h : FinalizeLoop 0 L.Fields = some (fs2, total)) :
    Finalize L = some (.mk fs2 L.FieldIndexMap total true) := by
  obtain ⟨fs, m, s, b⟩ := L
  simp only [bIsFinalized_mk] at hopen
  subst hopen
  simp only [Fields_mk] at h
  simp [Finalize, h]

theorem FinalizeField_shift (n off : Nat) (f f2 : FField) (off2 : Nat)
    (h : FinalizeField off f = some (f2, off2)) :
    FinalizeField ((off + n) % SIZE_MOD) f = some (f2.shiftOffset n, (off2 + n) % SIZE_MOD) := by
  obtain ⟨t, nm, s, o, l⟩ := f
  cases t <;> cases l <;>
    simp only [FinalizeField, Option.some.injEq, Prod.mk.injEq] at h ⊢ <;>
    first
    | (obtain ⟨rfl, rfl⟩ := h
       simp [FField.shiftOffset]
       done)
    | (obtain ⟨rfl, rfl⟩ := h
       simp [FField.shiftOffset]
       congr 1
       omega)
    | (rename_i l
       cases hl : Finalize l with
       | none => simp [hl] at h
       | some l2 =>
         simp only [hl, Option.some.injEq, Prod.mk.injEq] at h ⊢
         obtain ⟨rfl, rfl⟩ := h
         simp [FField.shiftOffset]
         congr 1
         omega)

theorem FinalizeLoop_shift (n : Nat) : ∀ (gs gs2 : List FField) (off t : Nat),
    FinalizeLoop off gs = some (gs2, t) →
    FinalizeLoop ((off + n) % SIZE_MOD) gs =
      some (gs2.map (FField.shiftOffset n), (t + n) % SIZE_MOD)
  | [], gs2, off, t, h => by
    simp only [FinalizeLoop, Option.some.injEq, Prod.mk.injEq] at h ⊢
    obtain ⟨rfl, rfl⟩ := h
    simp
  | g :: gs, gs2, off, t, h => by
    simp only [FinalizeLoop] at h
    cases hf : FinalizeField off g with
    | none => simp [hf] at h
    | some p =>
      obtain ⟨g2, off2⟩ := p
      simp only [hf] at h
      cases hl : FinalizeLoop off2 gs with
      | none => simp [hl] at h
      | some q =>
        obtain ⟨gs3, t3⟩ := q
        simp only [hl, Option.some.injEq, Prod.mk.injEq] at h
        obtain ⟨rfl, rfl⟩ := h
        simp [FinalizeLoop, FinalizeField_shift n off g g2 off2 hf,
          FinalizeLoop_shift n gs gs3 off2 t3 hl]

theorem call_append_fields (op : LayoutOp) (L L1 : UBufferElementLayout)
    (hop : op.isAppend = true) (h : op.call L = some L1) :
    L.bIsFinalized = false ∧ L1.bIsFinalized = false ∧ L1.Stride = L.Stride ∧
    ∃ new, L1.Fields = L.Fields ++ new ∧
      ∀ K, K.bIsFinalized = false →
        ∃ K1, op.call K = some K1 ∧ K1.Fields = K.Fields ++ new := by
  cases hb : L.bIsFinalized with
  | true =>
    cases op <;>
      simp [LayoutOp.isAppend, LayoutOp.call, UBufferElementLayout.Append,
        UBufferElementLayout.AppendStruct, UBufferElementLayout.AppendPadding, hb] at hop h
  | false =>
    refine ⟨rfl, ?_⟩
    cases op with
    | Append t n =>
      cases t <;>
        simp only [LayoutOp.call, UBufferElementLayout.Append, hb, Bool.false_eq_true, if_false,
          TypeInfo.Size, Option.some.injEq] at h <;>
        first
        | exact absurd h (by simp)
        | (subst h
           refine ⟨by simp [pushNamed, hb], by simp [pushNamed], _, rfl, ?_⟩
           intro K hK
           simp [LayoutOp.call, UBufferElementLayout.Append, hK, TypeInfo.Size, pushNamed])
    | AppendStruct n N =>
      simp only [LayoutOp.call, UBufferElementLayout.AppendStruct, hb, Bool.false_eq_true,
        if_false, Option.some.injEq] at h
      subst h
      refine ⟨by simp [pushNamed, hb], by simp [pushNamed], _, rfl, ?_⟩
      intro K hK
      simp [LayoutOp.call, UBufferElementLayout.AppendStruct, hK, pushNamed]
    | AppendPadding Bytes =>
      by_cases hz : Bytes = 0
      · simp only [LayoutOp.call, UBufferElementLayout.AppendPadding, hb, Bool.false_eq_true,
          if_false, hz, if_true, Option.some.injEq] at h
        subst h
        refine ⟨hb, rfl, [], by simp, ?_⟩
        intro K hK
        simp [LayoutOp.call, UBufferElementLayout.AppendPadding, hK, hz]
      · simp only [LayoutOp.call, UBufferElementLayout.AppendPadding, hb, Bool.false_eq_true,
          if_false, hz, Option.some.injEq] at h
        subst h
        refine ⟨by simp [hb], by simp, _, rfl, ?_⟩
        intro K hK
        simp [LayoutOp.call, UBufferElementLayout.AppendPadding, hK, hz]
    | _ => simp [LayoutOp.isAppend] at hop

theorem callAll_append_fields : ∀ (ops : List LayoutOp) (L La : UBufferElementLayout),
    (∀ op ∈ ops, op.isAppend = true) → L.bIsFinalized = false →
    LayoutOp.callAll ops L = some La →
    La.bIsFinalized = false ∧ La.Stride = L.Stride ∧
    ∃ new, La.Fields = L.Fields ++ new ∧
      ∀ K, K.bIsFinalized = false →
        ∃ Ka, LayoutOp.callAll ops K = some Ka ∧ Ka.Fields = K.Fields ++ new
  | [], L, La, _, hopen, h => by
    simp only [LayoutOp.callAll, Option.some.injEq] at h
    subst h
    exact ⟨hopen, rfl, [], by simp, fun K _ => ⟨K, by simp [LayoutOp.callAll]⟩⟩
  | op :: ops, L, La, hops, hopen, h => by
    simp only [LayoutOp.callAll] at h
    cases hc : op.call L with
    | none => simp [hc] at h
    | some L1 =>
      simp only [hc] at h
      obtain ⟨_, hopen1, hs1, new1, hf1, hK1⟩ :=
        call_append_fields op L L1 (hops op (by simp)) hc
      obtain ⟨hopena, hsa, new2, hf2, hK2⟩ := callAll_append_fields ops L1 La
        (fun o ho => hops o (by simp [ho])) hopen1 h
      refine ⟨hopena, hsa.trans hs1, new1 ++ new2, by simp [hf2, hf1], ?_⟩
      intro K hK
      obtain ⟨K1, hk1, hkf1⟩ := hK1 K hK
      have hK1open : K1.bIsFinalized = false :=
        (call_append_fields op K K1 (hops op (by simp)) hk1).2.1
      obtain ⟨Ka, hka, hkfa⟩ := hK2 K1 hK1open
      exact ⟨Ka, by simp [LayoutOp.callAll, hk1, hka], by simp [hkfa, hkf1]⟩

theorem GetField_not_padding (K FK : UBufferElementLayout) (hw : WellMapped K)
    (hfin : Finalize K = some FK) (name : String) (f : FField)
    (h : FK.GetField name = some f) : f.Type_ ≠ .Padding := by
  obtain ⟨_, i, hfind, hget⟩ := GetField_some FK name f h
  obtain ⟨g, hg, _, hp⟩ := WellMapped_find FK (Finalize_wellMapped K FK hw hfin) name i hfind
  rw [hget, Option.some.injEq] at hg
  subst hg
  exact hp

/-- Claim C24. Padding is an unaddressable filler. On every schema `L` built through the
interface and every `n` with `0 < n < 2 ^ 64`, `AppendPadding(n)` succeeds, appends exactly one
field, of type `Padding` and size `n`, and leaves the name map as it was. With `F` and `F2`
the results of `Finalize()` before and after the call: `F2` has the fields of `F` followed by
the padding at the offset `F.Stride`, and its stride is `F.Stride + n` in `size_t` arithmetic
(exactly so when the sum is below `2 ^ 64`); for every sequence of later appends, the fields
they add are laid out as without the padding but with `Offset` increased by `n`, and the
stride is increased by `n`; and no `GetField(name)`, for any name, returns a field of type
`Padding`, neither on `F` nor on `F2`. -/
theorem AppendPadding_adds_unaddressable_filler (L : UBufferElementLayout) (hb : Built L)
    (n : Nat) (hpos : 0 < n) (hn : n < SIZE_MOD) :
    ∃ L2 F F2, AppendPadding n L = some L2 ∧
      L2.Fields = L.Fields ++ [.mk .Padding "Padding" n 0 none] ∧
      L2.FieldIndexMap = L.FieldIndexMap ∧
      Finalize L = some F ∧ Finalize L2 = some F2 ∧
      F2.Fields = F.Fields ++ [.mk .Padding "Padding" n F.Stride none] ∧
      F2.FieldIndexMap = F.FieldIndexMap ∧
      F2.GetStride = some ((F.Stride + n) % SIZE_MOD) ∧
      (F.Stride + n < SIZE_MOD → F2.GetStride = some (F.Stride + n)) ∧
      (∀ name f, F.GetField name = some f → f.Type_ ≠ .Padding) ∧
      (∀ name f, F2.GetField name = some f → f.Type_ ≠ .Padding) ∧
      ∀ ops La Fa, (∀ op ∈ ops, LayoutOp.isAppend op = true) →
        LayoutOp.callAll ops L = some La → Finalize La = some Fa →
        ∃ Lb Fb later, LayoutOp.callAll ops L2 = some Lb ∧ Finalize Lb = some Fb ∧
          Fa.Fields = F.Fields ++ later ∧
          Fb.Fields = F2.Fields ++ later.map (FField.shiftOffset n) ∧
          Fb.GetStride = some ((Fa.Stride + n) % SIZE_MOD) := by
  obtain ⟨hopen, _⟩ := Built_open_tagSized L hb
  have hfalse : L.bIsFinalized = false := ((AllOpen_iff L).mp hopen).1
  have hne : n ≠ 0 := Nat.pos_iff_ne_zero.mp hpos
  obtain ⟨fs2, total, hfin, _, _⟩ := Finalize_open L hopen
  have hloop : FinalizeLoop 0 L.Fields = some (fs2, total) := by
    simpa using (Finalize_eq_some L _ hfin).2.1
  have hL2 : AppendPadding n L = some (.mk (L.Fields ++ [.mk .Padding "Padding" n 0 none])
      L.FieldIndexMap L.Stride L.bIsFinalized) := by
    simp [AppendPadding, hfalse, hne]
  have hloop2 : FinalizeLoop 0 (L.Fields ++ [.mk .Padding "Padding" n 0 none]) =
      some (fs2 ++ [.mk .Padding "Padding" n total none], (total + n) % SIZE_MOD) := by
    rw [FinalizeLoop_append, hloop]
    simp [FinalizeLoop, FinalizeField]
  have hfin2 := Finalize_of_loop (.mk (L.Fields ++ [.mk .Padding "Padding" n 0 none])
    L.FieldIndexMap L.Stride L.bIsFinalized) _ _ (by simpa using hfalse)
    (by simpa using hloop2)
  simp only [FieldIndexMap_mk] at hfin2
  have hbuilt2 := Built.appendPadding n L _ hb hn hL2
  refine ⟨_, _, _, hL2, rfl, rfl, hfin, hfin2, rfl, rfl, by simp [GetStride],
    fun hlt => by
      simp only [layoutStride_mk] at hlt
      simp [GetStride, Nat.mod_eq_of_lt hlt],
    GetField_not_padding L _ (Built_wellMapped L hb) hfin,
    GetField_not_padding _ _ (Built_wellMapped _ hbuilt2) hfin2, ?_⟩
  intro ops La Fa hops hLa hFa
  obtain ⟨_, _, new, hnew, hK⟩ := callAll_append_fields ops L La hops hfalse hLa
  obtain ⟨Lb, hLb, hLbf⟩ := hK (.mk (L.Fields ++ [.mk .Padding "Padding" n 0 none])
    L.FieldIndexMap L.Stride L.bIsFinalized) (by simpa using hfalse)
  have hLbopen : Lb.bIsFinalized = false :=
    (callAll_append_fields ops _ Lb hops (by simpa using hfalse) hLb).1
  have hloopa := (Finalize_eq_some La Fa hFa).2.1
  rw [hnew, FinalizeLoop_append, hloop] at hloopa
  simp only at hloopa
  cases hl : FinalizeLoop total new with
  | none => simp [hl] at hloopa
  | some q =>
    obtain ⟨later, t⟩ := q
    simp only [hl, Option.some.injEq, Prod.mk.injEq] at hloopa
    have hshift := FinalizeLoop_shift n new later total t hl
    have hloopb : FinalizeLoop 0 Lb.Fields =
        some ((fs2 ++ [.mk .Padding "Padding" n total none]) ++
          later.map (FField.shiftOffset n), (t + n) % SIZE_MOD) := by
      rw [hLbf]
      simp only [Fields_mk]
      rw [FinalizeLoop_append, hloop2]
      simp only [hshift]
    refine ⟨Lb, _, later, hLb, Finalize_of_loop Lb _ _ hLbopen hloopb, hloopa.1.symm, rfl, ?_⟩
    simp [GetStride, hloopa.2]

/-- Witness of C24 on the schema of `test_simple_layout` (20 bytes) with 12 bytes of padding:
the finalized stride becomes 32, the padding is the fourth field, at offset 20, and the name
`Padding` resolves to nothing. -/
theorem AppendPadding_adds_unaddressable_filler_witness :
    ∃ L2 F2, AppendPadding 12 simpleLayout = some L2 ∧ Finalize L2 = some F2 ∧
      F2.GetStride = some 32 ∧
      (F2.Fields.get? 3).map FField.metadata = some (.Padding, "Padding", 12, 20) ∧
      ∀ name f, F2.GetField name = some f → f.Type_ ≠ .Padding := by
  obtain ⟨L2, F, F2, h1, _, _, hF, h2, hflds, _, _, hstride, _, hlook, _⟩ :=
    AppendPadding_adds_unaddressable_filler simpleLayout
      (Built_AppendAll [(.Float3, "Position"), (.Int, "EntityID"), (.Bool, "bIsVisible")]
        empty simpleLayout Built.empty rfl) 12 (by decide) (by decide)
  have hFe : F = simpleLayoutFinalized := by
    have : Finalize simpleLayout = some simpleLayoutFinalized := rfl
    rw [this, Option.some.injEq] at hF
    exact hF.symm
  subst hFe
  refine ⟨L2, F2, h1, h2, (hstride (by decide)).trans (by decide), ?_, hlook⟩
  rw [hflds]
  decide

/-! ## C25: `GetCurrentStride()` -/

mutual
theorem GetCurrentStrideField_modEq : ∀ (f : FField),
    GetCurrentStrideField f % SIZE_MOD = declaredSizeField f % SIZE_MOD
  | .mk .Struct _ _ _ none => by simp [GetCurrentStrideField, declaredSizeField]
  | .mk .Struct _ _ _ (some l) => by
    simp [GetCurrentStrideField, declaredSizeField, GetCurrentStride_eq_declaredSize l]
  | .mk .Bool _ _ _ _ => by simp [GetCurrentStrideField, declaredSizeField]
  | .mk .Int _ _ _ _ => by simp [GetCurrentStrideField, declaredSizeField]
  | .mk .Float _ _ _ _ => by simp [GetCurrentStrideField, declaredSizeField]
  | .mk .Float3 _ _ _ _ => by simp [GetCurrentStrideField, declaredSizeField]
  | .mk .Float4 _ _ _ _ => by simp [GetCurrentStrideField, declaredSizeField]
  | .mk .Matrix _ _ _ _ => by simp [GetCurrentStrideField, declaredSizeField]
  | .mk .Padding _ _ _ _ => by simp [GetCurrentStrideField, declaredSizeField]
theorem GetCurrentStrideLoop_eq : ∀ (fs : List FField) (acc : Nat), acc < SIZE_MOD →
    GetCurrentStrideLoop acc fs = (acc + declaredSizeFields fs) % SIZE_MOD
  | [], acc, h => by simp [GetCurrentStrideLoop, declaredSizeFields, Nat.mod_eq_of_lt h]
  | f :: fs, acc, _ => by
    rw [GetCurrentStrideLoop, GetCurrentStrideLoop_eq fs _ (Nat.mod_lt _ SIZE_MOD_pos),
      declaredSizeFields, Nat.mod_add_mod]
    have hf : GetCurrentStrideField f ≡ declaredSizeField f [MOD SIZE_MOD] :=
      GetCurrentStrideField_modEq f
    rw [← Nat.add_assoc]
    exact (hf.add_left acc).add_right _
theorem GetCurrentStride_eq_declaredSize : ∀ (L : UBufferElementLayout),
    GetCurrentStride L = declaredSize L % SIZE_MOD
  | .mk fs _ _ _ => by
    simp [GetCurrentStride, declaredSize, GetCurrentStrideLoop_eq fs 0 SIZE_MOD_pos]
end

mutual
theorem FinalizeField_next : ∀ (f f2 : FField) (off off2 : Nat), off < SIZE_MOD →
    FinalizeField off f = some (f2, off2) →
    off2 = (off + GetCurrentStrideField f) % SIZE_MOD
  | .mk .Struct _ _ _ none, f2, off, off2, hoff, h => by
    simp only [FinalizeField, Option.some.injEq, Prod.mk.injEq] at h
    simp [GetCurrentStrideField, ← h.2, Nat.mod_eq_of_lt hoff]
  | .mk .Struct _ _ _ (some l), f2, off, off2, _, h => by
    simp only [FinalizeField] at h
    cases hl : Finalize l with
    | none => simp [hl] at h
    | some l2 =>
      simp only [hl, Option.some.injEq, Prod.mk.injEq] at h
      simp [GetCurrentStrideField, ← h.2, Finalize_stride_eq_current l l2 hl]
  | .mk .Bool _ _ _ _, f2, off, off2, _, h => by
    simp only [FinalizeField, Option.some.injEq, Prod.mk.injEq] at h
    simp [GetCurrentStrideField, ← h.2]
  | .mk .Int _ _ _ _, f2, off, off2, _, h => by
    simp only [FinalizeField, Option.some.injEq, Prod.mk.injEq] at h
    simp [GetCurrentStrideField, ← h.2]
  | .mk .Float _ _ _ _, f2, off, off2, _, h => by
    simp only [FinalizeField, Option.some.injEq, Prod.mk.injEq] at h
    simp [GetCurrentStrideField, ← h.2]
  | .mk .Float3 _ _ _ _, f2, off, off2, _, h => by
    simp only [FinalizeField, Option.some.injEq, Prod.mk.injEq] at h
    simp [GetCurrentStrideField, ← h.2]
  | .mk .Float4 _ _ _ _, f2, off, off2, _, h => by
    simp only [FinalizeField, Option.some.injEq, Prod.mk.injEq] at h
    simp [GetCurrentStrideField, ← h.2]
  | .mk .Matrix _ _ _ _, f2, off, off2, _, h => by
    simp only [FinalizeField, Option.some.injEq, Prod.mk.injEq] at h
    simp [GetCurrentStrideField, ← h.2]
  | .mk .Padding _ _ _ _, f2, off, off2, _, h => by
    simp only [FinalizeField, Option.some.injEq, Prod.mk.injEq] at h
    simp [GetCurrentStrideField, ← h.2]
theorem FinalizeLoop_total : ∀ (fs fs2 : List FField) (off total : Nat), off < SIZE_MOD →
    FinalizeLoop off fs = some (fs2, total) → total = GetCurrentStrideLoop off fs
  | [], fs2, off, total, _, h => by
    simp only [FinalizeLoop, Option.some.injEq, Prod.mk.injEq] at h
    simp [GetCurrentStrideLoop, h.2]
  | f :: fs, fs2, off, total, hoff, h => by
    simp only [FinalizeLoop] at h
    cases hf : FinalizeField off f with
    | none => simp [hf] at h
    | some p =>
      obtain ⟨g, off2⟩ := p
      simp only [hf] at h
      cases hl : FinalizeLoop off2 fs with
      | none => simp [hl] at h
      | some q =>
        obtain ⟨gs, t⟩ := q
        simp only [hl, Option.some.injEq, Prod.mk.injEq] at h
        have hnext := FinalizeField_next f g off off2 hoff hf
        have ih := FinalizeLoop_total fs gs off2 t
          (by rw [hnext]; exact Nat.mod_lt _ SIZE_MOD_pos) hl
        rw [GetCurrentStrideLoop, ← hnext, ← ih, h.2]
theorem Finalize_stride_eq_current : ∀ (L L2 : UBufferElementLayout),
    Finalize L = some L2 → L2.Stride = GetCurrentStride L
  | .mk fs m s b, L2, h => by
    cases b with
    | true => simp [Finalize] at h
    | false =>
      simp only [Finalize, Bool.false_eq_true, if_false] at h
      cases hl : FinalizeLoop 0 fs with
      | none => simp [hl] at h
      | some p =>
        obtain ⟨fs2, total⟩ := p
        simp only [hl, Option.some.injEq] at h
        subst h
        simp [GetCurrentStride, FinalizeLoop_total fs fs2 0 total SIZE_MOD_pos hl]
end

/-- Claim C25. `GetCurrentStride()` is defined on every schema, finalized or not, and hands
back a number without producing a new schema object; the number is the sum of the sizes of
all fields that are not a `Struct` plus, recursively, the same sum for the nested schema of
each `Struct` field (`declaredSize`), in `size_t` arithmetic, and that sum itself when it is
below `2 ^ 64`. Whenever `Finalize()` succeeds on the schema, `GetStride()` of the result is
this number; and `Finalize()` succeeds on every open schema whose nested schemas are open. -/
theorem GetCurrentStride_is_sum_and_finalized_stride (L : UBufferElementLayout) :
    GetCurrentStride L = declaredSize L % SIZE_MOD ∧
    (declaredSize L < SIZE_MOD → GetCurrentStride L = declaredSize L) ∧
    LayoutOp.call .GetCurrentStride L = some L ∧
    (∀ F, Finalize L = some F → F.GetStride = some (GetCurrentStride L)) ∧
    (AllOpen L = true → ∃ F, Finalize L = some F ∧ F.GetStride = some (GetCurrentStride L)) := by
  have hfin : ∀ F, Finalize L = some F → F.GetStride = some (GetCurrentStride L) := by
    intro F hF
    simp [GetStride, Finalize_finalized L F hF, Finalize_stride_eq_current L F hF]
  refine ⟨GetCurrentStride_eq_declaredSize L, fun h => ?_, rfl, hfin, fun hopen => ?_⟩
  · rw [GetCurrentStride_eq_declaredSize, Nat.mod_eq_of_lt h]
  · obtain ⟨F, hF, _⟩ := Finalize_laid L hopen
    exact ⟨F, hF, hfin F hF⟩

/-- Witness of C25 on the schema of `test_nested_struct`: 64 + (12 + 16 + 4) = 96 before
`Finalize()`, and the stride 96 after it. -/
theorem GetCurrentStride_is_sum_and_finalized_stride_witness :
    declaredSize sceneLayout = 96 ∧ GetCurrentStride sceneLayout = declaredSize sceneLayout ∧
    ∃ F, Finalize sceneLayout = some F ∧ F.GetStride = some (GetCurrentStride sceneLayout) :=
  ⟨by decide,
    (GetCurrentStride_is_sum_and_finalized_stride sceneLayout).2.1 (by decide),
    (GetCurrentStride_is_sum_and_finalized_stride sceneLayout).2.2.2.2 (by decide)⟩

/-! ## C26: a `Struct` field without members -/

theorem sizeSum_eraseIdx : ∀ (fs : List FField) (i : Nat) (f : FField), fs.get? i = some f →
    sizeSum fs = sizeSum (fs.eraseIdx i) + f.Stride
  | [], _, _, h => by simp at h
  | g :: fs, 0, f, h => by
    simp only [List.get?_cons_zero, Option.some.injEq] at h
    subst h
    simp [sizeSum, Nat.add_comm]
  | g :: fs, i + 1, f, h => by
    simp only [List.get?_cons_succ] at h
    have ih := sizeSum_eraseIdx fs i f h
    simp only [sizeSum, List.map_cons, List.sum_cons, List.eraseIdx_cons_succ] at ih ⊢
    omega

/-- Claim C26. Empty struct. In every open schema whose nested schemas are open, a `Struct`
field whose nested schema has no fields has, after `Finalize()`, the size 0; the stride is the
`size_t` sum of the sizes of the other fields; and the field after it has the offset of the
struct. For the schema of `test_edge_cases` (`Int`, empty `Struct`, `Int`) the stride is 8,
the buffer holds one element, and each of the two `Int` fields reads back the four bytes
written to it, whichever of the two is written first. -/
theorem empty_struct_has_size_zero :
    (∀ (L : UBufferElementLayout) (i : Nat) (f : FField) (l : UBufferElementLayout),
      AllOpen L = true → L.Fields.get? i = some f → f.Type_ = .Struct → f.Layout = some l →
      l.Fields = [] →
      ∃ F f2, Finalize L = some F ∧ F.Fields.get? i = some f2 ∧ f2.Name = f.Name ∧
        f2.Type_ = .Struct ∧ f2.Stride = 0 ∧
        F.GetStride = some (sizeSum (F.Fields.eraseIdx i) % SIZE_MOD) ∧
        ∀ g, F.Fields.get? (i + 1) = some g → g.Offset = f2.Offset) ∧
    (Finalize edgeLayout).bind GetStride = some 8 ∧
    edgeBuffer.GetCount = some 1 ∧
    ∀ a0 a1 a2 a3 b0 b1 b2 b3 : Byte,
      (∃ B1 B2, edgeBuffer.write 0 ["ValueBefore"] (.raw [b0, b1, b2, b3]) = some B1 ∧
        B1.write 0 ["ValueAfter"] (.raw [a0, a1, a2, a3]) = some B2 ∧
        B2.readAt 0 ["ValueBefore"] (.sized 4) = some (.raw [b0, b1, b2, b3]) ∧
        B2.readAt 0 ["ValueAfter"] (.sized 4) = some (.raw [a0, a1, a2, a3])) ∧
      (∃ B1 B2, edgeBuffer.write 0 ["ValueAfter"] (.raw [a0, a1, a2, a3]) = some B1 ∧
        B1.write 0 ["ValueBefore"] (.raw [b0, b1, b2, b3]) = some B2 ∧
        B2.readAt 0 ["ValueBefore"] (.sized 4) = some (.raw [b0, b1, b2, b3]) ∧
        B2.readAt 0 ["ValueAfter"] (.sized 4) = some (.raw [a0, a1, a2, a3])) := by
  refine ⟨?_, by decide, by decide, ?_⟩
  · intro L i f l hopen hget hty hlay hempty
    obtain ⟨fs2, total, hfin, hlaid, hall⟩ := Finalize_open L hopen
    obtain ⟨f2, hget2, hfrom⟩ := Forall₂_get? FinalizedFrom _ _ i f hall hget
    obtain ⟨l1, l2, hl1, hfinl, _, hs⟩ := hfrom.2.2.2 hty
    rw [hlay, Option.some.injEq] at hl1
    subst hl1
    have hzero : f2.Stride = 0 := by
      have := (Finalize_eq_some l l2 hfinl).2.1
      rw [hempty] at this
      simp only [FinalizeLoop, Option.some.injEq, Prod.mk.injEq] at this
      rw [hs, ← this.2]
    have htotal := FieldsLaid_total total fs2 0 SIZE_MOD_pos hlaid
    have hoff := (FieldsLaid_get total fs2 0 i f2 SIZE_MOD_pos hlaid hget2).1
    refine ⟨_, f2, hfin, hget2, hfrom.1, hfrom.2.1.trans hty, hzero, ?_, ?_⟩
    · have := sizeSum_eraseIdx fs2 i f2 hget2
      simp only [GetStride, bIsFinalized_mk, if_true, layoutStride_mk, Fields_mk,
        Option.some.injEq]
      rw [htotal, this, hzero]
      simp
    · intro g hg
      simp only [Fields_mk] at hg
      have hgoff := (FieldsLaid_get total fs2 0 (i + 1) g SIZE_MOD_pos hlaid hg).1
      rw [hgoff, hoff, sizeSum_take_succ fs2 i f2 hget2, hzero]
      simp
  · intro a0 a1 a2 a3 b0 b1 b2 b3
    have hs : edgeBuffer.Layout.GetStride = some 8 := by decide
    have hb : edgeBuffer.Buffer = [0, 0, 0, 0, 0, 0, 0, 0] := by decide
    have hB : edgeBuffer.Layout.GetField "ValueBefore" =
        some (.mk .Int "ValueBefore" 4 0 none) := rfl
    have hA : edgeBuffer.Layout.GetField "ValueAfter" =
        some (.mk .Int "ValueAfter" 4 4 none) := rfl
    refine ⟨⟨⟨[b0, b1, b2, b3, 0, 0, 0, 0], edgeBuffer.Layout⟩,
        ⟨[b0, b1, b2, b3, a0, a1, a2, a3], edgeBuffer.Layout⟩, ?_, ?_, ?_, ?_⟩,
      ⟨⟨[0, 0, 0, 0, a0, a1, a2, a3], edgeBuffer.Layout⟩,
        ⟨[b0, b1, b2, b3, a0, a1, a2, a3], edgeBuffer.Layout⟩, ?_, ?_, ?_, ?_⟩⟩ <;>
      simp [UDynamicBuffer.write, UDynamicBuffer.readAt, UDynamicBuffer.elementAt,
        UDynamicBuffer.GetCount, hs, hb, UBufferElement.indexPath, UBufferElement.index, hA, hB,
        UBufferElement.assign, UBufferElement.read, memcpyTo, loadFrom]

/-- Witness of C26 on the schema of `test_edge_cases`: the field `EmptyStruct` at index 1 has
size 0, and `ValueAfter` has its offset. -/
theorem empty_struct_has_size_zero_witness :
    ∃ F f2, Finalize edgeLayout = some F ∧ F.Fields.get? 1 = some f2 ∧
      f2.Name = "EmptyStruct" ∧ f2.Stride = 0 ∧
      ∀ g, F.Fields.get? 2 = some g → g.Offset = f2.Offset := by
  obtain ⟨F, f2, h1, h2, h3, _, h5, _, h7⟩ := empty_struct_has_size_zero.1 edgeLayout 1
    (.mk .Struct "EmptyStruct" 0 0 (some empty)) empty (by decide) rfl rfl rfl rfl
  exact ⟨F, f2, h1, h2, h3, h5, h7⟩

/-! ## C27: a schema of stride 0 -/

/-- Claim C27. Zero-size schema. When `Finalize()` gives a schema of stride 0, both constructors
of the buffer succeed for every requested element count `n`: the buffer owns the finalized
schema, `GetStride()` is 0, the byte region has length 0, and `GetCount()` returns 0 (by the
branch that does not divide). The stride is 0 for every open schema with open nested schemas
whose field sizes add up to 0, such as the empty schema and a schema of empty structs. -/
theorem zero_stride_buffer_has_no_elements :
    (∀ (L F : UBufferElementLayout) (n : Nat), Finalize L = some F → F.Stride = 0 →
      UDynamicBuffer.create L = some ⟨[], F⟩ ∧
      ∃ B, UDynamicBuffer.createCount L n = some B ∧ B.Layout = F ∧
        B.Layout.GetStride = some 0 ∧ B.Buffer.length = 0 ∧ B.GetCount = some 0) ∧
    (∀ L : UBufferElementLayout, AllOpen L = true → declaredSize L = 0 →
      ∃ F, Finalize L = some F ∧ F.Stride = 0) := by
  constructor
  · intro L F n hfin hz
    have hF := Finalize_finalized L F hfin
    have hs : F.GetStride = some 0 := by simp [GetStride, hF, hz]
    refine ⟨by simp [UDynamicBuffer.create, hfin, hs], ⟨[], F⟩, ?_, rfl, hs, rfl, ?_⟩
    · simp [UDynamicBuffer.createCount, hfin, hs]
    · simp [UDynamicBuffer.GetCount, hs]
  · intro L hopen hz
    obtain ⟨F, hF, _⟩ := Finalize_laid L hopen
    refine ⟨F, hF, ?_⟩
    rw [Finalize_stride_eq_current L F hF, GetCurrentStride_eq_declaredSize, hz]
    exact Nat.zero_mod _

/-- Witness of C27 on the empty schema of `test_edge_cases` with the one-argument constructor,
and on a schema of two empty structs with 3 requested elements. -/
theorem zero_stride_buffer_has_no_elements_witness :
    (∃ B, UDynamicBuffer.create empty = some B ∧ B.Layout.GetStride = some 0 ∧
      B.GetCount = some 0) ∧
    (∃ B, UDynamicBuffer.createCount emptyStructsLayout 3 = some B ∧ B.Buffer.length = 0 ∧
      B.GetCount = some 0) := by
  constructor
  · have h := zero_stride_buffer_has_no_elements.1 empty
      ((Finalize empty).getD empty) 1 rfl (by decide)
    exact ⟨_, h.1, by decide, by decide⟩
  · obtain ⟨F, hF, hz⟩ := zero_stride_buffer_has_no_elements.2 emptyStructsLayout
      (by decide) (by decide)
    obtain ⟨B, hB, _, _, hlen, hc⟩ := (zero_stride_buffer_has_no_elements.1
      emptyStructsLayout F 3 hF hz).2
    exact ⟨B, hB, hlen, hc⟩

/-! ## C28: the byte range of a chained accessor -/

mutual
theorem FieldLaid_allFinalized : ∀ (f : FField), FieldLaid f → AllFinalizedField f = true
  | .mk .Struct _ _ _ none, h => by simp [FieldLaid] at h
  | .mk .Struct _ _ _ (some l), h => by
    simp only [FieldLaid] at h
    simpa [AllFinalizedField] using Laid_allFinalized l h.2
  | .mk .Bool _ _ _ _, _ => by simp [AllFinalizedField]
  | .mk .Int _ _ _ _, _ => by simp [AllFinalizedField]
  | .mk .Float _ _ _ _, _ => by simp [AllFinalizedField]
  | .mk .Float3 _ _ _ _, _ => by simp [AllFinalizedField]
  | .mk .Float4 _ _ _ _, _ => by simp [AllFinalizedField]
  | .mk .Matrix _ _ _ _, _ => by simp [AllFinalizedField]
  | .mk .Padding _ _ _ _, _ => by simp [AllFinalizedField]
theorem FieldsLaid_allFinalized : ∀ (fs : List FField) (off total : Nat),
    FieldsLaid off total fs → AllFinalizedFields fs = true
  | [], _, _, _ => by simp [AllFinalizedFields]
  | f :: fs, off, total, h => by
    simp only [FieldsLaid] at h
    simp [AllFinalizedFields, FieldLaid_allFinalized f h.2.1,
      FieldsLaid_allFinalized fs _ total h.2.2]
theorem Laid_allFinalized : ∀ (L : UBufferElementLayout), Laid L → AllFinalized L = true
  | .mk fs _ s b, h => by
    simp only [Laid] at h
    simp [AllFinalized, h.1, FieldsLaid_allFinalized fs 0 s h.2]
end

theorem AllFinalized_iff (L : UBufferElementLayout) :
    AllFinalized L = true ↔ L.bIsFinalized = true ∧ AllFinalizedFields L.Fields = true := by
  obtain ⟨fs, m, s, b⟩ := L
  simp [AllFinalized]

theorem AllFinalizedFields_get : ∀ (fs : List FField) (i : Nat) (f : FField),
    AllFinalizedFields fs = true → fs.get? i = some f → AllFinalizedField f = true
  | [], _, _, _, h => by simp at h
  | g :: fs, 0, f, hall, h => by
    simp only [List.get?_cons_zero, Option.some.injEq] at h
    subst h
    simp only [AllFinalizedFields, Bool.and_eq_true] at hall
    exact hall.1
  | g :: fs, i + 1, f, hall, h => by
    simp only [List.get?_cons_succ] at h
    simp only [AllFinalizedFields, Bool.and_eq_true] at hall
    exact AllFinalizedFields_get fs i f hall.2 h

theorem AllFinalizedField_struct (f : FField) (h : AllFinalizedField f = true)
    (ht : f.Type_ = .Struct) : ∃ l, f.Layout = some l ∧ AllFinalized l = true := by
  obtain ⟨t, n, s, o, l⟩ := f
  simp only [FField.Type_mk] at ht
  subst ht
  cases l with
  | none => simp [AllFinalizedField] at h
  | some l => exact ⟨l, rfl, by simpa [AllFinalizedField] using h⟩

theorem index_allFinalized (e e2 : UBufferElement) (n : String) (L : UBufferElementLayout)
    (hL : e.Layout = some L) (hall : AllFinalized L = true) (h : e.index n = some e2) :
    ∃ L2, e2.Layout = some L2 ∧ AllFinalized L2 = true := by
  simp only [UBufferElement.index, hL] at h
  cases hg : L.GetField n with
  | none => simp [hg] at h
  | some f =>
    simp only [hg] at h
    obtain ⟨_, i, _, hget⟩ := GetField_some L n f hg
    have hf := AllFinalizedFields_get L.Fields i f ((AllFinalized_iff L).mp hall).2 hget
    by_cases ht : f.Type_ = .Struct
    · obtain ⟨l, hl, hlall⟩ := AllFinalizedField_struct f hf ht
      simp only [ht, if_true, Option.some.injEq] at h
      subst h
      exact ⟨l, hl, hlall⟩
    · simp only [ht, if_false, Option.some.injEq] at h
      subst h
      exact ⟨L, rfl, hall⟩

theorem indexPath_allFinalized : ∀ (names : List String) (e e2 : UBufferElement)
    (L : UBufferElementLayout), e.Layout = some L → AllFinalized L = true →
    e.indexPath names = some e2 → ∃ L2, e2.Layout = some L2 ∧ AllFinalized L2 = true
  | [], e, e2, L, hL, hall, h => by
    simp only [UBufferElement.indexPath, Option.some.injEq] at h
    subst h
    exact ⟨L, hL, hall⟩
  | n :: ns, e, e2, L, hL, hall, h => by
    simp only [UBufferElement.indexPath] at h
    cases h1 : e.index n with
    | none => simp [h1] at h
    | some e1 =>
      simp only [h1] at h
      obtain ⟨L1, hL1, hall1⟩ := index_allFinalized e e1 n L hL hall h1
      exact indexPath_allFinalized ns e1 e2 L1 hL1 hall1 h

/-- Claim C29. Finalize is bottom-up and total over the tree. On every open schema whose nested
schemas are all open, `Finalize()` succeeds; the result is finalized at every depth
(`AllFinalized`), every `Struct` field taking as its size the stride of its finalized nested
schema (`Laid`); both constructors of the buffer succeed and own this result; and in every
buffer that owns it, every accessor reached from `buffer[i]` by a chain of lookups that
returned has an active schema that is finalized at every depth, so that the next lookup on
it, for whatever name, does not stop at the `assert` of `GetField`. -/
theorem Finalize_finalizes_every_nested_schema (L : UBufferElementLayout)
    (hopen : AllOpen L = true) :
    ∃ F, Finalize L = some F ∧ AllFinalized F = true ∧ Laid F ∧
      (∃ B, UDynamicBuffer.create L = some B ∧ B.Layout = F) ∧
      (∀ n, ∃ B, UDynamicBuffer.createCount L n = some B ∧ B.Layout = F) ∧
      ∀ (B : UDynamicBuffer) (i : Nat) (e0 e : UBufferElement) (names : List String),
        B.Layout = F → B.elementAt i = some e0 → e0.indexPath names = some e →
        ∃ K, e.Layout = some K ∧ K.bIsFinalized = true ∧ AllFinalized K = true ∧
          ∀ name, K.GetFieldOutcome name ≠ .assertFails := by
  obtain ⟨F, hF, hlaid⟩ := Finalize_laid L hopen
  have hall := Laid_allFinalized F hlaid
  have hfin := Finalize_finalized L F hF
  have hs : F.GetStride = some F.Stride := by simp [GetStride, hfin]
  refine ⟨F, hF, hall, hlaid,
    ⟨⟨List.replicate F.Stride 0, F⟩, by simp [UDynamicBuffer.create, hF, hs], rfl⟩,
    fun n => ⟨⟨List.replicate (F.Stride * n % SIZE_MOD) 0, F⟩,
      by simp [UDynamicBuffer.createCount, hF, hs], rfl⟩, ?_⟩
  intro B i e0 e names hB h0 he
  have h0L : e0.Layout = some F := by
    simp only [UDynamicBuffer.elementAt] at h0
    cases hc : B.GetCount with
    | none => simp [hc] at h0
    | some c =>
      simp only [hc, hB, hs] at h0
      split at h0
      · simp only [Option.some.injEq] at h0
        subst h0
        rfl
      · simp at h0
  obtain ⟨K, hK, hKall⟩ := indexPath_allFinalized names e0 e F h0L hall he
  have hKfin := ((AllFinalized_iff K).mp hKall).1
  refine ⟨K, hK, hKfin, hKall, fun name => ?_⟩
  simp only [GetFieldOutcome, GetFieldAtOutcome, hKfin, if_true]
  cases TMap.find K.FieldIndexMap name with
  | none => simp
  | some j =>
    cases hj : K.Fields.get? j with
    | none => simp only [hj]; simp
    | some g => simp only [hj]; simp

/-- Witness of C29 on the schema of `test_deep_nested_struct`, four structs deep: the accessor
`buffer[0]["Level1"]["Level2"]["Level3"]["Level4"]` has a finalized active schema. -/
theorem Finalize_finalizes_every_nested_schema_witness :
    ∃ F, Finalize rootLayout = some F ∧ AllFinalized F = true ∧
      ∃ e K, (rootBuffer.elementAt 0).bind
          (fun e0 => e0.indexPath ["Level1", "Level2", "Level3", "Level4"]) = some e ∧
        e.Layout = some K ∧ K.bIsFinalized = true := by
  obtain ⟨F, hF, hall, _, _, _, hchain⟩ :=
    Finalize_finalizes_every_nested_schema rootLayout (by decide)
  have hFe : rootBuffer.Layout = F := by
    have : Finalize rootLayout = some rootBuffer.Layout := rfl
    rw [this, Option.some.injEq] at hF
    exact hF
  have h0 : rootBuffer.elementAt 0 = some ⟨0, some rootBuffer.Layout, none⟩ := rfl
  cases he : (⟨0, some rootBuffer.Layout, none⟩ : UBufferElement).indexPath
      ["Level1", "Level2", "Level3", "Level4"] with
  | none => exact absurd he (by
      have : ((⟨0, some rootBuffer.Layout, none⟩ : UBufferElement).indexPath
        ["Level1", "Level2", "Level3", "Level4"]).isSome = true := by decide
      intro hn
      rw [hn] at this
      simp at this)
  | some e =>
    obtain ⟨K, hK, hKfin, _⟩ := hchain rootBuffer 0 _ e _ hFe h0 he
    exact ⟨F, hF, hall, e, K, by simp [h0, he], hK, hKfin⟩

/-! ## C30: a struct path stays in its element -/

mutual
theorem FieldLaid_within : ∀ (f : FField), FieldLaid f → FieldFits f → WithinField f
  | .mk .Struct _ _ _ none, h, _ => by simp [FieldLaid] at h
  | .mk .Struct _ _ _ (some l), h, hf => by
    simp only [FieldLaid] at h
    simp only [FieldFits] at hf
    exact ⟨h.1, Laid_within l h.2 hf⟩
  | .mk .Bool _ _ _ _, _, _ => by simp [WithinField]
  | .mk .Int _ _ _ _, _, _ => by simp [WithinField]
  | .mk .Float _ _ _ _, _, _ => by simp [WithinField]
  | .mk .Float3 _ _ _ _, _, _ => by simp [WithinField]
  | .mk .Float4 _ _ _ _, _, _ => by simp [WithinField]
  | .mk .Matrix _ _ _ _, _, _ => by simp [WithinField]
  | .mk .Padding _ _ _ _, _, _ => by simp [WithinField]
theorem FieldsLaid_within : ∀ (fs : List FField) (off total : Nat), FieldsLaid off total fs →
    FieldsFit fs → off + sizeSum fs < SIZE_MOD → WithinFields (off + sizeSum fs) fs
  | [], _, _, _, _, _ => by simp [WithinFields]
  | f :: fs, off, total, h, hf, hlt => by
    simp only [FieldsLaid] at h
    simp only [FieldsFit] at hf
    rw [sizeSum_cons] at hlt ⊢
    have hmod : (off + f.Stride) % SIZE_MOD = off + f.Stride := Nat.mod_eq_of_lt (by omega)
    have ih := FieldsLaid_within fs _ total h.2.2 hf.2 (by rw [hmod]; omega)
    rw [hmod] at ih
    simp only [WithinFields]
    refine ⟨by rw [h.1]; omega, FieldLaid_within f h.2.1 hf.1, ?_⟩
    rw [← Nat.add_assoc]
    exact ih
theorem Laid_within : ∀ (L : UBufferElementLayout), Laid L → Fits L → Within L
  | .mk fs _ s b, h, hf => by
    simp only [Laid] at h
    simp only [Fits] at hf
    have htotal := FieldsLaid_total s fs 0 SIZE_MOD_pos h.2
    have hw := FieldsLaid_within fs 0 s h.2 hf.2 (by omega)
    rw [Nat.zero_add] at htotal hw
    rw [Nat.mod_eq_of_lt hf.1] at htotal
    simpa [Within, htotal] using hw
end

theorem FramedField_leaf (t : EType) (n : String) (s o off : Nat)
    (l : Option UBufferElementLayout) (ht : t ≠ .Struct) :
    FramedField (.mk t n s o l) (.mk t n s off l) := by
  cases t <;> simp_all [FramedField]

mutual
theorem FinalizeField_framed : ∀ (f f2 : FField) (off off2 : Nat),
    FinalizeField off f = some (f2, off2) → FramedField f f2
  | .mk .Struct n s o none, f2, off, off2, h => by
    simp only [FinalizeField, Option.some.injEq, Prod.mk.injEq] at h
    obtain ⟨rfl, _⟩ := h
    simp [FramedField]
  | .mk .Struct n s o (some l), f2, off, off2, h => by
    simp only [FinalizeField] at h
    cases hl : Finalize l with
    | none => simp [hl] at h
    | some l2 =>
      simp only [hl, Option.some.injEq, Prod.mk.injEq] at h
      obtain ⟨rfl, _⟩ := h
      simpa [FramedField] using Finalize_framed l l2 hl
  | .mk .Bool n s o l, f2, off, off2, h => by
    rw [FinalizeField_leaf off .Bool n s o l (by decide)] at h
    simp only [Option.some.injEq, Prod.mk.injEq] at h
    exact h.1 ▸ FramedField_leaf .Bool n s o off l (by decide)
  | .mk .Int n s o l, f2, off, off2, h => by
    rw [FinalizeField_leaf off .Int n s o l (by decide)] at h
    simp only [Option.some.injEq, Prod.mk.injEq] at h
    exact h.1 ▸ FramedField_leaf .Int n s o off l (by decide)
  | .mk .Float n s o l, f2, off, off2, h => by
    rw [FinalizeField_leaf off .Float n s o l (by decide)] at h
    simp only [Option.some.injEq, Prod.mk.injEq] at h
    exact h.1 ▸ FramedField_leaf .Float n s o off l (by decide)
  | .mk .Float3 n s o l, f2, off, off2, h => by
    rw [FinalizeField_leaf off .Float3 n s o l (by decide)] at h
    simp only [Option.some.injEq, Prod.mk.injEq] at h
    exact h.1 ▸ FramedField_leaf .Float3 n s o off l (by decide)
  | .mk .Float4 n s o l, f2, off, off2, h => by
    rw [FinalizeField_leaf off .Float4 n s o l (by decide)] at h
    simp only [Option.some.injEq, Prod.mk.injEq] at h
    exact h.1 ▸ FramedField_leaf .Float4 n s o off l (by decide)
  | .mk .Matrix n s o l, f2, off, off2, h => by
    rw [FinalizeField_leaf off .Matrix n s o l (by decide)] at h
    simp only [Option.some.injEq, Prod.mk.injEq] at h
    exact h.1 ▸ FramedField_leaf .Matrix n s o off l (by decide)
  | .mk .Padding n s o l, f2, off, off2, h => by
    rw [FinalizeField_leaf off .Padding n s o l (by decide)] at h
    simp only [Option.some.injEq, Prod.mk.injEq] at h
    exact h.1 ▸ FramedField_leaf .Padding n s o off l (by decide)
theorem FinalizeLoop_framed : ∀ (fs fs2 : List FField) (off total : Nat),
    FinalizeLoop off fs = some (fs2, total) → FramedFields fs fs2
  | [], fs2, off, total, h => by
    simp only [FinalizeLoop, Option.some.injEq, Prod.mk.injEq] at h
    simp [FramedFields, ← h.1]
  | f :: fs, fs2, off, total, h => by
    simp only [FinalizeLoop] at h
    cases hf : FinalizeField off f with
    | none => simp [hf] at h
    | some p =>
      obtain ⟨g, off2⟩ := p
      simp only [hf] at h
      cases hl : FinalizeLoop off2 fs with
      | none => simp [hl] at h
      | some q =>
        obtain ⟨gs, t⟩ := q
        simp only [hl, Option.some.injEq, Prod.mk.injEq] at h
        simp only [FramedFields]
        exact ⟨g, gs, h.1.symm, FinalizeField_framed f g off off2 hf,
          FinalizeLoop_framed fs gs off2 t hl⟩
theorem Finalize_framed : ∀ (L F : UBufferElementLayout), Finalize L = some F → Framed L F
  | .mk fs m s b, F, h => by
    cases b with
    | true => simp [Finalize] at h
    | false =>
      simp only [Finalize, Bool.false_eq_true, if_false] at h
      cases hl : FinalizeLoop 0 fs with
      | none => simp [hl] at h
      | some p =>
        obtain ⟨fs2, total⟩ := p
        simp only [hl, Option.some.injEq] at h
        subst h
        simpa [Framed] using FinalizeLoop_framed fs fs2 0 total hl
end

theorem FramedField_meta (f g : FField) (h : FramedField f g) :
    g.Type_ = f.Type_ ∧ g.Name = f.Name ∧
      (f.Type_ ≠ .Struct → g.Stride = f.Stride ∧ g.Layout = f.Layout) := by
  obtain ⟨t, n, s, o, l⟩ := f
  cases t <;> cases l <;> simp_all [FramedField]

theorem FramedFields_meta : ∀ (fs gs : List FField), FramedFields fs gs →
    gs.length = fs.length ∧ gs.map FField.Name = fs.map FField.Name ∧
      gs.map FField.Type_ = fs.map FField.Type_ ∧
      ∀ i f g, fs.get? i = some f → gs.get? i = some g → FramedField f g
  | [], gs, h => by
    simp only [FramedFields] at h
    subst h
    simp
  | f :: fs, gs, h => by
    simp only [FramedFields] at h
    obtain ⟨g, gs2, rfl, hf, hfs⟩ := h
    obtain ⟨h1, h2, h3, h4⟩ := FramedFields_meta fs gs2 hfs
    have hm := FramedField_meta f g hf
    refine ⟨by simp [h1], by simp [h2, hm.2.1], by simp [h3, hm.1], ?_⟩
    intro i f1 g1 hf1 hg1
    cases i with
    | zero =>
      simp only [List.get?_cons_zero, Option.some.injEq] at hf1 hg1
      subst hf1 hg1
      exact hf
    | succ i =>
      simp only [List.get?_cons_succ] at hf1 hg1
      exact h4 i f1 g1 hf1 hg1

/-- Claim C32. Finalize frame. Whenever `Finalize()` returns, the result differs from the
schema before the call at most in the offsets of fields, the sizes of `Struct` fields, the
strides and the finalized flags, at every nesting depth (`Framed`). In particular the name
map is the same object, the fields are as many as before and have, index by index, the names
and types they had, and every field that is not a `Struct` has the size and the `Layout`
pointer it had. -/
theorem Finalize_changes_only_offsets_struct_sizes_strides_and_flags
    (L F : UBufferElementLayout) (h : Finalize L = some F) :
    Framed L F ∧ F.FieldIndexMap = L.FieldIndexMap ∧ F.Fields.length = L.Fields.length ∧
      F.Fields.map FField.Name = L.Fields.map FField.Name ∧
      F.Fields.map FField.Type_ = L.Fields.map FField.Type_ ∧
      ∀ i f g, L.Fields.get? i = some f → F.Fields.get? i = some g → f.Type_ ≠ .Struct →
        g.Stride = f.Stride ∧ g.Layout = f.Layout := by
  have hfr := Finalize_framed L F h
  obtain ⟨fs, m, s, b⟩ := L
  have hfr2 := hfr
  simp only [Framed] at hfr2
  obtain ⟨h1, h2, h3, h4⟩ := FramedFields_meta fs F.Fields hfr2.1
  refine ⟨hfr, hfr2.2, h1, h2, h3, ?_⟩
  intro i f g hf hg hty
  exact (FramedField_meta f g (h4 i f g hf hg)).2.2 hty

/-- Witness of C32 on the schema of `test_nested_struct`: the finalized schema is framed by
the open one, with the same two names and the same name map. -/
theorem Finalize_changes_only_offsets_struct_sizes_strides_and_flags_witness :
    Framed sceneLayout sceneLayoutFinalized ∧
      sceneLayoutFinalized.FieldIndexMap = sceneLayout.FieldIndexMap ∧
      sceneLayoutFinalized.Fields.map FField.Name = ["ViewProjection", "Light"] := by
  obtain ⟨h1, h2, _, h4, _⟩ :=
    Finalize_changes_only_offsets_struct_sizes_strides_and_flags sceneLayout
      sceneLayoutFinalized rfl
  exact ⟨h1, h2, h4.trans (by decide)⟩

/-! ## C33: the name map of a reachable schema -/

theorem find_indexMapFrom_largest : ∀ (fs : List FField) (start : Nat)
    (m : List (String × Nat)) (name : String) (k : Nat),
    TMap.find (indexMapFrom start m fs) name = some k →
    ∀ j g, fs.get? j = some g → g.Name = name → g.Type_ ≠ .Padding → start + j ≤ k
  | [], _, _, _, _, _, _, _, hg, _, _ => by simp at hg
  | f :: fs, start, m, name, k, h, j, g, hg, hn, hp => by
    simp only [indexMapFrom] at h
    cases j with
    | zero =>
      simp only [List.get?_cons_zero, Option.some.injEq] at hg
      subst hg
      rcases find_indexMapFrom fs (start + 1) _ name k h with h1 | ⟨hle, _⟩
      · simp only [ne_eq, hp, not_false_eq_true, if_true, TMap.find_set, hn] at h1
        simp only [Option.some.injEq] at h1
        omega
      · omega
    | succ j =>
      simp only [List.get?_cons_succ] at hg
      have := find_indexMapFrom_largest fs (start + 1) _ name k h j g hg hn hp
      omega

theorem EntriesOK_indexMapFrom (fs : List FField) : EntriesOK fs (indexMapFrom 0 [] fs) := by
  intro name k h
  rcases find_indexMapFrom fs 0 [] name k h with h1 | ⟨_, f, hf, hn, hp⟩
  · simp [TMap.find] at h1
  · rw [Nat.sub_zero] at hf
    refine ⟨(List.get?_eq_some.mp hf).1, f, hf, hn, hp, ?_⟩
    intro j g hg hgn hgp
    have := find_indexMapFrom_largest fs 0 [] name k h j g hg hgn hgp
    omega

mutual
theorem WellFormedField_of : ∀ (f : FField), WellMappedField f → OwningField f = true →
    WellFormedField f
  | .mk .Struct _ _ _ none, _, ho => by simp [OwningField] at ho
  | .mk .Struct _ _ _ (some l), hw, ho => by
    simp only [WellMappedField] at hw
    simp only [OwningField] at ho
    simpa [WellFormedField] using WellFormed_of l hw ho
  | .mk .Bool _ _ _ _, _, _ => by simp [WellFormedField]
  | .mk .Int _ _ _ _, _, _ => by simp [WellFormedField]
  | .mk .Float _ _ _ _, _, _ => by simp [WellFormedField]
  | .mk .Float3 _ _ _ _, _, _ => by simp [WellFormedField]
  | .mk .Float4 _ _ _ _, _, _ => by simp [WellFormedField]
  | .mk .Matrix _ _ _ _, _, _ => by simp [WellFormedField]
  | .mk .Padding _ _ _ _, _, _ => by simp [WellFormedField]
theorem WellFormedFields_of : ∀ (fs : List FField), WellMappedFields fs →
    OwningFields fs = true → WellFormedFields fs
  | [], _, _ => by simp [WellFormedFields]
  | f :: fs, hw, ho => by
    simp only [WellMappedFields] at hw
    simp only [OwningFields, Bool.and_eq_true] at ho
    exact ⟨WellFormedField_of f hw.1 ho.1, WellFormedFields_of fs hw.2 ho.2⟩
theorem WellFormed_of : ∀ (L : UBufferElementLayout), WellMapped L → Owning L = true →
    WellFormed L
  | .mk fs m _ _, hw, ho => by
    simp only [WellMapped] at hw
    simp only [Owning] at ho
    simp only [WellFormed]
    exact ⟨hw.1 ▸ EntriesOK_indexMapFrom fs, WellFormedFields_of fs hw.2 ho⟩
end

theorem Owning_iff (L : UBufferElementLayout) : Owning L = OwningFields L.Fields := by
  obtain ⟨fs, m, s, b⟩ := L
  simp [Owning]

theorem OwningFields_append : ∀ (fs gs : List FField),
    OwningFields (fs ++ gs) = (OwningFields fs && OwningFields gs)
  | [], gs => by simp [OwningFields]
  | f :: fs, gs => by simp [OwningFields, OwningFields_append fs gs, Bool.and_assoc]

theorem OwningField_leaf (t : EType) (n : String) (s o : Nat)
    (l : Option UBufferElementLayout) (ht : t ≠ .Struct) :
    OwningField (.mk t n s o l) = true := by
  cases t <;> simp_all [OwningField]

mutual
theorem FramedField_owning : ∀ (f g : FField), FramedField f g → OwningField f = true →
    OwningField g = true
  | .mk .Struct _ _ _ none, _, _, ho => by simp [OwningField] at ho
  | .mk .Struct _ _ _ (some l), g, h, ho => by
    simp only [FramedField] at h
    simp only [OwningField] at ho
    obtain ⟨ht, _, l2, hl2, hfr⟩ := h
    obtain ⟨t, n, s, o, lay⟩ := g
    simp only [FField.Type_mk, FField.Layout_mk] at ht hl2
    subst ht
    subst hl2
    simpa [OwningField] using Framed_owning l l2 hfr ho
  | .mk .Bool _ _ _ _, g, h, _ => by
    obtain ⟨t, n, s, o, lay⟩ := g
    simp only [FramedField, FField.Type_mk] at h
    exact OwningField_leaf t n s o lay (by simp [h.1])
  | .mk .Int _ _ _ _, g, h, _ => by
    obtain ⟨t, n, s, o, lay⟩ := g
    simp only [FramedField, FField.Type_mk] at h
    exact OwningField_leaf t n s o lay (by simp [h.1])
  | .mk .Float _ _ _ _, g, h, _ => by
    obtain ⟨t, n, s, o, lay⟩ := g
    simp only [FramedField, FField.Type_mk] at h
    exact OwningField_leaf t n s o lay (by simp [h.1])
  | .mk .Float3 _ _ _ _, g, h, _ => by
    obtain ⟨t, n, s, o, lay⟩ := g
    simp only [FramedField, FField.Type_mk] at h
    exact OwningField_leaf t n s o lay (by simp [h.1])
  | .mk .Float4 _ _ _ _, g, h, _ => by
    obtain ⟨t, n, s, o, lay⟩ := g
    simp only [FramedField, FField.Type_mk] at h
    exact OwningField_leaf t n s o lay (by simp [h.1])
  | .mk .Matrix _ _ _ _, g, h, _ => by
    obtain ⟨t, n, s, o, lay⟩ := g
    simp only [FramedField, FField.Type_mk] at h
    exact OwningField_leaf t n s o lay (by simp [h.1])
  | .mk .Padding _ _ _ _, g, h, _ => by
    obtain ⟨t, n, s, o, lay⟩ := g
    simp only [FramedField, FField.Type_mk] at h
    exact OwningField_leaf t n s o lay (by simp [h.1])
theorem FramedFields_owning : ∀ (fs gs : List FField), FramedFields fs gs →
    OwningFields fs = true → OwningFields gs = true
  | [], gs, h, _ => by
    simp only [FramedFields] at h
    subst h
    rfl
  | f :: fs, gs, h, ho => by
    simp only [FramedFields] at h
    obtain ⟨g, gs2, rfl, hf, hfs⟩ := h
    simp only [OwningFields, Bool.and_eq_true] at ho ⊢
    exact ⟨FramedField_owning f g hf ho.1, FramedFields_owning fs gs2 hfs ho.2⟩
theorem Framed_owning : ∀ (L F : UBufferElementLayout), Framed L F → Owning L = true →
    Owning F = true
  | .mk fs _ _ _, F, h, ho => by
    simp only [Framed] at h
    simp only [Owning] at ho
    rw [Owning_iff]
    exact FramedFields_owning fs F.Fields h.1 ho
end

theorem CloneField_leaf_inv (t : EType) (n : String) (s o : Nat)
    (l : Option UBufferElementLayout) (ht : t ≠ .Struct) (g : FField)
    (h : CloneField (.mk t n s o l) = some g) :
    g.Name = n ∧ g.Type_ = t ∧ WellMappedField g ∧ OwningField g = true := by
  have hc : CloneField (.mk t n s o l) = some (.mk t n s o none) := by
    cases t <;> simp_all [CloneField]
  rw [hc, Option.some.injEq] at h
  subst h
  exact ⟨rfl, rfl, WellMappedField_leaf t n s o none ht, OwningField_leaf t n s o none ht⟩

mutual
theorem CloneField_inv : ∀ (f g : FField), CloneField f = some g →
    g.Name = f.Name ∧ g.Type_ = f.Type_ ∧ WellMappedField g ∧
      (OwningField f = true → OwningField g = true)
  | .mk .Struct n s o none, g, h => by
    simp only [CloneField, Option.some.injEq] at h
    subst h
    simp [WellMappedField, OwningField]
  | .mk .Struct n s o (some l), g, h => by
    simp only [CloneField] at h
    cases hl : Clone l with
    | none => simp [hl] at h
    | some l2 =>
      simp only [hl, Option.some.injEq] at h
      subst h
      have ih := Clone_inv l l2 hl
      simpa [WellMappedField, OwningField] using ih
  | .mk .Bool n s o l, g, h =>
    (CloneField_leaf_inv .Bool n s o l (by decide) g h).imp id
      (And.imp id (And.imp id fun x _ => x))
  | .mk .Int n s o l, g, h =>
    (CloneField_leaf_inv .Int n s o l (by decide) g h).imp id
      (And.imp id (And.imp id fun x _ => x))
  | .mk .Float n s o l, g, h =>
    (CloneField_leaf_inv .Float n s o l (by decide) g h).imp id
      (And.imp id (And.imp id fun x _ => x))
  | .mk .Float3 n s o l, g, h =>
    (CloneField_leaf_inv .Float3 n s o l (by decide) g h).imp id
      (And.imp id (And.imp id fun x _ => x))
  | .mk .Float4 n s o l, g, h =>
    (CloneField_leaf_inv .Float4 n s o l (by decide) g h).imp id
      (And.imp id (And.imp id fun x _ => x))
  | .mk .Matrix n s o l, g, h =>
    (CloneField_leaf_inv .Matrix n s o l (by decide) g h).imp id
      (And.imp id (And.imp id fun x _ => x))
  | .mk .Padding n s o l, g, h =>
    (CloneField_leaf_inv .Padding n s o l (by decide) g h).imp id
      (And.imp id (And.imp id fun x _ => x))
theorem CloneLoop_inv : ∀ (fs acc : List FField) (m : List (String × Nat))
    (out : List FField) (m2 : List (String × Nat)), CloneLoop acc m fs = some (out, m2) →
    ∃ gs, out = acc ++ gs ∧ m2 = indexMapFrom acc.length m gs ∧ WellMappedFields gs ∧
      (OwningFields fs = true → OwningFields gs = true)
  | [], acc, m, out, m2, h => by
    simp only [CloneLoop, Option.some.injEq, Prod.mk.injEq] at h
    exact ⟨[], by simp [h.1], by simp [indexMapFrom, h.2], by simp [WellMappedFields],
      fun _ => rfl⟩
  | f :: fs, acc, m, out, m2, h => by
    simp only [CloneLoop] at h
    cases hf : CloneField f with
    | none => simp [hf] at h
    | some g =>
      simp only [hf] at h
      obtain ⟨hn, ht, hw, ho⟩ := CloneField_inv f g hf
      obtain ⟨gs, hout, hm2, hws, hos⟩ := CloneLoop_inv fs _ _ out m2 h
      refine ⟨g :: gs, by simp [hout], ?_, ⟨hw, hws⟩, ?_⟩
      · rw [hm2]
        simp [indexMapFrom, hn, ht]
      · intro hall
        simp only [OwningFields, Bool.and_eq_true] at hall ⊢
        exact ⟨ho hall.1, hos hall.2⟩
theorem Clone_inv : ∀ (L C : UBufferElementLayout), Clone L = some C →
    WellMapped C ∧ (Owning L = true → Owning C = true)
  | .mk fs m s b, C, h => by
    cases b with
    | false => simp [Clone] at h
    | true =>
      simp only [Clone, if_true] at h
      cases hl : CloneLoop [] [] fs with
      | none => simp [hl] at h
      | some p =>
        obtain ⟨out, m2⟩ := p
        simp only [hl, Option.some.injEq] at h
        subst h
        obtain ⟨gs, hout, hm2, hws, hos⟩ := CloneLoop_inv fs [] [] out m2 hl
        simp only [List.nil_append, List.length_nil] at hout hm2
        subst hout
        exact ⟨by simp [WellMapped, hm2, hws], by simpa [Owning] using hos⟩
end

theorem indexMapFrom_set : ∀ (fs : List FField) (i : Nat) (f g : FField) (start : Nat)
    (m : List (String × Nat)), fs.get? i = some f → g.Name = f.Name → g.Type_ = f.Type_ →
    indexMapFrom start m (fs.set i g) = indexMapFrom start m fs
  | [], _, _, _, _, _, h, _, _ => by simp at h
  | a :: fs, 0, f, g, start, m, h, hn, ht => by
    simp only [List.get?_cons_zero, Option.some.injEq] at h
    subst h
    simp [List.set, indexMapFrom, hn, ht]
  | a :: fs, i + 1, f, g, start, m, h, hn, ht => by
    simp only [List.get?_cons_succ] at h
    simp only [List.set, indexMapFrom]
    exact indexMapFrom_set fs i f g _ _ h hn ht

theorem WellMappedFields_set : ∀ (fs : List FField) (i : Nat) (g : FField),
    WellMappedFields fs → WellMappedField g → WellMappedFields (fs.set i g)
  | [], _, _, _, _ => by simp [WellMappedFields]
  | f :: fs, 0, g, h, hg => by
    simp only [WellMappedFields] at h
    simp only [List.set, WellMappedFields]
    exact ⟨hg, h.2⟩
  | f :: fs, i + 1, g, h, hg => by
    simp only [WellMappedFields] at h
    simp only [List.set, WellMappedFields]
    exact ⟨h.1, WellMappedFields_set fs i g h.2 hg⟩

theorem OwningFields_set : ∀ (fs : List FField) (i : Nat) (g : FField),
    OwningFields fs = true → OwningField g = true → OwningFields (fs.set i g) = true
  | [], _, _, _, _ => by simp [OwningFields]
  | f :: fs, 0, g, h, hg => by
    simp only [OwningFields, Bool.and_eq_true] at h
    simp [List.set, OwningFields, hg, h.2]
  | f :: fs, i + 1, g, h, hg => by
    simp only [OwningFields, Bool.and_eq_true] at h
    simp [List.set, OwningFields, h.1, OwningFields_set fs i g h.2 hg]

theorem Owning_pushNamed (L : UBufferElementLayout) (f : FField) (n : String)
    (hL : Owning L = true) (hf : OwningField f = true) : Owning (L.pushNamed f n) = true := by
  rw [Owning_iff] at hL ⊢
  simp [pushNamed, OwningFields_append, OwningFields, hL, hf]

theorem Append_eq_some (t : EType) (n : String) (L L2 : UBufferElementLayout)
    (h : UBufferElementLayout.Append t n L = some L2) :
    ∃ f, L2 = L.pushNamed f n ∧ f.Name = n ∧ f.Type_ ≠ .Padding ∧ WellMappedField f ∧
      OwningField f = true := by
  unfold UBufferElementLayout.Append at h
  cases hb : L.bIsFinalized with
  | true => simp [hb] at h
  | false =>
    simp only [hb, Bool.false_eq_true, if_false] at h
    cases t <;> simp only [TypeInfo.Size, Option.some.injEq] at h <;>
      first
      | exact absurd h (by simp)
      | exact ⟨_, h.symm, rfl, by simp,
          by simp [WellMappedField, WellMapped, empty, indexMapFrom, WellMappedFields],
          by simp [OwningField, Owning, empty, OwningFields]⟩

/-- The invariant of the reachable schemas: the name map is the one the appends build for the
fields, and every `Struct` field owns a nested schema, at every depth. -/
theorem Reachable_inv (L : UBufferElementLayout) (h : Reachable L) :
    WellMapped L ∧ Owning L = true := by
  induction h with
  | empty => simp [empty, WellMapped, indexMapFrom, WellMappedFields, Owning, OwningFields]
  | append t n L L2 _ happ ih =>
    obtain ⟨f, rfl, hn, hp, hw, ho⟩ := Append_eq_some t n L L2 happ
    exact ⟨WellMapped_pushNamed L f n ih.1 hw hn hp, Owning_pushNamed L f n ih.2 ho⟩
  | appendStruct n N L L2 _ _ happ ihL ihN =>
    unfold AppendStruct at happ
    cases hb : L.bIsFinalized with
    | true => simp [hb] at happ
    | false =>
      simp only [hb, Bool.false_eq_true, if_false, Option.some.injEq] at happ
      subst happ
      exact ⟨WellMapped_pushNamed L _ n ihL.1 (by simpa [WellMappedField] using ihN.1) rfl
          (by simp),
        Owning_pushNamed L _ n ihL.2 (by simpa [OwningField] using ihN.2)⟩
  | appendPadding k L L2 _ happ ih =>
    unfold AppendPadding at happ
    cases hb : L.bIsFinalized with
    | true => simp [hb] at happ
    | false =>
      simp only [hb, Bool.false_eq_true, if_false] at happ
      by_cases hk : k = 0
      · simp only [hk, if_true, Option.some.injEq] at happ
        subst happ
        exact ih
      · simp only [hk, if_false, Option.some.injEq] at happ
        subst happ
        obtain ⟨hw, ho⟩ := ih
        rw [WellMapped_iff] at hw
        rw [Owning_iff] at ho
        refine ⟨(WellMapped_iff _).mpr ⟨?_, ?_⟩, ?_⟩
        · simp [indexMapFrom_append, indexMapFrom, ← hw.1]
        · simp [WellMappedFields_append, WellMappedFields, WellMappedField, hw.2]
        · rw [Owning_iff]
          simp [OwningFields_append, OwningFields, OwningField, ho]
  | finalize L L2 _ hfin ih =>
    exact ⟨Finalize_wellMapped L L2 ih.1 hfin, Framed_owning L L2 (Finalize_framed L L2 hfin) ih.2⟩
  | clone L L2 _ hclone ih =>
    obtain ⟨hw, ho⟩ := Clone_inv L L2 hclone
    exact ⟨hw, ho ih.2⟩
  | viaHandle n H L L2 _ _ hvia ihL ihH =>
    unfold descendThen at hvia
    cases hb : L.bIsFinalized with
    | true => simp [hb] at hvia
    | false =>
      simp only [hb, Bool.false_eq_true, if_false] at hvia
      cases hm : TMap.find L.FieldIndexMap n with
      | none => simp [hm] at hvia
      | some idx =>
        simp only [hm] at hvia
        cases hg : L.Fields.get? idx with
        | none => simp only [hg] at hvia; simp at hvia
        | some Field =>
          simp only [hg] at hvia
          by_cases ht : Field.Type_ = .Struct
          · simp only [ht, if_true] at hvia
            cases hl : Field.Layout with
            | none => simp [hl] at hvia
            | some Handle =>
              simp only [hl, Option.some.injEq] at hvia
              subst hvia
              obtain ⟨hw, ho⟩ := ihL
              rw [WellMapped_iff] at hw
              rw [Owning_iff] at ho
              refine ⟨(WellMapped_iff _).mpr ⟨?_, ?_⟩, ?_⟩
              · simp only [FieldIndexMap_mk, Fields_mk]
                rw [indexMapFrom_set L.Fields idx Field
                  (.mk .Struct Field.Name Field.Stride Field.Offset (some H)) 0 [] hg rfl
                  (by simp [ht])]
                exact hw.1
              · simp only [Fields_mk]
                exact WellMappedFields_set _ _ _ hw.2 (by simpa [WellMappedField] using ihH.1)
              · rw [Owning_iff]
                simp only [Fields_mk]
                exact OwningFields_set _ _ _ ho (by simpa [OwningField] using ihH.2)
          · simp [ht] at hvia

theorem WellFormed_iff (L : UBufferElementLayout) :
    WellFormed L ↔ EntriesOK L.Fields L.FieldIndexMap ∧ WellFormedFields L.Fields := by
  obtain ⟨fs, m, s, b⟩ := L
  simp [WellFormed]

theorem WellFormedFields_get : ∀ (fs : List FField) (i : Nat) (f : FField),
    WellFormedFields fs → fs.get? i = some f → WellFormedField f
  | [], _, _, _, h => by simp at h
  | g :: fs, 0, f, hw, h => by
    simp only [List.get?_cons_zero, Option.some.injEq] at h
    subst h
    exact hw.1
  | g :: fs, i + 1, f, hw, h => by
    simp only [List.get?_cons_succ] at h
    exact WellFormedFields_get fs i f hw.2 h

theorem WellFormedField_struct (f : FField) (h : WellFormedField f) (ht : f.Type_ = .Struct) :
    ∃ l, f.Layout = some l ∧ WellFormed l := by
  obtain ⟨t, n, s, o, lay⟩ := f
  simp only [FField.Type_mk] at ht
  subst ht
  cases lay with
  | none => simp [WellFormedField] at h
  | some l => exact ⟨l, rfl, by simpa [WellFormedField] using h⟩

theorem Built_reachable (L : UBufferElementLayout) (h : Built L) : Reachable L := by
  induction h with
  | empty => exact Reachable.empty
  | append t n L L2 _ happ ih => exact Reachable.append t n L L2 ih happ
  | appendStruct n N L L2 _ _ happ ihL ihN => exact Reachable.appendStruct n N L L2 ihL ihN happ
  | appendPadding k L L2 _ _ happ ih => exact Reachable.appendPadding k L L2 ih happ

/-- Claim C33. Name-map well-formedness. In every schema reachable by `Append`, `AppendStruct`,
`AppendPadding`, `Finalize` and `Clone` (also when called through the handle of a nested
schema), in the schema itself and in every nested schema at every depth (`WellFormed`): each
entry `name -> k` of `FieldIndexMap` has `k < Fields.size()`, `Fields[k].Name == name`,
`Fields[k].Type != Padding`, and `k` is the largest index of a field with that name that is
not a `Padding`; and every field of type `Struct` owns a nested schema, so that no field
takes the null-layout branch of `Finalize()` and `GetCurrentStride()`. -/
theorem reachable_schema_has_well_formed_name_map (L : UBufferElementLayout)
    (h : Reachable L) :
    WellFormed L ∧
    (∀ name k, TMap.find L.FieldIndexMap name = some k →
      k < L.Fields.length ∧ ∃ f, L.Fields.get? k = some f ∧ f.Name = name ∧
        f.Type_ ≠ .Padding ∧
        ∀ j g, L.Fields.get? j = some g → g.Name = name → g.Type_ ≠ .Padding → j ≤ k) ∧
    (∀ i f, L.Fields.get? i = some f → f.Type_ = .Struct →
      ∃ l, f.Layout = some l ∧ WellFormed l) := by
  obtain ⟨hw, ho⟩ := Reachable_inv L h
  have hwf := WellFormed_of L hw ho
  have h2 := (WellFormed_iff L).mp hwf
  exact ⟨hwf, h2.1, fun i f hf ht =>
    WellFormedField_struct f (WellFormedFields_get L.Fields i f h2.2 hf) ht⟩

/-- Witness of C33 on the clone of the finalized schema of `test_nested_struct`: the entry of
`Light` is index 1, the field there is the `Struct` named `Light`, and it owns a nested
schema. -/
theorem reachable_schema_has_well_formed_name_map_witness :
    ∃ C, Clone sceneLayoutFinalized = some C ∧ WellFormed C ∧
      TMap.find C.FieldIndexMap "Light" = some 1 ∧
      ∃ f l, C.Fields.get? 1 = some f ∧ f.Name = "Light" ∧ f.Layout = some l ∧
        WellFormed l := by
  have hreach : Reachable ((Clone sceneLayoutFinalized).getD empty) :=
    Reachable.clone sceneLayoutFinalized _
      (Reachable.finalize sceneLayout sceneLayoutFinalized
        (Built_reachable sceneLayout
          (Built.appendStruct "Light" lightLayout
            ((UBufferElementLayout.Append .Matrix "ViewProjection" empty).getD empty)
            sceneLayout (Built.append .Matrix "ViewProjection" empty _ Built.empty rfl)
            (Built_AppendAll [(.Float3, "Position"), (.Float4, "Color"), (.Float, "Intensity")]
              empty lightLayout Built.empty rfl) rfl)) rfl) rfl
  obtain ⟨hwf, hentries, hstruct⟩ :=
    reachable_schema_has_well_formed_name_map _ hreach
  have hfind : TMap.find ((Clone sceneLayoutFinalized).getD empty).FieldIndexMap "Light" =
      some 1 := by decide
  obtain ⟨_, f, hf, hn, _, _⟩ := hentries "Light" 1 hfind
  have hty : (((Clone sceneLayoutFinalized).getD empty).Fields.get? 1).map FField.Type_ =
      some .Struct := by decide
  rw [hf] at hty
  simp only [Option.map_some', Option.some.injEq] at hty
  obtain ⟨l, hl, hlwf⟩ := hstruct 1 f hf hty
  exact ⟨_, rfl, hwf, hfind, f, l, hf, hn, hl, hlwf⟩

end JungleEngine
